import Mathlib

/-!
Shallow embedding of the `aabb` Hilbert R-tree (src/src/hilbert_rtree.rs) and
verification of its specification claims.

Modelling conventions:
* `f64` coordinates are modelled as `ℚ` (exact arithmetic on the real-valued
  geometry the code manipulates; all coordinate operations used by the claims
  are order comparisons, `+`, `-`, `*`, `/`, `min`, `max`, which `ℚ` models
  exactly).  The `f64::INFINITY` sentinel used for the not-yet-initialised
  global bounds is modelled by `Option Box` with `none` for "no item added yet".
  Division by zero (which in `f64` produces `inf`/`NaN` and only influences the
  Hilbert sort key, never query answers) is total in `ℚ` with value `0`.
* The single byte buffer (8-byte header, box region, u32 index region) is
  modelled by its three logical components `header : List Nat` (bytes),
  `boxes : List Box` and `indices : List Nat` — the split-buffer representation
  the layout documentation itself describes.  A buffer position `pos` is an
  index into `boxes`/`indices`.
* `u32` stores truncate: every value the code writes through a `*mut u32`
  pointer or an `as u32` cast is reduced `% 2^32` here.
* Out-of-bounds unaligned reads (undefined behaviour in the source) are
  modelled by `List.getD` with a zero default; the safety claim (C9) proves
  built-tree traversals stay in bounds.
-/

namespace Aabb

/-- Box structure: `min_x`, `min_y`, `max_x`, `max_y` (hilbert_rtree.rs:14). -/
structure Box where
  min_x : ℚ
  min_y : ℚ
  max_x : ℚ
  max_y : ℚ
deriving DecidableEq, Repr

instance : Inhabited Box := ⟨⟨0, 0, 0, 0⟩⟩

/-- Zero-filled box slot, the content of freshly `resize`d buffer space. -/
def zeroBox : Box := ⟨0, 0, 0, 0⟩

/-- Componentwise union of two boxes, as computed by the running-bounds update
in `add` (hilbert_rtree.rs:151-154) and the parent-MBR merge loop
(hilbert_rtree.rs:398-402). -/
def mergeBox (a b : Box) : Box :=
  ⟨min a.min_x b.min_x, min a.min_y b.min_y, max a.max_x b.max_x, max a.max_y b.max_y⟩

/-- The 2^32 modulus of the `u32` slots in the index region. -/
def u32mod : Nat := 4294967296

/-- Little-endian bytes of a `u16` value, as written by
`(node_size as u16).to_le_bytes()` (hilbert_rtree.rs:283). -/
def le16 (n : Nat) : List Nat := [n % 256, n / 256 % 256]

/-- Little-endian bytes of a `u32` value, as written by
`(num_items as u32).to_le_bytes()` (hilbert_rtree.rs:284). -/
def le32 (n : Nat) : List Nat := [n % 256, n / 256 % 256, n / 65536 % 256, n / 16777216 % 256]

/-- Rust's `usize::div_ceil` (for a positive divisor). -/
def divCeil (a b : Nat) : Nat := (a + b - 1) / b

/-- Parent-level sizes produced by the `count = count.div_ceil(node_size)` loop
of `build` (hilbert_rtree.rs:271-278): each iteration pushes the new count and
stops once it is `≤ 1`.  The loop is driven by a structural counter: for
`node_size ≥ 2` the counts strictly decrease, so starting the counter at the
initial count (as `build` does) it never runs out; for `node_size ≤ 1` the
source loops forever (unreachable — the tree is always constructed with
`node_size = 16`). -/
def buildCounts (nodeSize : Nat) : Nat → Nat → List Nat
  | _, 0 => []
  | count, fuel + 1 =>
    let c := divCeil count nodeSize
    if c ≤ 1 then [c] else c :: buildCounts nodeSize c fuel

/-- Insertion into a `≤`-sorted list, the building block of `sortBy`. -/
def insertSorted (le : α → α → Bool) (x : α) : List α → List α
  | [] => [x]
  | y :: ys => if le x y then x :: y :: ys else y :: insertSorted le x ys

/-- Comparison sort used to model `sort_unstable_by_key` /
`sort_unstable_by` / `sort_by` of the source (Rust's pattern-defeating
quicksort): for a total `le` it produces a `le`-sorted permutation of its
input, which is the entire contract the algorithms rely on; ties are broken
arbitrarily in both. -/
def sortBy (le : α → α → Bool) (l : List α) : List α :=
  l.foldr (insertSorted le) []

/-- Running partial sums appended after a starting value: the
`level_total_nodes += count; level_bounds.push(level_total_nodes)` updates of
the level-bounds loop (hilbert_rtree.rs:271-278). -/
def accBounds (start : Nat) : List Nat → List Nat
  | [] => []
  | c :: rest => (start + c) :: accBounds (start + c) rest

/-- Prefix-scan bit interleaving helper of the Hilbert encoder
(hilbert_rtree.rs:2056-2062).  All intermediate values of the encoder fit in 32
bits (inputs are 16-bit), so plain `Nat` bit operations coincide with the `u32`
operations of the source. -/
def interleave (x : Nat) : Nat :=
  let x := (x ||| (x <<< 8)) &&& 0x00FF00FF
  let x := (x ||| (x <<< 4)) &&& 0x0F0F0F0F
  let x := (x ||| (x <<< 2)) &&& 0x33333333
  let x := (x ||| (x <<< 1)) &&& 0x55555555
  x

/-- Branchless Hilbert curve index for a 16-bit lattice point
(hilbert_rtree.rs:2066-2112). -/
def hilbert_xy_to_index (x y : Nat) : Nat :=
  let a1 := x ^^^ y
  let b1 := 0xFFFF ^^^ a1
  let c1 := 0xFFFF ^^^ (x ||| y)
  let d1 := x &&& (y ^^^ 0xFFFF)
  let hA1 := a1 ||| (b1 >>> 1)
  let hB1 := (a1 >>> 1) ^^^ a1
  let hC1 := ((c1 >>> 1) ^^^ (b1 &&& (d1 >>> 1))) ^^^ c1
  let hD1 := ((a1 &&& (c1 >>> 1)) ^^^ (d1 >>> 1)) ^^^ d1
  let a2 := hA1
  let b2 := hB1
  let c2 := hC1
  let d2 := hD1
  let hA2 := (a2 &&& (a2 >>> 2)) ^^^ (b2 &&& (b2 >>> 2))
  let hB2 := (a2 &&& (b2 >>> 2)) ^^^ (b2 &&& ((a2 ^^^ b2) >>> 2))
  let hC2 := c2 ^^^ ((a2 &&& (c2 >>> 2)) ^^^ (b2 &&& (d2 >>> 2)))
  let hD2 := d2 ^^^ ((b2 &&& (c2 >>> 2)) ^^^ ((a2 ^^^ b2) &&& (d2 >>> 2)))
  let a3 := hA2
  let b3 := hB2
  let c3 := hC2
  let d3 := hD2
  let hA3 := (a3 &&& (a3 >>> 4)) ^^^ (b3 &&& (b3 >>> 4))
  let hB3 := (a3 &&& (b3 >>> 4)) ^^^ (b3 &&& ((a3 ^^^ b3) >>> 4))
  let hC3 := c3 ^^^ ((a3 &&& (c3 >>> 4)) ^^^ (b3 &&& (d3 >>> 4)))
  let hD3 := d3 ^^^ ((b3 &&& (c3 >>> 4)) ^^^ ((a3 ^^^ b3) &&& (d3 >>> 4)))
  let a4 := hA3
  let b4 := hB3
  let c4 := hC3
  let d4 := hD3
  let hC4 := c4 ^^^ ((a4 &&& (c4 >>> 8)) ^^^ (b4 &&& (d4 >>> 8)))
  let hD4 := d4 ^^^ ((b4 &&& (c4 >>> 8)) ^^^ ((a4 ^^^ b4) &&& (d4 >>> 8)))
  let a5 := hC4 ^^^ (hC4 >>> 1)
  let b5 := hD4 ^^^ (hD4 >>> 1)
  let i0 := x ^^^ y
  let i1 := b5 ||| (0xFFFF ^^^ (i0 ||| a5))
  (interleave i1 <<< 1) ||| interleave i0

/-- The Hilbert R-tree state (hilbert_rtree.rs:37-54).  The single `data`
buffer is split into its `header` bytes, box region and u32 index region (see
the modelling notes above); `position` and `allocated_capacity` are
builder-internal scratch fields that no query reads and are omitted. -/
structure HilbertRTree where
  header : List Nat
  boxes : List Box
  indices : List Nat
  level_bounds : List Nat
  node_size : Nat
  num_items : Nat
  bounds : Option Box
  total_nodes : Nat
deriving DecidableEq, Repr

namespace HilbertRTree

/-- Fresh empty tree (hilbert_rtree.rs:98-123); `with_capacity` only
pre-allocates, so both constructors yield this state. -/
def new : HilbertRTree :=
  { header := [], boxes := [], indices := [], level_bounds := [], node_size := 16,
    num_items := 0, bounds := none, total_nodes := 0 }

/-- Append a bounding box and update the running global bounds
(hilbert_rtree.rs:126-157). -/
def add (t : HilbertRTree) (min_x min_y max_x max_y : ℚ) : HilbertRTree :=
  let b : Box := ⟨min_x, min_y, max_x, max_y⟩
  { t with
    boxes := t.boxes ++ [b]
    bounds := some (match t.bounds with
      | none => b
      | some old => mergeBox old b)
    num_items := t.num_items + 1 }

/-- Add every box of a list in order. -/
def addAll (t : HilbertRTree) (items : List Box) : HilbertRTree :=
  items.foldl (fun t b => t.add b.min_x b.min_y b.max_x b.max_y) t

/-- Unaligned box read at a node position (hilbert_rtree.rs:1840-1845). -/
def get_box (t : HilbertRTree) (pos : Nat) : Box := t.boxes.getD pos zeroBox

/-- Unaligned u32 read at a node position (hilbert_rtree.rs:1859-1864). -/
def get_index (t : HilbertRTree) (pos : Nat) : Nat := t.indices.getD pos 0

/-- Batched read of four consecutive boxes (hilbert_rtree.rs:1850-1855). -/
def get_boxes_batch (t : HilbertRTree) (start_pos : Nat) : List Box :=
  [t.get_box start_pos, t.get_box (start_pos + 1), t.get_box (start_pos + 2),
    t.get_box (start_pos + 3)]

/-- First level bound strictly greater than `node_index`, else `total_nodes`
(hilbert_rtree.rs:1880-1888).  On the sorted `level_bounds` list the source's
`partition_point` binary search returns exactly the first such element. -/
def upper_bound (t : HilbertRTree) (node_index : Nat) : Nat :=
  (t.level_bounds.find? (fun b => decide (node_index < b))).getD t.total_nodes

/-- Hilbert sort key of one leaf box: lattice mapping of its center
(hilbert_rtree.rs:324-330).  `hw`/`hh` are the precomputed
`MAX_HILBERT / extent` scale factors; in `ℚ` a zero extent gives scale 0
(in `f64` it gives an infinite scale whose products are then clamped —
either way the value only influences the sort order, never query results). -/
def hilbertValue (bnds : Box) (hw hh : ℚ) (b : Box) : Nat :=
  let center_x := ((b.min_x + b.max_x) / 2 - bnds.min_x) * hw
  let center_y := ((b.min_y + b.max_y) / 2 - bnds.min_y) * hh
  let hx := (min (max center_x 0) 65534).floor.toNat
  let hy := (min (max center_y 0) 65534).floor.toNat
  hilbert_xy_to_index hx hy

/-- Componentwise union of the chunk of boxes `[pos, pos + cnt)`, seeded with
the box at `pos` exactly as the merge loop does (hilbert_rtree.rs:391-404). -/
def mergeChunk (boxes : List Box) (pos : Nat) : Nat → Box → Box
  | 0, acc => acc
  | n + 1, acc => mergeChunk boxes (pos + 1) n (mergeBox acc (boxes.getD pos zeroBox))

/-- One level of the bottom-up parent construction: the
`while pos < level_end` loop of `build` (hilbert_rtree.rs:389-420).  Each
iteration consumes a chunk of up to `node_size` children starting at `pos`,
writes their union at `parent_pos` and the tagged first-child pointer
`(pos as u32) << 2` into the index slot.  The structural counter bounds the
iteration count; each iteration advances `pos` by at least one (for
`node_size ≥ 1`), so the caller's `levelEnd` counter never runs out. -/
def buildChunks (nodeSize : Nat) : Nat → List Box → List Nat → Nat → Nat → Nat →
    List Box × List Nat
  | 0, boxes, indices, _, _, _ => (boxes, indices)
  | fuel + 1, boxes, indices, pos, levelEnd, parentPos =>
    if levelEnd ≤ pos then (boxes, indices)
    else
      let cnt := min nodeSize (levelEnd - pos)
      let nodeBox := mergeChunk boxes pos cnt (boxes.getD pos zeroBox)
      buildChunks nodeSize fuel (boxes.set parentPos nodeBox)
        (indices.set parentPos ((4 * pos) % u32mod)) (pos + cnt) levelEnd (parentPos + 1)

/-- The outer `for level_idx in 0..self.level_bounds.len() - 1` loop of
`build` (hilbert_rtree.rs:385-422): build parents level by level; the child
cursor continues at each `level_end` and parents are written from there. -/
def buildLevels (nodeSize : Nat) (boxes : List Box) (indices : List Nat)
    (pos : Nat) : List Nat → List Box × List Nat
  | [] => (boxes, indices)
  | levelEnd :: rest =>
    let p := buildChunks nodeSize levelEnd boxes indices pos levelEnd levelEnd
    buildLevels nodeSize p.1 p.2 levelEnd rest

/-- Bulk-load finalisation (hilbert_rtree.rs:238-423).  Mirrors the source:
level bounds and total node count from the `div_ceil` loop, zero-filled buffer
growth, header write, the `num_items ≤ node_size` single-root special case
(identity leaf ids, global bounds as the root box, root index `0 << 2`;
`total_nodes = num_items + 1` there so the arrays are written out directly),
and otherwise the Hilbert sort of the leaves followed by bottom-up parent
construction.  `sort_unstable_by_key` is modelled by `sortBy` on the
same key order (the claims are insensitive to how key ties are broken). -/
def build (t : HilbertRTree) : HilbertRTree :=
  if t.num_items = 0 then t
  else
    let num_items := t.num_items
    let node_size := t.node_size
    let counts := buildCounts node_size num_items num_items
    let level_bounds := num_items :: accBounds num_items counts
    let total_nodes := num_items + counts.sum
    let header := [0xfb, 0x01] ++ le16 (node_size % 65536) ++ le32 (num_items % u32mod)
    let bnds := t.bounds.getD zeroBox
    if num_items ≤ node_size then
      { t with
        header := header
        boxes := t.boxes ++ [bnds]
        indices := List.range num_items ++ [0]
        level_bounds := level_bounds
        total_nodes := total_nodes }
    else
      let hw := 65535 / (bnds.max_x - bnds.min_x)
      let hh := 65535 / (bnds.max_y - bnds.min_y)
      let hilbert_values := t.boxes.map (hilbertValue bnds hw hh)
      let sort_indices :=
        sortBy (fun i j => decide (hilbert_values.getD i 0 ≤ hilbert_values.getD j 0))
          (List.range num_items)
      let leafBoxes := sort_indices.map (fun i => t.boxes.getD i zeroBox)
      let boxes0 := leafBoxes ++ List.replicate (total_nodes - num_items) zeroBox
      let indices0 := sort_indices.map (· % u32mod) ++
        List.replicate (total_nodes - num_items) 0
      let p := buildLevels node_size boxes0 indices0 0 (level_bounds.dropLast)
      { t with
        header := header
        boxes := p.1
        indices := p.2
        level_bounds := level_bounds
        total_nodes := total_nodes }

/-- Number of items (hilbert_rtree.rs:426-428). -/
def len (t : HilbertRTree) : Nat := t.num_items

/-- Emptiness test (hilbert_rtree.rs:431-433). -/
def is_empty (t : HilbertRTree) : Bool := t.num_items = 0

/-- Item accessor (hilbert_rtree.rs:455-474): out-of-range ids give `none`;
before `build` the boxes sit in insertion order; after `build` a linear scan
finds the leaf position holding the item's original id. -/
def get (t : HilbertRTree) (item_id : Nat) : Option (ℚ × ℚ × ℚ × ℚ) :=
  if t.num_items ≤ item_id then none
  else if t.level_bounds = [] then
    let bbox := t.get_box item_id
    some (bbox.min_x, bbox.min_y, bbox.max_x, bbox.max_y)
  else
    match (List.range t.num_items).find? (fun pos => t.get_index pos = item_id) with
    | some pos =>
      let bbox := t.get_box pos
      some (bbox.min_x, bbox.min_y, bbox.max_x, bbox.max_y)
    | none => none

end HilbertRTree

/-- Buffer accesses performed by a traversal, for the in-bounds safety claim:
single box reads, u32 index reads, four-box batch reads, and child positions
enqueued as future `node_index` group starts. -/
inductive Access where
  | boxRead (pos : Nat)
  | idxRead (pos : Nat)
  | batchRead (pos : Nat)
  | child (pos : Nat)
deriving DecidableEq, Repr

/-- State threaded through the `query_intersecting` traversal: the result
sink, the FIFO work queue of pending `node_index` values, and the trace of
buffer accesses (ghost instrumentation of the identical loop). -/
structure TraversalState where
  results : List Nat
  queue : List Nat
  trace : List Access
deriving DecidableEq, Repr

namespace HilbertRTree

/-- Test-and-emit for one node position of the hierarchical
`query_intersecting` path (hilbert_rtree.rs:551-563 and 570-583): if the box
survives the negated window test, a leaf position pushes its original id to
the results and an internal position enqueues its tagged first-child pointer
shifted back down. -/
def qiStep (t : HilbertRTree) (min_x min_y max_x max_y : ℚ) (node_box : Box)
    (current_pos : Nat) (st : TraversalState) : TraversalState :=
  if max_x < node_box.min_x ∨ max_y < node_box.min_y ∨
      min_x > node_box.max_x ∨ min_y > node_box.max_y then st
  else
    let index := t.get_index current_pos
    if current_pos < t.num_items then
      { st with results := st.results ++ [index], trace := st.trace ++ [.idxRead current_pos] }
    else
      let tr := st.trace ++ [.idxRead current_pos, .child (index >>> 2)]
      { st with queue := st.queue ++ [index >>> 2], trace := tr }

/-- The two inner scans of one node group `[pos, pos + remaining)`
(hilbert_rtree.rs:546-583): whole chunks of four positions go through the
batched box read (`pos + 4 ≤ end_pos` is exactly `remaining ≥ 4` for
`remaining = end_pos - pos`), the remaining one to three positions are read
singly. -/
def qiGroup (t : HilbertRTree) (min_x min_y max_x max_y : ℚ) :
    Nat → Nat → TraversalState → TraversalState
  | r + 4, pos, st =>
    let bs := t.get_boxes_batch pos
    let st := { st with trace := st.trace ++ [.batchRead pos] }
    let st := qiStep t min_x min_y max_x max_y (bs.getD 0 zeroBox) pos st
    let st := qiStep t min_x min_y max_x max_y (bs.getD 1 zeroBox) (pos + 1) st
    let st := qiStep t min_x min_y max_x max_y (bs.getD 2 zeroBox) (pos + 2) st
    let st := qiStep t min_x min_y max_x max_y (bs.getD 3 zeroBox) (pos + 3) st
    qiGroup t min_x min_y max_x max_y r (pos + 4) st
  | r + 1, pos, st =>
    let st := { st with trace := st.trace ++ [.boxRead pos] }
    let st := qiStep t min_x min_y max_x max_y (t.get_box pos) pos st
    qiGroup t min_x min_y max_x max_y r (pos + 1) st
  | 0, _, st => st

/-- The outer work-queue loop of the hierarchical `query_intersecting` path
(hilbert_rtree.rs:541-590).  The source loop has no fuel; on built trees it
runs one iteration per scheduled chunk, of which there are at most
`16 ^ depth`, so the fuel the caller passes never runs out (proved below)
and the embedding computes exactly the loop's final state. -/
def qiLoop (t : HilbertRTree) (min_x min_y max_x max_y : ℚ) :
    Nat → Nat → TraversalState → TraversalState
  | 0, _, st => st
  | fuel + 1, node_index, st =>
    let node_end := t.upper_bound node_index
    let end_pos := min (node_index + t.node_size) node_end
    let st := qiGroup t min_x min_y max_x max_y (end_pos - node_index) node_index st
    match st.queue with
    | [] => st
    | q :: rest => qiLoop t min_x min_y max_x max_y fuel q { st with queue := rest }

/-- Distance from a coordinate to an interval along one axis
(hilbert_rtree.rs:1868-1876). -/
def axis_distance (coordinate lo hi : ℚ) : ℚ :=
  if coordinate < lo then lo - coordinate
  else if hi < coordinate then coordinate - hi
  else 0

/-- Squared Euclidean distance from a point to the nearest point of a box,
the `dx * dx + dy * dy` computation every distance query performs. -/
def boxDistSq (px py : ℚ) (b : Box) : ℚ :=
  let dx := axis_distance px b.min_x b.max_x
  let dy := axis_distance py b.min_y b.max_y
  dx * dx + dy * dy

/-- One leaf test of the flat scan (hilbert_rtree.rs:525-534): read the box,
test it against the window with the positive-form predicate, emit its id on a
hit. -/
def qiFlatStep (t : HilbertRTree) (min_x min_y max_x max_y : ℚ)
    (st : TraversalState) (pos : Nat) : TraversalState :=
  let node_box := t.get_box pos
  let st := { st with trace := st.trace ++ [.boxRead pos] }
  if max_x ≥ node_box.min_x ∧ max_y ≥ node_box.min_y ∧
      min_x ≤ node_box.max_x ∧ min_y ≤ node_box.max_y then
    { st with results := st.results ++ [t.get_index pos], trace := st.trace ++ [.idxRead pos] }
  else st

/-- Flat-scan path of `query_intersecting` (hilbert_rtree.rs:522-535): test
every leaf position against the window and emit its id. -/
def qiFlat (t : HilbertRTree) (min_x min_y max_x max_y : ℚ) : TraversalState :=
  (List.range t.num_items).foldl (qiFlatStep t min_x min_y max_x max_y) ⟨[], [], []⟩

/-- Group scan of `query_intersecting_k` (hilbert_rtree.rs:1400-1418): like
the plain window scan but stopping as soon as the sink holds `k` results. -/
def qikGroup (t : HilbertRTree) (min_x min_y max_x max_y : ℚ) (k : Nat) :
    Nat → Nat → List Nat → List Nat → List Nat × List Nat
  | 0, _, res, queue => (res, queue)
  | r + 1, pos, res, queue =>
    if k ≤ res.length then (res, queue)
    else
      let node_box := t.get_box pos
      if max_x < node_box.min_x ∨ max_y < node_box.min_y ∨
          min_x > node_box.max_x ∨ min_y > node_box.max_y then
        qikGroup t min_x min_y max_x max_y k r (pos + 1) res queue
      else
        let index := t.get_index pos
        if pos < t.num_items then
          qikGroup t min_x min_y max_x max_y k r (pos + 1) (res ++ [index]) queue
        else
          qikGroup t min_x min_y max_x max_y k r (pos + 1) res (queue ++ [index >>> 2])

/-- Work-queue loop of `query_intersecting_k` (hilbert_rtree.rs:1392-1425). -/
def qikLoop (t : HilbertRTree) (min_x min_y max_x max_y : ℚ) (k : Nat) :
    Nat → Nat → List Nat → List Nat → List Nat
  | 0, _, res, _ => res
  | fuel + 1, node_index, res, queue =>
    if k ≤ res.length then res
    else
      let node_end := t.upper_bound node_index
      let end_pos := min (node_index + t.node_size) node_end
      let p := qikGroup t min_x min_y max_x max_y k (end_pos - node_index) node_index res queue
      match p.2 with
      | [] => p.1
      | q :: rest => qikLoop t min_x min_y max_x max_y k fuel q p.1 rest

/-- Early-exit window query (hilbert_rtree.rs:1373-1426). -/
def query_intersecting_k (t : HilbertRTree) (min_x min_y max_x max_y : ℚ)
    (k : Nat) : List Nat :=
  if t.num_items = 0 ∨ t.level_bounds = [] ∨ k = 0 then []
  else qikLoop t min_x min_y max_x max_y k t.total_nodes (t.total_nodes - 1) [] []

/-- Group scan of `query_circle` (hilbert_rtree.rs:1471-1486): keep a node
when the squared distance from the circle center to its box is within the
squared radius. -/
def qcGroup (t : HilbertRTree) (center_x center_y radius_sq : ℚ) :
    Nat → Nat → List Nat → List Nat → List Nat × List Nat
  | 0, _, res, queue => (res, queue)
  | r + 1, pos, res, queue =>
    let node_box := t.get_box pos
    let dist_sq := boxDistSq center_x center_y node_box
    if dist_sq ≤ radius_sq then
      let index := t.get_index pos
      if t.num_items ≤ pos then
        qcGroup t center_x center_y radius_sq r (pos + 1) res (queue ++ [index >>> 2])
      else
        qcGroup t center_x center_y radius_sq r (pos + 1) (res ++ [index]) queue
    else qcGroup t center_x center_y radius_sq r (pos + 1) res queue

/-- Work-queue loop of `query_circle` (hilbert_rtree.rs:1467-1493). -/
def qcLoop (t : HilbertRTree) (center_x center_y radius_sq : ℚ) :
    Nat → Nat → List Nat → List Nat → List Nat
  | 0, _, res, _ => res
  | fuel + 1, node_index, res, queue =>
    let node_end := t.upper_bound node_index
    let end_pos := min (node_index + t.node_size) node_end
    let p := qcGroup t center_x center_y radius_sq (end_pos - node_index) node_index res queue
    match p.2 with
    | [] => p.1
    | q :: rest => qcLoop t center_x center_y radius_sq fuel q p.1 rest

/-- Circular range query (hilbert_rtree.rs:1455-1494); a negative radius is
rejected with an empty (cleared) result. -/
def query_circle (t : HilbertRTree) (center_x center_y radius : ℚ) : List Nat :=
  if t.num_items = 0 ∨ t.level_bounds = [] ∨ radius < 0 then []
  else
    let radius_sq := radius * radius
    qcLoop t center_x center_y radius_sq t.total_nodes (t.total_nodes - 1) [] []

/-- Group scan of `query_circle_points` (hilbert_rtree.rs:1544-1569): leaves
(assumed degenerate point boxes) use the direct center distance and are
collected with their distance, parents use the clamped box distance. -/
def qcpGroup (t : HilbertRTree) (center_x center_y radius_sq : ℚ) :
    Nat → Nat → List (ℚ × Nat) → List Nat → List (ℚ × Nat) × List Nat
  | 0, _, cand, queue => (cand, queue)
  | r + 1, pos, cand, queue =>
    let node_box := t.get_box pos
    let dist_sq :=
      if pos < t.num_items then
        let dx := center_x - node_box.min_x
        let dy := center_y - node_box.min_y
        dx * dx + dy * dy
      else boxDistSq center_x center_y node_box
    if dist_sq ≤ radius_sq then
      let index := t.get_index pos
      if t.num_items ≤ pos then
        qcpGroup t center_x center_y radius_sq r (pos + 1) cand (queue ++ [index >>> 2])
      else
        qcpGroup t center_x center_y radius_sq r (pos + 1) (cand ++ [(dist_sq, index)]) queue
    else qcpGroup t center_x center_y radius_sq r (pos + 1) cand queue

/-- Work-queue loop of `query_circle_points` (hilbert_rtree.rs:1540-1576). -/
def qcpLoop (t : HilbertRTree) (center_x center_y radius_sq : ℚ) :
    Nat → Nat → List (ℚ × Nat) → List Nat → List (ℚ × Nat)
  | 0, _, cand, _ => cand
  | fuel + 1, node_index, cand, queue =>
    let node_end := t.upper_bound node_index
    let end_pos := min (node_index + t.node_size) node_end
    let p := qcpGroup t center_x center_y radius_sq (end_pos - node_index) node_index cand queue
    match p.2 with
    | [] => p.1
    | q :: rest => qcpLoop t center_x center_y radius_sq fuel q p.1 rest

/-- Point-optimised circular range query (hilbert_rtree.rs:1527-1583):
candidates are sorted by ascending distance before their ids are emitted. -/
def query_circle_points (t : HilbertRTree) (center_x center_y radius : ℚ) : List Nat :=
  if t.num_items = 0 ∨ t.level_bounds = [] ∨ radius < 0 then []
  else
    let radius_sq := radius * radius
    let cand := qcpLoop t center_x center_y radius_sq t.total_nodes (t.total_nodes - 1) [] []
    (sortBy (fun a b => decide (a.1 ≤ b.1)) cand).map (fun p => p.2)

/-- Group scan of `query_in_direction` (hilbert_rtree.rs:1658-1673): the
standard window test against the swept box. -/
def qdGroup (t : HilbertRTree) (sweep_min_x sweep_min_y sweep_max_x sweep_max_y : ℚ) :
    Nat → Nat → List Nat → List Nat → List Nat × List Nat
  | 0, _, res, queue => (res, queue)
  | r + 1, pos, res, queue =>
    let node_box := t.get_box pos
    if sweep_max_x < node_box.min_x ∨ sweep_max_y < node_box.min_y ∨
        sweep_min_x > node_box.max_x ∨ sweep_min_y > node_box.max_y then
      qdGroup t sweep_min_x sweep_min_y sweep_max_x sweep_max_y r (pos + 1) res queue
    else
      let index := t.get_index pos
      if t.num_items ≤ pos then
        qdGroup t sweep_min_x sweep_min_y sweep_max_x sweep_max_y r (pos + 1) res
          (queue ++ [index >>> 2])
      else
        qdGroup t sweep_min_x sweep_min_y sweep_max_x sweep_max_y r (pos + 1)
          (res ++ [index]) queue

/-- Work-queue loop of `query_in_direction` (hilbert_rtree.rs:1654-1680). -/
def qdLoop (t : HilbertRTree) (sweep_min_x sweep_min_y sweep_max_x sweep_max_y : ℚ) :
    Nat → Nat → List Nat → List Nat → List Nat
  | 0, _, res, _ => res
  | fuel + 1, node_index, res, queue =>
    let node_end := t.upper_bound node_index
    let end_pos := min (node_index + t.node_size) node_end
    let p := qdGroup t sweep_min_x sweep_min_y sweep_max_x sweep_max_y
      (end_pos - node_index) node_index res queue
    match p.2 with
    | [] => p.1
    | q :: rest => qdLoop t sweep_min_x sweep_min_y sweep_max_x sweep_max_y fuel q p.1 rest

/-- Swept-box query (hilbert_rtree.rs:1618-1681).  `ℚ` has no exact square
root, so the `dir_len_sq.sqrt()` value is taken as the argument `dir_len`;
every guard-path behaviour is independent of it, and for the geometric
behaviour it stands for the exact square root of `dir_x² + dir_y²`.  A
negative distance or a zero-magnitude direction yields an empty result. -/
def query_in_direction (t : HilbertRTree) (min_x min_y max_x max_y dir_x dir_y
    distance dir_len : ℚ) : List Nat :=
  if t.num_items = 0 ∨ t.level_bounds = [] ∨ distance < 0 then []
  else
    let dir_len_sq := dir_x * dir_x + dir_y * dir_y
    if dir_len_sq ≤ 0 then []
    else
      let norm_dir_x := dir_x / dir_len
      let norm_dir_y := dir_y / dir_len
      let dx := norm_dir_x * distance
      let dy := norm_dir_y * distance
      let sweep_min_x := min min_x (min_x + dx)
      let sweep_min_y := min min_y (min_y + dy)
      let sweep_max_x := max max_x (max_x + dx)
      let sweep_max_y := max max_y (max_y + dy)
      qdLoop t sweep_min_x sweep_min_y sweep_max_x sweep_max_y t.total_nodes
        (t.total_nodes - 1) [] []

/-- Group scan of `query_in_direction_k` (hilbert_rtree.rs:1763-1788):
intersecting leaves are collected with the projection of their center onto
the normalized direction; internal nodes are pushed onto the LIFO stack. -/
def qdkGroup (t : HilbertRTree) (sweep_min_x sweep_min_y sweep_max_x sweep_max_y
    min_x min_y norm_dir_x norm_dir_y : ℚ) :
    Nat → Nat → List (ℚ × Nat) → List Nat → List (ℚ × Nat) × List Nat
  | 0, _, cand, stack => (cand, stack)
  | r + 1, pos, cand, stack =>
    let node_box := t.get_box pos
    if sweep_max_x < node_box.min_x ∨ sweep_max_y < node_box.min_y ∨
        sweep_min_x > node_box.max_x ∨ sweep_min_y > node_box.max_y then
      qdkGroup t sweep_min_x sweep_min_y sweep_max_x sweep_max_y min_x min_y
        norm_dir_x norm_dir_y r (pos + 1) cand stack
    else
      let index := t.get_index pos
      if pos < t.num_items then
        let box_center_x := (node_box.min_x + node_box.max_x) / 2
        let box_center_y := (node_box.min_y + node_box.max_y) / 2
        let relative_x := box_center_x - min_x
        let relative_y := box_center_y - min_y
        let dist_along_dir := relative_x * norm_dir_x + relative_y * norm_dir_y
        qdkGroup t sweep_min_x sweep_min_y sweep_max_x sweep_max_y min_x min_y
          norm_dir_x norm_dir_y r (pos + 1) (cand ++ [(dist_along_dir, index)]) stack
      else
        qdkGroup t sweep_min_x sweep_min_y sweep_max_x sweep_max_y min_x min_y
          norm_dir_x norm_dir_y r (pos + 1) cand ((index >>> 2) :: stack)

/-- Stack-driven traversal of `query_in_direction_k`
(hilbert_rtree.rs:1756-1789); the work list is a `Vec` used as a LIFO stack,
modelled by a cons list (push = cons, pop = head). -/
def qdkLoop (t : HilbertRTree) (sweep_min_x sweep_min_y sweep_max_x sweep_max_y
    min_x min_y norm_dir_x norm_dir_y : ℚ) :
    Nat → List (ℚ × Nat) → List Nat → List (ℚ × Nat)
  | 0, cand, _ => cand
  | fuel + 1, cand, stack =>
    match stack with
    | [] => cand
    | node_idx :: rest =>
      let node_end := t.upper_bound node_idx
      let end_pos := min (node_idx + t.node_size) node_end
      let p := qdkGroup t sweep_min_x sweep_min_y sweep_max_x sweep_max_y min_x min_y
        norm_dir_x norm_dir_y (end_pos - node_idx) node_idx cand rest
      qdkLoop t sweep_min_x sweep_min_y sweep_max_x sweep_max_y min_x min_y
        norm_dir_x norm_dir_y fuel p.1 p.2

/-- K-limited swept-box query (hilbert_rtree.rs:1719-1810).  As for
`query_in_direction`, `dir_len` stands for `sqrt(dir_x² + dir_y²)`.  The
source's partial sort (`select_nth_unstable_by` + sort of the first `k`)
computes the `k` candidates of smallest projection in ascending order — the
first `k` entries of the fully sorted list, which is how it is written here
(ties among equal projections are implementation-chosen in both). -/
def query_in_direction_k (t : HilbertRTree) (min_x min_y max_x max_y dir_x dir_y : ℚ)
    (k : Nat) (distance dir_len : ℚ) : List Nat :=
  if t.num_items = 0 ∨ t.level_bounds = [] ∨ distance < 0 ∨ k = 0 then []
  else
    let dir_len_sq := dir_x * dir_x + dir_y * dir_y
    if dir_len_sq ≤ 0 then []
    else
      let norm_dir_x := dir_x / dir_len
      let norm_dir_y := dir_y / dir_len
      let dx := norm_dir_x * distance
      let dy := norm_dir_y * distance
      let sweep_min_x := min min_x (min_x + dx)
      let sweep_min_y := min min_y (min_y + dy)
      let sweep_max_x := max max_x (max_x + dx)
      let sweep_max_y := max max_y (max_y + dy)
      let cand := qdkLoop t sweep_min_x sweep_min_y sweep_max_x sweep_max_y min_x min_y
        norm_dir_x norm_dir_y (t.total_nodes + 1) [] [t.total_nodes - 1]
      ((sortBy (fun a b => decide (a.1 ≤ b.1)) cand).take k).map (fun p => p.2)

/-- Insert into the traversal min-priority queue of `query_nearest_k`
(a `BinaryHeap` under the reversed `NodeEntry` order, hilbert_rtree.rs:686-710),
modelled as a list sorted by ascending `dist_sq`; the popped head is a minimum
exactly as `BinaryHeap::pop` returns one (ties are broken arbitrarily there
and positionally here — no claim depends on tie order). -/
def pqInsert (e : ℚ × Nat × Bool) : List (ℚ × Nat × Bool) → List (ℚ × Nat × Bool)
  | [] => [e]
  | x :: xs => if e.1 < x.1 then e :: x :: xs else x :: pqInsert e xs

/-- Insert into the bounded result max-heap of `query_nearest_k`
(hilbert_rtree.rs:714-738), modelled as a list sorted by descending
`dist_sq`; the head is a maximum exactly as `BinaryHeap::peek`/`pop` use. -/
def rhInsert (e : ℚ × Nat) : List (ℚ × Nat) → List (ℚ × Nat)
  | [] => [e]
  | x :: xs => if x.1 < e.1 then e :: x :: xs else x :: rhInsert e xs

/-- The `dist_sq <= max_dist_sq` test with the `f64::INFINITY` initial
threshold modelled as `none`. -/
def withinMax (d : ℚ) : Option ℚ → Bool
  | none => true
  | some m => decide (d ≤ m)

/-- The `entry.dist_sq > max_dist_sq` test (false against the infinite
initial threshold). -/
def aboveMax (d : ℚ) : Option ℚ → Bool
  | none => false
  | some m => decide (m < d)

/-- Level lookup of `query_nearest_k` (hilbert_rtree.rs:803-809): the first
index `i` with `pos < level_bounds[i]`, defaulting to 0. -/
def findLevel (t : HilbertRTree) (pos : Nat) : Nat :=
  match t.level_bounds.findIdx? (fun b => decide (pos < b)) with
  | some i => i
  | none => 0

/-- Child-expansion loop of `query_nearest_k` (hilbert_rtree.rs:825-845 and
849-867): walk up to `node_size` children from `first_child`, stop at the
child level's end, and push each child whose clamped box distance passes the
threshold test (or while fewer than `k` results are collected). -/
def knnChildren (t : HilbertRTree) (px py : ℚ) (k : Nat) (maxDist : Option ℚ)
    (resLen : Nat) (isLeafChild : Bool) (childEnd : Nat) :
    List (ℚ × Nat × Bool) → Nat → Nat → List (ℚ × Nat × Bool)
  | pq, _, 0 => pq
  | pq, child_pos, r + 1 =>
    if childEnd ≤ child_pos then pq
    else
      let child_box := t.get_box child_pos
      let dist_sq := boxDistSq px py child_box
      let pq' := if withinMax dist_sq maxDist || decide (resLen < k) then
          pqInsert (dist_sq, child_pos, isLeafChild) pq
        else pq
      knnChildren t px py k maxDist resLen isLeafChild childEnd pq' (child_pos + 1) r

/-- Best-first loop of `query_nearest_k` (hilbert_rtree.rs:768-870): pop the
closest pending node; stop when it is beyond the threshold with `k` results
banked; bank leaves (evicting the worst and updating the threshold at size
`k`); expand internal nodes into their children. -/
def knnLoop (t : HilbertRTree) (px py : ℚ) (k : Nat) :
    Nat → List (ℚ × Nat × Bool) → List (ℚ × Nat) → Option ℚ → List (ℚ × Nat)
  | 0, _, resHeap, _ => resHeap
  | fuel + 1, pq, resHeap, maxDist =>
    match pq with
    | [] => resHeap
    | e :: pqRest =>
      if aboveMax e.1 maxDist then
        if resHeap.length = k then resHeap
        else knnLoop t px py k fuel pqRest resHeap maxDist
      else if e.2.2 then
        let index := t.get_index e.2.1
        let rh1 := rhInsert (e.1, index) resHeap
        let rh2 := if k < rh1.length then rh1.tail else rh1
        let maxDist' := if rh2.length = k then
            (match rh2.head? with
              | some top => some top.1
              | none => maxDist)
          else maxDist
        knnLoop t px py k fuel pqRest rh2 maxDist'
      else
        let level := findLevel t e.2.1
        let first_child := (t.get_index e.2.1) >>> 2
        let pq' :=
          if 0 < level then
            let child_level_start := t.level_bounds.getD (level - 1) 0
            let child_level_end := t.level_bounds.getD (level - 1) 0
            knnChildren t px py k maxDist resHeap.length
              (decide (child_level_start = t.num_items)) child_level_end pqRest
              first_child t.node_size
          else
            knnChildren t px py k maxDist resHeap.length true t.num_items pqRest
              first_child t.node_size
        knnLoop t px py k fuel pq' resHeap maxDist

/-- Root-level seeding of `query_nearest_k` (hilbert_rtree.rs:743-763). -/
def knnSeed (t : HilbertRTree) (px py : ℚ) : List (ℚ × Nat × Bool) :=
  let root_level := t.level_bounds.length - 1
  let root_start := if 0 < root_level then t.level_bounds.getD (root_level - 1) 0 else 0
  let root_end := t.level_bounds.getD root_level 0
  (List.range' root_start (root_end - root_start)).foldl
    (fun pq pos => pqInsert (boxDistSq px py (t.get_box pos), pos, false) pq) []

/-- K-nearest-neighbor query (hilbert_rtree.rs:669-884): best-first search
over the clamped box distance, then the banked results are sorted by
ascending distance and their ids emitted. -/
def query_nearest_k (t : HilbertRTree) (px py : ℚ) (k : Nat) : List Nat :=
  if t.num_items = 0 ∨ t.level_bounds = [] ∨ k = 0 then []
  else
    let resHeap := knnLoop t px py k (16 ^ t.level_bounds.length) (knnSeed t px py) [] none
    (sortBy (fun a b => decide (a.1 ≤ b.1)) resHeap).map (fun p => p.2)

/-- Child-expansion loop of `query_nearest_k_points`
(hilbert_rtree.rs:1074-1127): identical to `knnChildren` except that leaf
children (positions below `num_items`) use the direct point distance to the
box's min corner instead of the clamped distance. -/
def knnPointsChildren (t : HilbertRTree) (px py : ℚ) (k : Nat) (maxDist : Option ℚ)
    (resLen : Nat) (isLeafChild : Bool) (childEnd : Nat) :
    List (ℚ × Nat × Bool) → Nat → Nat → List (ℚ × Nat × Bool)
  | pq, _, 0 => pq
  | pq, child_pos, r + 1 =>
    if childEnd ≤ child_pos then pq
    else
      let child_box := t.get_box child_pos
      let dist_sq :=
        if child_pos < t.num_items then
          let dx := px - child_box.min_x
          let dy := py - child_box.min_y
          dx * dx + dy * dy
        else boxDistSq px py child_box
      let pq' := if withinMax dist_sq maxDist || decide (resLen < k) then
          pqInsert (dist_sq, child_pos, isLeafChild) pq
        else pq
      knnPointsChildren t px py k maxDist resLen isLeafChild childEnd pq' (child_pos + 1) r

/-- Best-first loop of `query_nearest_k_points` (hilbert_rtree.rs:1017-1129);
the structure of `knnLoop` with the point-optimised child distances. -/
def knnPointsLoop (t : HilbertRTree) (px py : ℚ) (k : Nat) :
    Nat → List (ℚ × Nat × Bool) → List (ℚ × Nat) → Option ℚ → List (ℚ × Nat)
  | 0, _, resHeap, _ => resHeap
  | fuel + 1, pq, resHeap, maxDist =>
    match pq with
    | [] => resHeap
    | e :: pqRest =>
      if aboveMax e.1 maxDist then
        if resHeap.length = k then resHeap
        else knnPointsLoop t px py k fuel pqRest resHeap maxDist
      else if e.2.2 then
        let index := t.get_index e.2.1
        let rh1 := rhInsert (e.1, index) resHeap
        let rh2 := if k < rh1.length then rh1.tail else rh1
        let maxDist' := if rh2.length = k then
            (match rh2.head? with
              | some top => some top.1
              | none => maxDist)
          else maxDist
        knnPointsLoop t px py k fuel pqRest rh2 maxDist'
      else
        let level := findLevel t e.2.1
        let first_child := (t.get_index e.2.1) >>> 2
        let pq' :=
          if 0 < level then
            let child_level_start := t.level_bounds.getD (level - 1) 0
            let child_level_end := t.level_bounds.getD (level - 1) 0
            knnPointsChildren t px py k maxDist resHeap.length
              (decide (child_level_start = t.num_items)) child_level_end pqRest
              first_child t.node_size
          else
            knnPointsChildren t px py k maxDist resHeap.length true t.num_items pqRest
              first_child t.node_size
        knnPointsLoop t px py k fuel pq' resHeap maxDist

/-- Point-optimised K-nearest-neighbor query (hilbert_rtree.rs:917-1143). -/
def query_nearest_k_points (t : HilbertRTree) (px py : ℚ) (k : Nat) : List Nat :=
  if t.num_items = 0 ∨ t.level_bounds = [] ∨ k = 0 then []
  else
    let resHeap := knnPointsLoop t px py k (16 ^ t.level_bounds.length) (knnSeed t px py) [] none
    (sortBy (fun a b => decide (a.1 ≤ b.1)) resHeap).map (fun p => p.2)

/-- Full `query_intersecting` (hilbert_rtree.rs:503-591) returning the result
sink together with the instrumentation: clear the sink, return empty on an
empty or un-built tree, choose the flat scan when the query area exceeds half
the bounds area, otherwise run the hierarchical traversal from the root. -/
def query_intersecting_full (t : HilbertRTree) (min_x min_y max_x max_y : ℚ) :
    TraversalState :=
  if t.num_items = 0 ∨ t.level_bounds = [] then ⟨[], [], []⟩
  else
    let query_area := (max_x - min_x) * (max_y - min_y)
    let b := t.bounds.getD zeroBox
    let bounds_area := (b.max_x - b.min_x) * (b.max_y - b.min_y)
    if bounds_area * (1 / 2) < query_area then qiFlat t min_x min_y max_x max_y
    else
      qiLoop t min_x min_y max_x max_y (16 ^ t.level_bounds.length)
        (t.total_nodes - 1) ⟨[], [], []⟩

/-- Result list of `query_intersecting`. -/
def query_intersecting (t : HilbertRTree) (min_x min_y max_x max_y : ℚ) : List Nat :=
  (t.query_intersecting_full min_x min_y max_x max_y).results

/-- Buffer-access trace of `query_intersecting`. -/
def query_intersecting_trace (t : HilbertRTree) (min_x min_y max_x max_y : ℚ) :
    List Access :=
  (t.query_intersecting_full min_x min_y max_x max_y).trace

/-- Intersection query seeded by a stored item (hilbert_rtree.rs:621-640):
reject out-of-range ids with a descriptive error, then run
`query_intersecting` with the box read at buffer position `item_id` and drop
`item_id` from the results. -/
def query_intersecting_id (t : HilbertRTree) (item_id : Nat) :
    Except String (List Nat) :=
  if t.num_items ≤ item_id then
    .error ("item_id " ++ toString item_id ++ " is out of bounds (tree has " ++
      toString t.num_items ++ " items)")
  else
    let query_box := t.get_box item_id
    let res := t.query_intersecting query_box.min_x query_box.min_y
      query_box.max_x query_box.max_y
    .ok (res.filter (fun idx => decide (idx ≠ item_id)))

end HilbertRTree

/-- Serialized image produced by `save` (hilbert_rtree.rs:1910-1946), fields
in write order.  The `data` buffer bytes are carried as the same three
logical components the in-memory model uses (their byte serialization is a
bijection, and `f64`/`u32` values round-trip exactly through
`to_le_bytes`/`from_le_bytes`); `bounds` keeps the `Option Box` encoding of
the four `f64` bounds fields with their infinity sentinel. -/
structure SavedFile where
  magic : Nat
  version : Nat
  node_size : Nat
  num_items : Nat
  total_nodes : Nat
  level_bounds_len : Nat
  level_bounds : List Nat
  bounds : Option Box
  data_len : Nat
  dataHeader : List Nat
  dataBoxes : List Box
  dataIndices : List Nat
deriving DecidableEq, Repr

namespace HilbertRTree

/-- Serialize a tree (hilbert_rtree.rs:1910-1946): magic `0xfb`, version
`0x01`, then `node_size`, `num_items`, `total_nodes`, the level bounds with
their length, the global bounds and the raw buffer with its byte length, all
`usize` values truncated to `u32`. -/
def save (t : HilbertRTree) : SavedFile :=
  { magic := 0xfb
    version := 0x01
    node_size := t.node_size % u32mod
    num_items := t.num_items % u32mod
    total_nodes := t.total_nodes % u32mod
    level_bounds_len := t.level_bounds.length % u32mod
    level_bounds := t.level_bounds.map (· % u32mod)
    bounds := t.bounds
    data_len := (t.header.length + 32 * t.boxes.length + 4 * t.indices.length) % u32mod
    dataHeader := t.header
    dataBoxes := t.boxes
    dataIndices := t.indices }

/-- Deserialize a tree (hilbert_rtree.rs:1967-2044): validate the magic and
version bytes (distinct "invalid data" errors), then read every persisted
field back.  The buffer read is sized by the stored `data_len` — the
`u32`-truncated byte length `save` wrote (rs:2030-2032) — so only the bytes
that fit in it are restored: the header bytes first, then as many whole
32-byte box records and 4-byte index records as the remaining budget covers
(a record the budget only partially reaches is below the byte resolution of
the split-buffer model; the source leaves its missing bytes zero).
`position` is reset to 0 and no other state is recomputed. -/
def load (f : SavedFile) : Except String HilbertRTree :=
  if f.magic ≠ 0xfb then .error "Invalid file format: magic number mismatch"
  else if f.version ≠ 0x01 then
    .error "Unsupported file version (expected f64 variant v1, got different version)"
  else
    .ok
      { header := f.dataHeader.take f.data_len
        boxes := f.dataBoxes.take ((f.data_len - f.dataHeader.length) / 32)
        indices := f.dataIndices.take
          ((f.data_len - f.dataHeader.length - 32 * f.dataBoxes.length) / 4)
        level_bounds := f.level_bounds
        node_size := f.node_size
        num_items := f.num_items
        bounds := f.bounds
        total_nodes := f.total_nodes }

end HilbertRTree

/-- Header bytes written by `HilbertRTreeI32::build` (hilbert_rtree_i32.rs:210-214):
magic `0xfb`, then literally `0x01` as the `version_and_type` byte (the
adjacent source comment claims "version 1 + i32 type (4)"), then `node_size`
as u16 LE and `num_items` as u32 LE — byte for byte the same header the f64
variant's `build` writes (hilbert_rtree.rs:281-284). -/
def buildHeaderI32 (node_size num_items : Nat) : List Nat :=
  [0xfb, 0x01] ++ le16 (node_size % 65536) ++ le32 (num_items % u32mod)

/-- Global bounds accumulated by an `add` sequence, extracted from the
running-bounds update of `add` (hilbert_rtree.rs:151-154). -/
def globalBounds (items : List Box) : Option Box :=
  items.foldl
    (fun acc b => some (match acc with
      | none => b
      | some old => mergeBox old b))
    none

/-- Build a tree from a list of boxes: `new`, an `add` per box, then `build`. -/
def buildTree (items : List Box) : HilbertRTree :=
  (HilbertRTree.new.addAll items).build

/-- The Hilbert-sorted id order `build` computes for the general branch
(hilbert_rtree.rs:320-344), as a function of the added boxes. -/
def sortIdx (items : List Box) : List Nat :=
  let bnds := (globalBounds items).getD zeroBox
  let hw := 65535 / (bnds.max_x - bnds.min_x)
  let hh := 65535 / (bnds.max_y - bnds.min_y)
  let hilbert_values := items.map (HilbertRTree.hilbertValue bnds hw hh)
  sortBy (fun i j => decide (hilbert_values.getD i 0 ≤ hilbert_values.getD j 0))
    (List.range items.length)

/-- Total node count of the built tree. -/
def totalN (items : List Box) : Nat :=
  items.length + (buildCounts 16 items.length items.length).sum

/-- Level bounds of the built tree. -/
def lbs (items : List Box) : List Nat :=
  items.length :: accBounds items.length (buildCounts 16 items.length items.length)

/-- Box region before the parent passes: permuted leaves, zero-filled rest. -/
def boxes0 (items : List Box) : List Box :=
  (sortIdx items).map (fun i => items.getD i zeroBox) ++
    List.replicate (totalN items - items.length) zeroBox

/-- Index region before the parent passes: sorted ids, zero-filled rest. -/
def indices0 (items : List Box) : List Nat :=
  (sortIdx items).map (· % u32mod) ++
    List.replicate (totalN items - items.length) 0


/-- Box containment: `a` lies inside `b` componentwise.  Parent MBRs contain
their children's boxes in this sense. -/
def boxLE (a b : Box) : Prop :=
  b.min_x ≤ a.min_x ∧ b.min_y ≤ a.min_y ∧ a.max_x ≤ b.max_x ∧ a.max_y ≤ b.max_y

/-- The window predicate of the specification (touching edges intersect),
the positive form used by the flat-scan path (hilbert_rtree.rs:527-528). -/
def boxIntersects (min_x min_y max_x max_y : ℚ) (b : Box) : Prop :=
  max_x ≥ b.min_x ∧ max_y ≥ b.min_y ∧ min_x ≤ b.max_x ∧ min_y ≤ b.max_y

instance (min_x min_y max_x max_y : ℚ) (b : Box) :
    Decidable (boxIntersects min_x min_y max_x max_y b) := by
  unfold boxIntersects
  infer_instance

theorem boxLE_refl (a : Box) : boxLE a a := ⟨le_refl _, le_refl _, le_refl _, le_refl _⟩

theorem boxLE_trans {a b c : Box} (h1 : boxLE a b) (h2 : boxLE b c) : boxLE a c :=
  ⟨le_trans h2.1 h1.1, le_trans h2.2.1 h1.2.1,
    le_trans h1.2.2.1 h2.2.2.1, le_trans h1.2.2.2 h2.2.2.2⟩

theorem boxLE_mergeBox_left (a b : Box) : boxLE a (mergeBox a b) :=
  ⟨min_le_left _ _, min_le_left _ _, le_max_left _ _, le_max_left _ _⟩

theorem boxLE_mergeBox_right (a b : Box) : boxLE b (mergeBox a b) :=
  ⟨min_le_right _ _, min_le_right _ _, le_max_right _ _, le_max_right _ _⟩

theorem mergeBox_boxLE {a b c : Box} (h1 : boxLE a c) (h2 : boxLE b c) :
    boxLE (mergeBox a b) c :=
  ⟨le_min h1.1 h2.1, le_min h1.2.1 h2.2.1, max_le h1.2.2.1 h2.2.2.1, max_le h1.2.2.2 h2.2.2.2⟩

/-- Intersection is monotone under box containment: a window meeting a box
also meets every box containing it. -/
theorem boxIntersects_mono {min_x min_y max_x max_y : ℚ} {a b : Box}
    (hab : boxLE a b) (h : boxIntersects min_x min_y max_x max_y a) :
    boxIntersects min_x min_y max_x max_y b :=
  ⟨le_trans hab.1 h.1, le_trans hab.2.1 h.2.1,
    le_trans h.2.2.1 hab.2.2.1, le_trans h.2.2.2 hab.2.2.2⟩

namespace HilbertRTree

/-- Start position of tree level `lvl` (level 0 is the leaf level `[0, N)`,
level `lvl ≥ 1` occupies `[level_bounds[lvl-1], level_bounds[lvl])`). -/
def lvlStart (t : HilbertRTree) (lvl : Nat) : Nat :=
  if lvl = 0 then 0 else t.level_bounds.getD (lvl - 1) 0

/-- Exclusive end position of tree level `lvl`. -/
def lvlEnd (t : HilbertRTree) (lvl : Nat) : Nat :=
  t.level_bounds.getD lvl 0

/-- First-child position encoded in an internal node's index slot, as the
traversals decode it (`index >> 2`). -/
def fcp (t : HilbertRTree) (lvl p : Nat) : Nat :=
  t.lvlStart (lvl - 1) + (p - t.lvlStart lvl) * 16

/-- Node count of the subtree under a node (itself plus, for an internal
node, the subtrees of its child chunk): the number of best-first iterations
the node can cause, used to show the KNN fuel never runs out. -/
def nodeWeight (t : HilbertRTree) : Nat → Nat → Nat
  | 0, _ => 1
  | lvl + 1, pos =>
    1 + ((List.range' ((t.get_index pos) >>> 2)
        (min ((t.get_index pos) >>> 2 + 16) (t.lvlEnd lvl) -
          (t.get_index pos) >>> 2)).map
      (t.nodeWeight lvl)).sum

end HilbertRTree

/-- The boundary ladder the parent passes of `build` walk: each pass consumes
the child level `[pos, e)` and writes exactly the next level `[e, next)`,
where `next` is the following boundary (`total` for the root pass). -/
def Ladder (total : Nat) : Nat → List Nat → Prop
  | _, [] => True
  | pos, e :: rest =>
    pos < e ∧ e + divCeil (e - pos) 16 = rest.headD total ∧
      rest.headD total ≤ total ∧ Ladder total e rest

/-- Per-pass write facts, read off the final buffers: each parent slot of
each pass holds the tagged pointer to and the box merge of its child chunk. -/
def passFacts (B : List Box) (I : List Nat) (total : Nat) :
    Nat → List Nat → Prop
  | _, [] => True
  | pos, e :: rest =>
    (∀ k, k < rest.headD total - e →
      I.getD (e + k) 0 = (4 * (pos + 16 * k)) % u32mod ∧
      B.getD (e + k) zeroBox =
        HilbertRTree.mergeChunk B (pos + 16 * k) (min 16 (e - (pos + 16 * k)))
          (B.getD (pos + 16 * k) zeroBox)) ∧
    passFacts B I total e rest

/-- Structural well-formedness of a built tree, exactly the facts `build`
establishes for a nonempty item list: the level bounds are the strictly
increasing `div_ceil` cascade from `num_items` to `total_nodes` ending in a
singleton root level, the box and index regions span `total_nodes` slots,
each internal node stores the tagged pointer to its contiguous child chunk
and its box contains every child box, and the leaf index slots hold a
permutation of the original ids. -/
structure WF (t : HilbertRTree) : Prop where
  hB : t.node_size = 16
  hN : 1 ≤ t.num_items
  hlen2 : 2 ≤ t.level_bounds.length
  hsorted : t.level_bounds.Chain' (· < ·)
  hhead : t.level_bounds.getD 0 0 = t.num_items
  hlast : t.level_bounds.getD (t.level_bounds.length - 1) 0 = t.total_nodes
  hroot : t.level_bounds.getD (t.level_bounds.length - 2) 0 + 1 = t.total_nodes
  hboxlen : t.boxes.length = t.total_nodes
  hidxlen : t.indices.length = t.total_nodes
  hcount : ∀ lvl, lvl + 1 < t.level_bounds.length →
    t.lvlEnd (lvl + 1) - t.lvlStart (lvl + 1) =
      divCeil (t.lvlEnd lvl - t.lvlStart lvl) 16
  hidx_internal : ∀ lvl, 1 ≤ lvl → lvl < t.level_bounds.length →
    ∀ p, t.lvlStart lvl ≤ p → p < t.lvlEnd lvl →
      t.get_index p = 4 * t.fcp lvl p
  hmbr : ∀ lvl, 1 ≤ lvl → lvl < t.level_bounds.length →
    ∀ p, t.lvlStart lvl ≤ p → p < t.lvlEnd lvl →
      ∀ q, t.fcp lvl p ≤ q → q < min (t.fcp lvl p + 16) (t.lvlEnd (lvl - 1)) →
        boxLE (t.get_box q) (t.get_box p)
  hleafperm : (t.indices.take t.num_items).Perm (List.range t.num_items)

namespace HilbertRTree

/-- Leftmost descendant leaf position of a node: follow the first-child
pointers down `lvl` levels. -/
def chainLo (t : HilbertRTree) : Nat → Nat → Nat
  | 0, p => p
  | k + 1, p => t.chainLo k ((t.get_index p) >>> 2)

/-- One-past-the-last descendant leaf of the node preceding position `x` at
level `lvl`: the leftmost leaf of `x` itself, or `num_items` when `x` is past
the level's end (the tree is packed, so the last node of every level reaches
the last leaf). -/
def hiN (t : HilbertRTree) (lvl x : Nat) : Nat :=
  if x < t.lvlEnd lvl then t.chainLo lvl x else t.num_items

/-- The contiguous descendant-leaf range of a node, at the level its
position belongs to: the leaf positions the best-first search still has to
account for while the node is pending in the priority queue. -/
def leafSpan (t : HilbertRTree) (pos : Nat) : List Nat :=
  List.range' (t.chainLo (t.findLevel pos) pos)
    (t.hiN (t.findLevel pos) (pos + 1) - t.chainLo (t.findLevel pos) pos)

/-- The result-heap record a banked leaf position contributes: its clamped
squared distance paired with its stored item id. -/
def leafPair (t : HilbertRTree) (px py : ℚ) (ℓ : Nat) : ℚ × Nat :=
  (boxDistSq px py (t.get_box ℓ), t.get_index ℓ)

/-- End of the node group scanned from group start `g`: the traversals all
compute `min(node_index + node_size, upper_bound(node_index))`. -/
def groupEnd (t : HilbertRTree) (g : Nat) : Nat :=
  min (g + t.node_size) (t.upper_bound g)

/-- The node positions of one scanned group. -/
def groupList (t : HilbertRTree) (g : Nat) : List Nat :=
  List.range' g (t.groupEnd g - g)

/-- Position `p` is a node of level `lvl`. -/
def ValidNode (t : HilbertRTree) (lvl p : Nat) : Prop :=
  lvl < t.level_bounds.length ∧ t.lvlStart lvl ≤ p ∧ p < t.lvlEnd lvl

/-- Position `g` starts a child chunk of level `lvl` (a 16-aligned offset
into the level that is strictly inside it).  These are exactly the group
starts the window traversal schedules: the root position and every decoded
first-child pointer. -/
def ValidChunk (t : HilbertRTree) (lvl g : Nat) : Prop :=
  lvl < t.level_bounds.length ∧ (∃ j, g = t.lvlStart lvl + j * 16) ∧ g < t.lvlEnd lvl

/-- Number of chunks in the subtree of the chunk rooted at group start `g`
of level `lvl` (itself plus the chunk subtrees of every node of its group):
an upper bound on the work-queue iterations the chunk can cause. -/
def chunkCount (t : HilbertRTree) : Nat → Nat → Nat
  | 0, _ => 1
  | lvl + 1, g =>
    1 + ((t.groupList g).map (fun p => t.chunkCount lvl ((t.get_index p) >>> 2))).sum

/-- In-bounds condition for one recorded buffer access: box and index reads
stay below `total_nodes`, the four-box batch read needs four slots, and an
enqueued child group start must itself be a valid position. -/
def accessOK (t : HilbertRTree) : Access → Prop
  | .boxRead p => p < t.total_nodes
  | .idxRead p => p < t.total_nodes
  | .batchRead p => p + 4 ≤ t.total_nodes
  | .child p => p < t.total_nodes

/-- Ids a scan of positions `[pos, pos + r)` pushes to the result sink: the
window hits among them that are leaf positions, in order. -/
def emitHits (t : HilbertRTree) (mnx mny mxx mxy : ℚ) (pos r : Nat) : List Nat :=
  ((List.range' pos r).filter
      (fun p => decide (boxIntersects mnx mny mxx mxy (t.get_box p)) &&
        decide (p < t.num_items))).map
    (fun p => t.get_index p)

/-- Child group starts a scan of positions `[pos, pos + r)` enqueues: the
window hits among them that are internal positions, decoded, in order. -/
def enqHits (t : HilbertRTree) (mnx mny mxx mxy : ℚ) (pos r : Nat) : List Nat :=
  ((List.range' pos r).filter
      (fun p => decide (boxIntersects mnx mny mxx mxy (t.get_box p)) &&
        !decide (p < t.num_items))).map
    (fun p => (t.get_index p) >>> 2)

/-- What a single group scan may record: reads within the scanned positions
(batches needing four slots) and child entries decoded from internal
positions of the group. -/
def groupAccessOK (t : HilbertRTree) (pos r : Nat) : Access → Prop
  | .boxRead p => pos ≤ p ∧ p < pos + r
  | .idxRead p => pos ≤ p ∧ p < pos + r
  | .batchRead p => pos ≤ p ∧ p + 4 ≤ pos + r
  | .child c => ∃ p, pos ≤ p ∧ p < pos + r ∧ t.num_items ≤ p ∧ c = (t.get_index p) >>> 2

/-- Ids emitted by the pruned traversal out of the chunk rooted at group
start `g` of level `lvl`: scan the group with the window test; leaves emit
their stored id, internal nodes recurse into their child chunk.  This is the
recursive contract of the breadth-first loop of `query_intersecting`. -/
def emitL (t : HilbertRTree) (mnx mny mxx mxy : ℚ) : Nat → Nat → List Nat
  | 0, g =>
    ((t.groupList g).filter
        (fun p => decide (boxIntersects mnx mny mxx mxy (t.get_box p)))).map
      (fun p => t.get_index p)
  | lvl + 1, g =>
    ((t.groupList g).filter
        (fun p => decide (boxIntersects mnx mny mxx mxy (t.get_box p)))).flatMap
      (fun p => t.emitL mnx mny mxx mxy lvl ((t.get_index p) >>> 2))

end HilbertRTree

/-- Concrete 17-item input: item 0 isolated far from a 16-item grid cluster,
so the general build branch runs and the Hilbert sort moves item 0 away from
leaf position 0. -/
def items17 : List Box :=
  [⟨100, 100, 101, 101⟩,
   ⟨0, 0, 1, 1⟩, ⟨0, 1, 1, 2⟩, ⟨0, 2, 1, 3⟩, ⟨0, 3, 1, 4⟩,
   ⟨1, 0, 2, 1⟩, ⟨1, 1, 2, 2⟩, ⟨1, 2, 2, 3⟩, ⟨1, 3, 2, 4⟩,
   ⟨2, 0, 3, 1⟩, ⟨2, 1, 3, 2⟩, ⟨2, 2, 3, 3⟩, ⟨2, 3, 3, 4⟩,
   ⟨3, 0, 4, 1⟩, ⟨3, 1, 4, 2⟩, ⟨3, 2, 4, 3⟩, ⟨3, 3, 4, 4⟩]

/-- `C3` (code_bug evidence): the `version_and_type` byte at buffer offset 1
is `0x01` for the f64 variant but also `0x01` for the i32 narrow variant —
the two variants write the identical byte, so nothing distinguishes their
files at the version-byte check. -/
theorem C3_version_byte_same_for_both_variants :
    (buildTree [⟨0, 0, 1, 1⟩]).header.getD 1 0 = 0x01 ∧
      (buildHeaderI32 16 1).getD 1 0 = 0x01 ∧
      (buildTree [⟨0, 0, 1, 1⟩]).header.getD 1 0 = (buildHeaderI32 16 1).getD 1 0 := by
  refine ⟨rfl, rfl, rfl⟩

section SortByLemmas

theorem insertSorted_perm (le : α → α → Bool) (x : α) (l : List α) :
    (insertSorted le x l).Perm (x :: l) := by
  induction l with
  | nil => simp [insertSorted]
  | cons y ys ih =>
    simp only [insertSorted]
    split
    · exact List.Perm.refl _
    · exact (List.Perm.cons y ih).trans (List.Perm.swap x y ys)

theorem sortBy_perm (le : α → α → Bool) (l : List α) : (sortBy le l).Perm l := by
  induction l with
  | nil => simp [sortBy]
  | cons x xs ih =>
    simp only [sortBy, List.foldr_cons] at *
    exact (insertSorted_perm le x _).trans (ih.cons x)

end SortByLemmas

section LevelLemmas

/-- On a strictly increasing list, `find?` for "first element above `p`"
returns the `i`-th element whenever the elements before position `i` are all
`≤ p` and the `i`-th is `> p`. -/
theorem find?_first_above {l : List Nat} {i : Nat} (hi : i < l.length) (p : Nat)
    (hup : p < l.getD i 0) (hlo : ∀ j, j < i → l.getD j 0 ≤ p) :
    l.find? (fun b => decide (p < b)) = some (l.getD i 0) := by
  induction l generalizing i with
  | nil => simp at hi
  | cons x xs ih =>
    cases i with
    | zero =>
      simp only [List.getD_cons_zero] at hup
      simp [List.find?_cons, hup]
    | succ i' =>
      have hx : x ≤ p := by
        have := hlo 0 (Nat.succ_pos i')
        simpa using this
      have hnot : ¬ p < x := not_lt.mpr hx
      rw [List.find?_cons]
      have hd : (decide (p < x)) = false := by simp [hnot]
      simp only [hd]
      exact ih (by simpa using hi) (by simpa using hup)
        (fun j hj => by
          have := hlo (j + 1) (by omega)
          simpa using this)

variable {t : HilbertRTree}

theorem WF.lb_pairwise (w : WF t) : t.level_bounds.Pairwise (· < ·) :=
  List.chain'_iff_pairwise.mp w.hsorted

theorem WF.lb_getD_lt (w : WF t) {i j : Nat} (hij : i < j)
    (hj : j < t.level_bounds.length) :
    t.level_bounds.getD i 0 < t.level_bounds.getD j 0 := by
  have hp := w.lb_pairwise
  rw [List.pairwise_iff_get] at hp
  have := hp ⟨i, by omega⟩ ⟨j, hj⟩ (by simpa using hij)
  simpa [List.getD_eq_getElem?_getD, List.getElem?_eq_getElem, hj,
    (by omega : i < t.level_bounds.length)] using this

theorem WF.lb_getD_le (w : WF t) {i j : Nat} (hij : i ≤ j)
    (hj : j < t.level_bounds.length) :
    t.level_bounds.getD i 0 ≤ t.level_bounds.getD j 0 := by
  rcases Nat.eq_or_lt_of_le hij with rfl | h
  · exact le_refl _
  · exact le_of_lt (w.lb_getD_lt h hj)

theorem WF.lvlEnd_le_total (w : WF t) {lvl : Nat} (h : lvl < t.level_bounds.length) :
    t.lvlEnd lvl ≤ t.total_nodes := by
  rw [← w.hlast]
  exact w.lb_getD_le (by omega) (by omega)

theorem WF.lvlStart_lt_lvlEnd (w : WF t) {lvl : Nat} (h : lvl < t.level_bounds.length) :
    t.lvlStart lvl < t.lvlEnd lvl := by
  unfold HilbertRTree.lvlStart HilbertRTree.lvlEnd
  cases lvl with
  | zero =>
    simp only [if_pos rfl]
    rw [w.hhead]
    exact w.hN
  | succ l =>
    simp only [Nat.succ_ne_zero, if_neg, Nat.add_sub_cancel]
    exact w.lb_getD_lt (by omega) h

theorem lvlStart_succ (t : HilbertRTree) (lvl : Nat) :
    t.lvlStart (lvl + 1) = t.lvlEnd lvl := by
  simp [HilbertRTree.lvlStart, HilbertRTree.lvlEnd]

theorem WF.num_items_le_lvlStart (w : WF t) {lvl : Nat} (h1 : 1 ≤ lvl)
    (h : lvl < t.level_bounds.length) : t.num_items ≤ t.lvlStart lvl := by
  unfold HilbertRTree.lvlStart
  rw [if_neg (by omega), ← w.hhead]
  exact w.lb_getD_le (by omega) (by omega)

theorem WF.lvlEnd_zero (w : WF t) : t.lvlEnd 0 = t.num_items := w.hhead

/-- Within a level, `upper_bound` returns exactly that level's end. -/
theorem WF.upper_bound_eq (w : WF t) {lvl p : Nat} (h : lvl < t.level_bounds.length)
    (h1 : t.lvlStart lvl ≤ p) (h2 : p < t.lvlEnd lvl) :
    t.upper_bound p = t.lvlEnd lvl := by
  unfold HilbertRTree.upper_bound
  rw [find?_first_above h p h2]
  · rfl
  · intro j hj
    have hjs : t.level_bounds.getD j 0 ≤ t.lvlStart lvl := by
      unfold HilbertRTree.lvlStart
      rw [if_neg (by omega)]
      exact w.lb_getD_le (by omega) (by omega)
    omega

end LevelLemmas


section ChunkLemmas

variable {t : HilbertRTree}

/-- Decoding an internal node's index slot yields its first-child position. -/
theorem WF.fc_eq (w : WF t) {lvl p : Nat} (h1 : 1 ≤ lvl)
    (hv : t.ValidNode lvl p) : (t.get_index p) >>> 2 = t.fcp lvl p := by
  rw [w.hidx_internal lvl h1 hv.1 p hv.2.1 hv.2.2]
  rw [Nat.shiftRight_eq_div_pow]
  omega

/-- Parent counts are exact, so every child-chunk pointer lands strictly
inside the child level. -/
theorem WF.fcp_lt (w : WF t) {lvl p : Nat} (h1 : 1 ≤ lvl)
    (hv : t.ValidNode lvl p) : t.fcp lvl p < t.lvlEnd (lvl - 1) := by
  obtain ⟨hlen, hs, he⟩ := hv
  have hcnt := w.hcount (lvl - 1) (by omega)
  have hlvl : lvl - 1 + 1 = lvl := by omega
  rw [hlvl] at hcnt
  unfold HilbertRTree.fcp
  have hstart_lt : t.lvlStart (lvl - 1) < t.lvlEnd (lvl - 1) := w.lvlStart_lt_lvlEnd (by omega)
  set len := t.lvlEnd (lvl - 1) - t.lvlStart (lvl - 1) with hlendef
  have hj : p - t.lvlStart lvl < divCeil len 16 := by omega
  have : (p - t.lvlStart lvl) * 16 < len := by
    unfold divCeil at hj
    have h16 : (p - t.lvlStart lvl) + 1 ≤ (len + 16 - 1) / 16 := hj
    have := (Nat.le_div_iff_mul_le (by norm_num : 0 < 16)).mp h16
    omega
  omega

/-- The child chunk of an internal node is a valid chunk of the level
below. -/
theorem WF.child_chunk_valid (w : WF t) {lvl p : Nat} (h1 : 1 ≤ lvl)
    (hv : t.ValidNode lvl p) : t.ValidChunk (lvl - 1) (t.fcp lvl p) := by
  have hlen := hv.1
  exact ⟨by omega, ⟨p - t.lvlStart lvl, rfl⟩, w.fcp_lt h1 hv⟩

/-- The scanned group of a valid chunk is exactly the chunk's node range. -/
theorem WF.groupEnd_eq (w : WF t) {lvl g : Nat} (hc : t.ValidChunk lvl g) :
    t.groupEnd g = min (g + 16) (t.lvlEnd lvl) := by
  obtain ⟨hlen, ⟨j, hj⟩, hg⟩ := hc
  have hs : t.lvlStart lvl ≤ g := by omega
  rw [HilbertRTree.groupEnd, w.upper_bound_eq hlen hs hg, w.hB]

/-- Walking a run of `cnt` nodes of one level: their leaf ranges are
adjacent, so the run covers the contiguous leaf range from the first node's
`chainLo` to the `hiN` after the run, and every leaf in it belongs to some
node of the run. -/
theorem WF.chunkWalk (_w : WF t) {lvl : Nat} (hlvl : lvl < t.level_bounds.length)
    (hPN : ∀ p, t.ValidNode lvl p →
      t.chainLo lvl p < t.hiN lvl (p + 1) ∧ t.hiN lvl (p + 1) ≤ t.num_items) :
    ∀ cnt a, t.lvlStart lvl ≤ a → a + cnt ≤ t.lvlEnd lvl → 1 ≤ cnt →
      t.chainLo lvl a < t.hiN lvl (a + cnt) ∧ t.hiN lvl (a + cnt) ≤ t.num_items ∧
      ∀ ℓ, t.chainLo lvl a ≤ ℓ → ℓ < t.hiN lvl (a + cnt) →
        ∃ q, a ≤ q ∧ q < a + cnt ∧ t.chainLo lvl q ≤ ℓ ∧ ℓ < t.hiN lvl (q + 1) := by
  intro cnt
  induction cnt with
  | zero => omega
  | succ c ih =>
    intro a ha hae _
    by_cases hc : c = 0
    · subst hc
      have hv : t.ValidNode lvl a := ⟨hlvl, ha, by omega⟩
      obtain ⟨h1, h2⟩ := hPN a hv
      exact ⟨h1, h2, fun ℓ hℓ1 hℓ2 => ⟨a, le_refl a, by omega, hℓ1, hℓ2⟩⟩
    · have hrec := ih a ha (by omega) (by omega)
      have hvlast : t.ValidNode lvl (a + c) := ⟨hlvl, by omega, by omega⟩
      obtain ⟨hl1, hl2⟩ := hPN (a + c) hvlast
      have hadj : t.hiN lvl (a + c) = t.chainLo lvl (a + c) := by
        unfold HilbertRTree.hiN
        rw [if_pos (by omega)]
      refine ⟨?_, ?_, ?_⟩
      · have := hrec.1
        rw [hadj] at this
        calc t.chainLo lvl a < t.chainLo lvl (a + c) := this
          _ < t.hiN lvl (a + c + 1) := hl1
      · exact hl2
      · intro ℓ hℓ1 hℓ2
        by_cases hin : ℓ < t.hiN lvl (a + c)
        · obtain ⟨q, hq1, hq2, hq3, hq4⟩ := hrec.2.2 ℓ hℓ1 hin
          exact ⟨q, hq1, by omega, hq3, hq4⟩
        · rw [hadj] at hin
          exact ⟨a + c, by omega, by omega, by omega, hℓ2⟩

/-- The node-range facts, by induction over the levels: every node's
descendant leaves form the nonempty contiguous run
`[chainLo lvl p, hiN lvl (p+1))` inside `[0, num_items)`, its box contains
every leaf box of the run, and the first node of every level reaches leaf 0. -/
theorem WF.nodeFacts (w : WF t) : ∀ lvl, lvl < t.level_bounds.length →
    (∀ p, t.ValidNode lvl p →
      t.chainLo lvl p < t.hiN lvl (p + 1) ∧ t.hiN lvl (p + 1) ≤ t.num_items ∧
      ∀ ℓ, t.chainLo lvl p ≤ ℓ → ℓ < t.hiN lvl (p + 1) →
        boxLE (t.get_box ℓ) (t.get_box p)) ∧
    t.chainLo lvl (t.lvlStart lvl) = 0 := by
  intro lvl
  induction lvl with
  | zero =>
    intro hlvl
    constructor
    · intro p hv
      obtain ⟨_, hs, he⟩ := hv
      have hE0 : t.lvlEnd 0 = t.num_items := w.lvlEnd_zero
      have hlo : t.chainLo 0 p = p := rfl
      have hhi : t.hiN 0 (p + 1) = p + 1 := by
        unfold HilbertRTree.hiN
        split
        · rfl
        · omega
      refine ⟨by omega, by omega, ?_⟩
      intro ℓ hℓ1 hℓ2
      rw [hlo] at hℓ1
      rw [hhi] at hℓ2
      have : ℓ = p := by omega
      subst this
      exact boxLE_refl _
    · rfl
  | succ lvl ih =>
    intro hlvl
    obtain ⟨ihPN, ihSL⟩ := ih (by omega)
    have hPNw : ∀ p, t.ValidNode lvl p →
        t.chainLo lvl p < t.hiN lvl (p + 1) ∧ t.hiN lvl (p + 1) ≤ t.num_items :=
      fun p hv => ⟨(ihPN p hv).1, (ihPN p hv).2.1⟩
    constructor
    · intro p hv
      obtain ⟨_, hs, he⟩ := hv
      have hfc : (t.get_index p) >>> 2 = t.fcp (lvl + 1) p :=
        w.fc_eq (by omega) ⟨hlvl, hs, he⟩
      have hlo : t.chainLo (lvl + 1) p = t.chainLo lvl (t.fcp (lvl + 1) p) := by
        show t.chainLo lvl ((t.get_index p) >>> 2) = _
        rw [hfc]
      have hfcs : t.lvlStart lvl ≤ t.fcp (lvl + 1) p := by
        unfold HilbertRTree.fcp
        simp only [Nat.add_sub_cancel]
        omega
      have hfce : t.fcp (lvl + 1) p < t.lvlEnd lvl := w.fcp_lt (by omega) ⟨hlvl, hs, he⟩
      have hce : min (t.fcp (lvl + 1) p + 16) (t.lvlEnd lvl) - t.fcp (lvl + 1) p ≥ 1 := by
        omega
      set fc := t.fcp (lvl + 1) p with hfcdef
      set ce := min (fc + 16) (t.lvlEnd lvl) with hcedef
      have hwalk := w.chunkWalk (by omega) hPNw (ce - fc) fc hfcs (by omega) hce
      rw [(by omega : fc + (ce - fc) = ce)] at hwalk
      have hkey : t.hiN (lvl + 1) (p + 1) = t.hiN lvl ce := by
        by_cases hp1 : p + 1 < t.lvlEnd (lvl + 1)
        · have hv1 : t.ValidNode (lvl + 1) (p + 1) := ⟨hlvl, by omega, hp1⟩
          have hfc1 : (t.get_index (p + 1)) >>> 2 = t.fcp (lvl + 1) (p + 1) :=
            w.fc_eq (by omega) hv1
          have hfcsucc : t.fcp (lvl + 1) (p + 1) = fc + 16 := by
            rw [hfcdef]
            unfold HilbertRTree.fcp
            have : p + 1 - t.lvlStart (lvl + 1) = (p - t.lvlStart (lvl + 1)) + 1 := by omega
            rw [this]
            ring
          have hfce1 : t.fcp (lvl + 1) (p + 1) < t.lvlEnd lvl := w.fcp_lt (by omega) hv1
          have hceq : ce = fc + 16 := by omega
          unfold HilbertRTree.hiN
          rw [if_pos hp1, if_pos (by omega)]
          show t.chainLo lvl ((t.get_index (p + 1)) >>> 2) = t.chainLo lvl ce
          rw [hfc1, hfcsucc, hceq]
        · have hplast : p + 1 = t.lvlEnd (lvl + 1) := by omega
          have hcnt := w.hcount lvl hlvl
          have hclen : 16 * divCeil (t.lvlEnd lvl - t.lvlStart lvl) 16 ≥
              t.lvlEnd lvl - t.lvlStart lvl := by
            unfold divCeil
            omega
          have hfclast : fc + 16 ≥ t.lvlEnd lvl := by
            rw [hfcdef]
            unfold HilbertRTree.fcp
            simp only [Nat.add_sub_cancel]
            have hpv : p - t.lvlStart (lvl + 1) = (t.lvlEnd (lvl + 1) - t.lvlStart (lvl + 1)) - 1 := by
              omega
            rw [hpv, hcnt]
            have hd1 : 1 ≤ divCeil (t.lvlEnd lvl - t.lvlStart lvl) 16 := by
              have hlt := w.lvlStart_lt_lvlEnd (by omega : lvl < t.level_bounds.length)
              unfold divCeil
              omega
            have := hclen
            set d := divCeil (t.lvlEnd lvl - t.lvlStart lvl) 16
            omega
          unfold HilbertRTree.hiN
          rw [if_neg (by omega), if_neg (by omega)]
      refine ⟨?_, ?_, ?_⟩
      · rw [hlo, hkey]
        exact hwalk.1
      · rw [hkey]
        exact hwalk.2.1
      · intro ℓ hℓ1 hℓ2
        rw [hlo] at hℓ1
        rw [hkey] at hℓ2
        obtain ⟨q, hq1, hq2, hq3, hq4⟩ := hwalk.2.2 ℓ hℓ1 hℓ2
        have hqv : t.ValidNode lvl q := ⟨by omega, by omega, by omega⟩
        have hbox1 : boxLE (t.get_box ℓ) (t.get_box q) := (ihPN q hqv).2.2 ℓ hq3 hq4
        have hbox2 : boxLE (t.get_box q) (t.get_box p) := by
          have := w.hmbr (lvl + 1) (by omega) hlvl p hs he q (by omega)
          rw [(by omega : lvl + 1 - 1 = lvl)] at this
          exact this (by omega)
        exact boxLE_trans hbox1 hbox2
    · have hsv : t.lvlStart (lvl + 1) < t.lvlEnd (lvl + 1) := w.lvlStart_lt_lvlEnd hlvl
      have hfc : (t.get_index (t.lvlStart (lvl + 1))) >>> 2 =
          t.fcp (lvl + 1) (t.lvlStart (lvl + 1)) :=
        w.fc_eq (by omega) ⟨hlvl, le_refl _, hsv⟩
      show t.chainLo lvl ((t.get_index (t.lvlStart (lvl + 1))) >>> 2) = 0
      rw [hfc]
      unfold HilbertRTree.fcp
      simp only [Nat.sub_self, Nat.zero_mul, Nat.add_zero, Nat.add_sub_cancel]
      exact ihSL

/-- Descending one level: a node's leftmost leaf is its first child's. -/
theorem WF.chainLo_succ_node (w : WF t) {lvl p : Nat} (hv : t.ValidNode (lvl + 1) p) :
    t.chainLo (lvl + 1) p = t.chainLo lvl (t.fcp (lvl + 1) p) := by
  have hfc : (t.get_index p) >>> 2 = t.fcp (lvl + 1) p := w.fc_eq (by omega) hv
  show t.chainLo lvl ((t.get_index p) >>> 2) = _
  rw [hfc]

/-- Descending one level on the right edge: the `hiN` boundary after a node
equals the boundary after its child chunk. -/
theorem WF.hiN_succ_node (w : WF t) {lvl p : Nat} (hv : t.ValidNode (lvl + 1) p) :
    t.hiN (lvl + 1) (p + 1) =
      t.hiN lvl (min (t.fcp (lvl + 1) p + 16) (t.lvlEnd lvl)) := by
  obtain ⟨hlvl, hs, he⟩ := hv
  have hfce : t.fcp (lvl + 1) p < t.lvlEnd lvl := w.fcp_lt (by omega) ⟨hlvl, hs, he⟩
  set fc := t.fcp (lvl + 1) p with hfcdef
  by_cases hp1 : p + 1 < t.lvlEnd (lvl + 1)
  · have hv1 : t.ValidNode (lvl + 1) (p + 1) := ⟨hlvl, by omega, hp1⟩
    have hfc1 : (t.get_index (p + 1)) >>> 2 = t.fcp (lvl + 1) (p + 1) :=
      w.fc_eq (by omega) hv1
    have hfcsucc : t.fcp (lvl + 1) (p + 1) = fc + 16 := by
      rw [hfcdef]
      unfold HilbertRTree.fcp
      have hstep : p + 1 - t.lvlStart (lvl + 1) = (p - t.lvlStart (lvl + 1)) + 1 := by omega
      rw [hstep]
      ring
    have hfce1 : t.fcp (lvl + 1) (p + 1) < t.lvlEnd lvl := w.fcp_lt (by omega) hv1
    unfold HilbertRTree.hiN
    rw [if_pos hp1, if_pos (by omega)]
    show t.chainLo lvl ((t.get_index (p + 1)) >>> 2) = t.chainLo lvl (min (fc + 16) (t.lvlEnd lvl))
    rw [hfc1, hfcsucc, (by omega : min (fc + 16) (t.lvlEnd lvl) = fc + 16)]
  · have hcnt := w.hcount lvl hlvl
    have hclen : 16 * divCeil (t.lvlEnd lvl - t.lvlStart lvl) 16 ≥
        t.lvlEnd lvl - t.lvlStart lvl := by
      unfold divCeil
      omega
    have hfclast : fc + 16 ≥ t.lvlEnd lvl := by
      rw [hfcdef]
      unfold HilbertRTree.fcp
      simp only [Nat.add_sub_cancel]
      have hpv : p - t.lvlStart (lvl + 1) =
          (t.lvlEnd (lvl + 1) - t.lvlStart (lvl + 1)) - 1 := by omega
      rw [hpv, hcnt]
      have hd1 : 1 ≤ divCeil (t.lvlEnd lvl - t.lvlStart lvl) 16 := by
        have hlt := w.lvlStart_lt_lvlEnd (by omega : lvl < t.level_bounds.length)
        unfold divCeil
        omega
      set d := divCeil (t.lvlEnd lvl - t.lvlStart lvl) 16
      omega
    unfold HilbertRTree.hiN
    rw [if_neg (by omega), if_neg (by omega)]

theorem filter_flatMap_eq (l : List α) (q : α → Bool) (h : α → List β) :
    (l.filter q).flatMap h = l.flatMap (fun x => if q x then h x else []) := by
  induction l with
  | nil => simp
  | cons x xs ih =>
    by_cases hx : q x
    · simp [List.filter_cons, hx, ih]
    · simp [List.filter_cons, hx, ih]

theorem flatMap_filter (l : List α) (g : α → List β) (q : β → Bool) :
    (l.flatMap g).filter q = l.flatMap (fun x => (g x).filter q) := by
  induction l with
  | nil => simp
  | cons x xs ih => simp [List.flatMap_cons, List.filter_append, ih]

theorem flatMap_map (l : List α) (g : α → List β) (f : β → γ) :
    (l.flatMap g).map f = l.flatMap (fun x => (g x).map f) := by
  induction l with
  | nil => simp
  | cons x xs ih => simp [List.flatMap_cons, List.map_append, ih]

theorem flatMap_congr_mem {l : List α} {f g : α → List β} (h : ∀ x ∈ l, f x = g x) :
    l.flatMap f = l.flatMap g := by
  induction l with
  | nil => simp
  | cons x xs ih =>
    simp only [List.flatMap_cons]
    rw [h x (by simp), ih (fun y hy => h y (by simp [hy]))]

/-- The window test of the traversal loops (negated miss test) agrees with
the positive-form predicate. -/
theorem boxIntersects_iff_not (mnx mny mxx mxy : ℚ) (b : Box) :
    boxIntersects mnx mny mxx mxy b ↔
      ¬(mxx < b.min_x ∨ mxy < b.min_y ∨ mnx > b.max_x ∨ mny > b.max_y) := by
  unfold boxIntersects
  push_neg
  simp only [ge_iff_le, not_lt]

/-- A run of nodes of one level decomposes the covered leaf range into the
concatenation of the nodes' individual leaf ranges, in order. -/
theorem WF.rangeSegs (w : WF t) {lvl : Nat} (hlvl : lvl < t.level_bounds.length) :
    ∀ cnt a, t.lvlStart lvl ≤ a → a + cnt ≤ t.lvlEnd lvl → 1 ≤ cnt →
      List.range' (t.chainLo lvl a) (t.hiN lvl (a + cnt) - t.chainLo lvl a) =
        (List.range' a cnt).flatMap
          (fun p => List.range' (t.chainLo lvl p) (t.hiN lvl (p + 1) - t.chainLo lvl p)) := by
  have hPN : ∀ p, t.ValidNode lvl p →
      t.chainLo lvl p < t.hiN lvl (p + 1) ∧ t.hiN lvl (p + 1) ≤ t.num_items :=
    fun p hv => ⟨((w.nodeFacts lvl hlvl).1 p hv).1, ((w.nodeFacts lvl hlvl).1 p hv).2.1⟩
  intro cnt
  induction cnt with
  | zero => omega
  | succ c ih =>
    intro a ha hae _
    by_cases hc : c = 0
    · subst hc
      simp [List.range'_succ]
    · have hadj : t.hiN lvl (a + 1) = t.chainLo lvl (a + 1) := by
        unfold HilbertRTree.hiN
        rw [if_pos (by omega)]
      have h1 : t.chainLo lvl a < t.hiN lvl (a + 1) := (hPN a ⟨hlvl, ha, by omega⟩).1
      have hwalk := w.chunkWalk hlvl hPN c (a + 1) (by omega) (by omega) (by omega)
      have h2 : t.chainLo lvl (a + 1) < t.hiN lvl (a + 1 + c) := hwalk.1
      rw [(by omega : a + (c + 1) = a + 1 + c)]
      have hcat := List.range'_append (t.chainLo lvl a) (t.hiN lvl (a + 1) - t.chainLo lvl a)
        (t.hiN lvl (a + 1 + c) - t.chainLo lvl (a + 1)) 1
      simp only [Nat.one_mul, Nat.mul_one] at hcat
      have e1 : t.chainLo lvl a + (t.hiN lvl (a + 1) - t.chainLo lvl a) =
          t.chainLo lvl (a + 1) := by omega
      rw [e1] at hcat
      have e2 : t.hiN lvl (a + 1 + c) - t.chainLo lvl a =
          t.hiN lvl (a + 1 + c) - t.chainLo lvl (a + 1) +
            (t.hiN lvl (a + 1) - t.chainLo lvl a) := by omega
      rw [e2, ← hcat]
      rw [ih (a + 1) (by omega) (by omega) (by omega)]
      have hr : List.range' a (c + 1) = a :: List.range' (a + 1) c := List.range'_succ a c 1
      rw [hr, List.flatMap_cons]

/-- The pruned chunk traversal emits exactly the stored ids of the
intersecting leaves of the chunk's contiguous leaf range, in leaf-position
order: pruning an internal node loses nothing because its box contains every
descendant leaf box. -/
theorem WF.emitL_eq (w : WF t) (mnx mny mxx mxy : ℚ) :
    ∀ lvl g, t.ValidChunk lvl g →
      t.emitL mnx mny mxx mxy lvl g =
        ((List.range' (t.chainLo lvl g)
            (t.hiN lvl (min (g + 16) (t.lvlEnd lvl)) - t.chainLo lvl g)).filter
          (fun ℓ => decide (boxIntersects mnx mny mxx mxy (t.get_box ℓ)))).map
          (fun ℓ => t.get_index ℓ) := by
  intro lvl
  induction lvl with
  | zero =>
    intro g hc
    obtain ⟨hlvl, ⟨j, hj⟩, hg⟩ := hc
    have hge : t.groupEnd g = min (g + 16) (t.lvlEnd 0) := w.groupEnd_eq ⟨hlvl, ⟨j, hj⟩, hg⟩
    have hlo : t.chainLo 0 g = g := rfl
    have hhi : t.hiN 0 (min (g + 16) (t.lvlEnd 0)) = min (g + 16) (t.lvlEnd 0) := by
      unfold HilbertRTree.hiN
      split
      · rfl
      · have := w.lvlEnd_zero
        omega
    show ((t.groupList g).filter _).map _ = _
    rw [HilbertRTree.groupList, hge, hlo, hhi]
  | succ lvl ih =>
    intro g hc
    obtain ⟨hlvl, ⟨j, hj⟩, hg⟩ := hc
    have hlvl' : lvl < t.level_bounds.length := by omega
    have hge : t.groupEnd g = min (g + 16) (t.lvlEnd (lvl + 1)) :=
      w.groupEnd_eq ⟨hlvl, ⟨j, hj⟩, hg⟩
    have hgs : t.lvlStart (lvl + 1) ≤ g := by omega
    have hcnt1 : 1 ≤ t.groupEnd g - g := by
      rw [hge]
      omega
    -- node validity across the group
    have hvnode : ∀ p ∈ List.range' g (t.groupEnd g - g), t.ValidNode (lvl + 1) p := by
      intro p hp
      rw [List.mem_range'_1] at hp
      refine ⟨hlvl, by omega, ?_⟩
      rw [hge] at hp
      omega
    show ((t.groupList g).filter _).flatMap _ = _
    rw [HilbertRTree.groupList]
    rw [filter_flatMap_eq]
    -- rewrite the right-hand side into per-node segments
    have hsegs := w.rangeSegs hlvl (t.groupEnd g - g) g hgs (by rw [hge]; omega) hcnt1
    rw [(by omega : g + (t.groupEnd g - g) = t.groupEnd g)] at hsegs
    have hhi_end : t.hiN (lvl + 1) (t.groupEnd g) =
        t.hiN (lvl + 1) (min (g + 16) (t.lvlEnd (lvl + 1))) := by rw [hge]
    rw [← hhi_end, hsegs, flatMap_filter, flatMap_map]
    refine flatMap_congr_mem ?_
    intro p hp
    have hv := hvnode p hp
    have hfc : (t.get_index p) >>> 2 = t.fcp (lvl + 1) p := w.fc_eq (by omega) hv
    have hnf := (w.nodeFacts (lvl + 1) hlvl).1 p hv
    by_cases hcond : boxIntersects mnx mny mxx mxy (t.get_box p)
    · rw [if_pos (by simpa using hcond)]
      rw [hfc]
      rw [ih (t.fcp (lvl + 1) p) (w.child_chunk_valid (by omega) hv)]
      rw [← w.chainLo_succ_node hv]
      have := w.hiN_succ_node hv
      rw [← this]
    · rw [if_neg (by simpa using hcond)]
      have hnil : (List.range' (t.chainLo (lvl + 1) p)
          (t.hiN (lvl + 1) (p + 1) - t.chainLo (lvl + 1) p)).filter
            (fun ℓ => decide (boxIntersects mnx mny mxx mxy (t.get_box ℓ))) = [] := by
        rw [List.filter_eq_nil_iff]
        intro ℓ hℓ
        rw [List.mem_range'_1] at hℓ
        simp only [decide_eq_true_eq]
        intro hint
        exact hcond (boxIntersects_mono (hnf.2.2 ℓ hℓ.1 (by omega)) hint)
      rw [hnil]
      simp

theorem emitHits_zero (t : HilbertRTree) (mnx mny mxx mxy : ℚ) (pos : Nat) :
    t.emitHits mnx mny mxx mxy pos 0 = [] := by
  simp [HilbertRTree.emitHits]

theorem enqHits_zero (t : HilbertRTree) (mnx mny mxx mxy : ℚ) (pos : Nat) :
    t.enqHits mnx mny mxx mxy pos 0 = [] := by
  simp [HilbertRTree.enqHits]

theorem emitHits_succ (t : HilbertRTree) (mnx mny mxx mxy : ℚ) (pos k : Nat) :
    t.emitHits mnx mny mxx mxy pos (k + 1) =
      (if boxIntersects mnx mny mxx mxy (t.get_box pos) ∧ pos < t.num_items
        then [t.get_index pos] else []) ++ t.emitHits mnx mny mxx mxy (pos + 1) k := by
  unfold HilbertRTree.emitHits
  rw [List.range'_succ, List.filter_cons]
  by_cases h1 : boxIntersects mnx mny mxx mxy (t.get_box pos) <;>
    by_cases h2 : pos < t.num_items <;> simp [h1, h2]

theorem enqHits_succ (t : HilbertRTree) (mnx mny mxx mxy : ℚ) (pos k : Nat) :
    t.enqHits mnx mny mxx mxy pos (k + 1) =
      (if boxIntersects mnx mny mxx mxy (t.get_box pos) ∧ ¬ pos < t.num_items
        then [(t.get_index pos) >>> 2] else []) ++ t.enqHits mnx mny mxx mxy (pos + 1) k := by
  unfold HilbertRTree.enqHits
  rw [List.range'_succ, List.filter_cons]
  by_cases h1 : boxIntersects mnx mny mxx mxy (t.get_box pos) <;>
    by_cases h2 : pos < t.num_items <;> simp [h1, h2]

theorem qiStep_eq (t : HilbertRTree) (mnx mny mxx mxy : ℚ) (p : Nat)
    (st : TraversalState) :
    t.qiStep mnx mny mxx mxy (t.get_box p) p st =
      if boxIntersects mnx mny mxx mxy (t.get_box p) then
        if p < t.num_items then
          ⟨st.results ++ [t.get_index p], st.queue, st.trace ++ [.idxRead p]⟩
        else
          ⟨st.results, st.queue ++ [(t.get_index p) >>> 2],
            st.trace ++ [.idxRead p, .child ((t.get_index p) >>> 2)]⟩
      else st := by
  unfold HilbertRTree.qiStep
  by_cases h : mxx < (t.get_box p).min_x ∨ mxy < (t.get_box p).min_y ∨
      mnx > (t.get_box p).max_x ∨ mny > (t.get_box p).max_y
  · rw [if_pos h, if_neg (fun hh => ((boxIntersects_iff_not _ _ _ _ _).mp hh) h)]
  · rw [if_neg h, if_pos ((boxIntersects_iff_not _ _ _ _ _).mpr h)]

/-- One `qiStep` at position `p` appends the leaf hit to the results or the
decoded child to the queue, and records only accesses at `p`. -/
theorem qiStep_spec (t : HilbertRTree) (mnx mny mxx mxy : ℚ) (p : Nat)
    (st : TraversalState) :
    (t.qiStep mnx mny mxx mxy (t.get_box p) p st).results =
        st.results ++ (if boxIntersects mnx mny mxx mxy (t.get_box p) ∧ p < t.num_items
          then [t.get_index p] else []) ∧
    (t.qiStep mnx mny mxx mxy (t.get_box p) p st).queue =
        st.queue ++ (if boxIntersects mnx mny mxx mxy (t.get_box p) ∧ ¬ p < t.num_items
          then [(t.get_index p) >>> 2] else []) ∧
    ∃ T, (t.qiStep mnx mny mxx mxy (t.get_box p) p st).trace = st.trace ++ T ∧
      ∀ a ∈ T, a = Access.idxRead p ∨
        (t.num_items ≤ p ∧ a = Access.child ((t.get_index p) >>> 2)) := by
  rw [qiStep_eq]
  by_cases h1 : boxIntersects mnx mny mxx mxy (t.get_box p)
  · by_cases h2 : p < t.num_items
    · rw [if_pos h1, if_pos h2]
      exact ⟨by simp [h1, h2], by simp [h1, h2], [Access.idxRead p], rfl, by simp⟩
    · rw [if_pos h1, if_neg h2]
      refine ⟨by simp [h1, h2], by simp [h1, h2],
        [Access.idxRead p, Access.child ((t.get_index p) >>> 2)], rfl, ?_⟩
      intro a ha
      simp only [List.mem_cons, List.not_mem_nil, or_false] at ha
      rcases ha with ha | ha
      · exact Or.inl ha
      · exact Or.inr ⟨by omega, ha⟩
  · rw [if_neg h1]
    exact ⟨by simp [h1], by simp [h1], [], by simp, by simp⟩

/-- Single-read arm of the group scan, taken for one to three remaining
positions. -/
theorem qiGroup_single_arm (t : HilbertRTree) (mnx mny mxx mxy : ℚ) {r : Nat}
    (hr : r < 3) (pos : Nat) (st : TraversalState) :
    t.qiGroup mnx mny mxx mxy (r + 1) pos st =
      t.qiGroup mnx mny mxx mxy r (pos + 1)
        (t.qiStep mnx mny mxx mxy (t.get_box pos) pos
          { st with trace := st.trace ++ [.boxRead pos] }) := by
  interval_cases r <;> simp [HilbertRTree.qiGroup]

/-- Containment widening for recorded group accesses. -/
theorem groupAccessOK_mono {t : HilbertRTree} {pos r pos' r' : Nat} {a : Access}
    (h : t.groupAccessOK pos r a) (hs : pos' ≤ pos) (he : pos + r ≤ pos' + r') :
    t.groupAccessOK pos' r' a := by
  cases a with
  | boxRead p =>
    simp only [HilbertRTree.groupAccessOK] at h ⊢
    omega
  | idxRead p =>
    simp only [HilbertRTree.groupAccessOK] at h ⊢
    omega
  | batchRead p =>
    simp only [HilbertRTree.groupAccessOK] at h ⊢
    omega
  | child c =>
    simp only [HilbertRTree.groupAccessOK] at h ⊢
    obtain ⟨p, h1, h2, h3, h4⟩ := h
    exact ⟨p, by omega, by omega, h3, h4⟩

/-- The group scan appends exactly the leaf hits to the results, the decoded
internal hits to the queue, and only in-group accesses to the trace. -/
theorem qiGroup_spec (t : HilbertRTree) (mnx mny mxx mxy : ℚ) :
    ∀ r pos st,
      (t.qiGroup mnx mny mxx mxy r pos st).results =
          st.results ++ t.emitHits mnx mny mxx mxy pos r ∧
      (t.qiGroup mnx mny mxx mxy r pos st).queue =
          st.queue ++ t.enqHits mnx mny mxx mxy pos r ∧
      ∃ T, (t.qiGroup mnx mny mxx mxy r pos st).trace = st.trace ++ T ∧
        ∀ a ∈ T, t.groupAccessOK pos r a := by
  have hstep : ∀ r' pos st, r' < 3 →
      (∀ pos' st', (t.qiGroup mnx mny mxx mxy r' pos' st').results =
          st'.results ++ t.emitHits mnx mny mxx mxy pos' r' ∧
        (t.qiGroup mnx mny mxx mxy r' pos' st').queue =
          st'.queue ++ t.enqHits mnx mny mxx mxy pos' r' ∧
        ∃ T, (t.qiGroup mnx mny mxx mxy r' pos' st').trace = st'.trace ++ T ∧
          ∀ a ∈ T, t.groupAccessOK pos' r' a) →
      (t.qiGroup mnx mny mxx mxy (r' + 1) pos st).results =
          st.results ++ t.emitHits mnx mny mxx mxy pos (r' + 1) ∧
      (t.qiGroup mnx mny mxx mxy (r' + 1) pos st).queue =
          st.queue ++ t.enqHits mnx mny mxx mxy pos (r' + 1) ∧
      ∃ T, (t.qiGroup mnx mny mxx mxy (r' + 1) pos st).trace = st.trace ++ T ∧
        ∀ a ∈ T, t.groupAccessOK pos (r' + 1) a := by
    intro r' pos st hr' hrec
    rw [qiGroup_single_arm t mnx mny mxx mxy hr']
    set st0 : TraversalState := { st with trace := st.trace ++ [.boxRead pos] } with hst0
    obtain ⟨hres1, hq1, T1, htr1, hT1⟩ := qiStep_spec t mnx mny mxx mxy pos st0
    set st1 := t.qiStep mnx mny mxx mxy (t.get_box pos) pos st0 with hst1
    obtain ⟨hres2, hq2, T2, htr2, hT2⟩ := hrec (pos + 1) st1
    refine ⟨?_, ?_, ?_⟩
    · rw [hres2, hres1, emitHits_succ]
      simp [hst0, List.append_assoc]
    · rw [hq2, hq1, enqHits_succ]
      simp [hst0, List.append_assoc]
    · refine ⟨[Access.boxRead pos] ++ T1 ++ T2, ?_, ?_⟩
      · rw [htr2, htr1, hst0]
        simp [List.append_assoc]
      · intro a ha
        simp only [List.mem_append, List.mem_singleton] at ha
        rcases ha with (ha | ha) | ha
        · subst ha
          exact ⟨by omega, by omega⟩
        · rcases hT1 a ha with ha' | ⟨hp, ha'⟩
          · subst ha'
            exact ⟨by omega, by omega⟩
          · subst ha'
            exact ⟨pos, by omega, by omega, hp, rfl⟩
        · exact groupAccessOK_mono (hT2 a ha) (by omega) (by omega)
  intro r
  induction r using Nat.strong_induction_on with
  | _ r ih =>
    match r with
    | 0 =>
      intro pos st
      refine ⟨by simp [HilbertRTree.qiGroup, emitHits_zero],
        by simp [HilbertRTree.qiGroup, enqHits_zero], [],
        by simp [HilbertRTree.qiGroup], by simp⟩
    | 1 =>
      intro pos st
      exact hstep 0 pos st (by omega) (fun pos' st' => ih 0 (by omega) pos' st')
    | 2 =>
      intro pos st
      exact hstep 1 pos st (by omega) (fun pos' st' => ih 1 (by omega) pos' st')
    | 3 =>
      intro pos st
      exact hstep 2 pos st (by omega) (fun pos' st' => ih 2 (by omega) pos' st')
    | (r' + 4) =>
      intro pos st
      show (t.qiGroup mnx mny mxx mxy (r' + 4) pos st).results = _ ∧ _
      have hunfold : t.qiGroup mnx mny mxx mxy (r' + 4) pos st =
          t.qiGroup mnx mny mxx mxy r' (pos + 4)
            (t.qiStep mnx mny mxx mxy (t.get_box (pos + 3)) (pos + 3)
              (t.qiStep mnx mny mxx mxy (t.get_box (pos + 2)) (pos + 2)
                (t.qiStep mnx mny mxx mxy (t.get_box (pos + 1)) (pos + 1)
                  (t.qiStep mnx mny mxx mxy (t.get_box pos) pos
                    { st with trace := st.trace ++ [.batchRead pos] })))) := by
        simp only [HilbertRTree.qiGroup]
        rfl
      rw [hunfold]
      set st0 : TraversalState := { st with trace := st.trace ++ [.batchRead pos] } with hst0
      obtain ⟨hresA, hqA, TA, htrA, hTA⟩ := qiStep_spec t mnx mny mxx mxy pos st0
      set stA := t.qiStep mnx mny mxx mxy (t.get_box pos) pos st0 with hstA
      obtain ⟨hresB, hqB, TB, htrB, hTB⟩ := qiStep_spec t mnx mny mxx mxy (pos + 1) stA
      set stB := t.qiStep mnx mny mxx mxy (t.get_box (pos + 1)) (pos + 1) stA with hstB
      obtain ⟨hresC, hqC, TC, htrC, hTC⟩ := qiStep_spec t mnx mny mxx mxy (pos + 2) stB
      set stC := t.qiStep mnx mny mxx mxy (t.get_box (pos + 2)) (pos + 2) stB with hstC
      obtain ⟨hresD, hqD, TD, htrD, hTD⟩ := qiStep_spec t mnx mny mxx mxy (pos + 3) stC
      set stD := t.qiStep mnx mny mxx mxy (t.get_box (pos + 3)) (pos + 3) stC with hstD
      obtain ⟨hresE, hqE, TE, htrE, hTE⟩ := ih r' (by omega) (pos + 4) stD
      refine ⟨?_, ?_, ?_⟩
      · rw [hresE, hresD, hresC, hresB, hresA, hst0]
        rw [emitHits_succ, emitHits_succ, emitHits_succ, emitHits_succ]
        simp only [List.append_assoc]
      · rw [hqE, hqD, hqC, hqB, hqA, hst0]
        rw [enqHits_succ, enqHits_succ, enqHits_succ, enqHits_succ]
        simp only [List.append_assoc]
      · refine ⟨[Access.batchRead pos] ++ TA ++ TB ++ TC ++ TD ++ TE, ?_, ?_⟩
        · rw [htrE, htrD, htrC, htrB, htrA, hst0]
          simp [List.append_assoc]
        · intro a ha
          simp only [List.mem_append, List.mem_singleton] at ha
          have hone : ∀ (q : Nat) (T : List Access), pos ≤ q → q < pos + (r' + 4) →
              (∀ b ∈ T, b = Access.idxRead q ∨
                (t.num_items ≤ q ∧ b = Access.child ((t.get_index q) >>> 2))) →
              a ∈ T → t.groupAccessOK pos (r' + 4) a := by
            intro q T hq1 hq2 hT haT
            rcases hT a haT with ha' | ⟨hp, ha'⟩
            · subst ha'
              exact ⟨by omega, by omega⟩
            · subst ha'
              exact ⟨q, by omega, by omega, hp, rfl⟩
          rcases ha with ((((ha | ha) | ha) | ha) | ha) | ha
          · subst ha
            exact ⟨by omega, by omega⟩
          · exact hone pos TA (by omega) (by omega) hTA ha
          · exact hone (pos + 1) TB (by omega) (by omega) hTB ha
          · exact hone (pos + 2) TC (by omega) (by omega) hTC ha
          · exact hone (pos + 3) TD (by omega) (by omega) hTD ha
          · exact groupAccessOK_mono (hTE a ha) (by omega) (by omega)

theorem sublist_sum_le {l1 l2 : List Nat} (h : l1.Sublist l2) : l1.sum ≤ l2.sum := by
  induction h with
  | slnil => simp
  | cons a _ ih =>
    simp only [List.sum_cons]
    omega
  | cons₂ a _ ih =>
    simp only [List.sum_cons]
    omega

theorem chunkCount_pos (t : HilbertRTree) (lvl g : Nat) : 1 ≤ t.chunkCount lvl g := by
  cases lvl with
  | zero => simp [HilbertRTree.chunkCount]
  | succ l => simp [HilbertRTree.chunkCount]

/-- On the leaf level the scan's hits are exactly the chunk's emissions and
nothing is enqueued. -/
theorem WF.leaf_group_hits (w : WF t) (mnx mny mxx mxy : ℚ) {g : Nat}
    (hc : t.ValidChunk 0 g) :
    t.emitHits mnx mny mxx mxy g (t.groupEnd g - g) = t.emitL mnx mny mxx mxy 0 g ∧
      t.enqHits mnx mny mxx mxy g (t.groupEnd g - g) = [] := by
  have hge := w.groupEnd_eq hc
  have hleaf : ∀ p ∈ t.groupList g, p < t.num_items := by
    intro p hp
    rw [HilbertRTree.groupList, List.mem_range'_1] at hp
    have := w.lvlEnd_zero
    omega
  constructor
  · show ((List.range' g (t.groupEnd g - g)).filter _).map _ = ((t.groupList g).filter _).map _
    rw [HilbertRTree.groupList]
    congr 1
    refine List.filter_congr ?_
    intro p hp
    have := hleaf p (by rw [HilbertRTree.groupList]; exact hp)
    simp [this]
  · show ((List.range' g (t.groupEnd g - g)).filter _).map _ = []
    rw [List.map_eq_nil_iff, List.filter_eq_nil_iff]
    intro p hp
    have := hleaf p (by rw [HilbertRTree.groupList]; exact hp)
    simp [this]

/-- On an internal level the scan emits nothing and enqueues exactly the
filtered children, whose chunks reproduce the chunk's emissions. -/
theorem WF.internal_group_hits (w : WF t) (mnx mny mxx mxy : ℚ) {lvl g : Nat}
    (hc : t.ValidChunk (lvl + 1) g) :
    t.emitHits mnx mny mxx mxy g (t.groupEnd g - g) = [] ∧
    t.enqHits mnx mny mxx mxy g (t.groupEnd g - g) =
      ((t.groupList g).filter
          (fun p => decide (boxIntersects mnx mny mxx mxy (t.get_box p)))).map
        (fun p => (t.get_index p) >>> 2) ∧
    t.emitL mnx mny mxx mxy (lvl + 1) g =
      (t.enqHits mnx mny mxx mxy g (t.groupEnd g - g)).flatMap
        (t.emitL mnx mny mxx mxy lvl) := by
  have hint : ∀ p ∈ t.groupList g, t.num_items ≤ p := by
    intro p hp
    rw [HilbertRTree.groupList, List.mem_range'_1] at hp
    obtain ⟨hlen, ⟨j, hj⟩, hg⟩ := hc
    have : t.num_items ≤ t.lvlStart (lvl + 1) :=
      w.num_items_le_lvlStart (by omega) hlen
    omega
  have h2 : t.enqHits mnx mny mxx mxy g (t.groupEnd g - g) =
      ((t.groupList g).filter
          (fun p => decide (boxIntersects mnx mny mxx mxy (t.get_box p)))).map
        (fun p => (t.get_index p) >>> 2) := by
    show ((List.range' g (t.groupEnd g - g)).filter _).map _ = _
    rw [HilbertRTree.groupList]
    congr 1
    refine List.filter_congr ?_
    intro p hp
    have := hint p (by rw [HilbertRTree.groupList]; exact hp)
    simp [Nat.not_lt.mpr this]
  refine ⟨?_, h2, ?_⟩
  · show ((List.range' g (t.groupEnd g - g)).filter _).map _ = []
    rw [List.map_eq_nil_iff, List.filter_eq_nil_iff]
    intro p hp
    have := hint p (by rw [HilbertRTree.groupList]; exact hp)
    simp [Nat.not_lt.mpr this]
  · rw [h2]
    show ((t.groupList g).filter _).flatMap _ = _
    rw [List.flatMap_map]

/-- Every enqueued child start is a valid chunk of the level below, and the
chunk counts of the enqueued children are strictly accounted for by the
parent chunk's count. -/
theorem WF.enq_children (w : WF t) (mnx mny mxx mxy : ℚ) {lvl g : Nat}
    (hc : t.ValidChunk (lvl + 1) g) :
    (∀ c ∈ t.enqHits mnx mny mxx mxy g (t.groupEnd g - g), t.ValidChunk lvl c) ∧
    ((t.enqHits mnx mny mxx mxy g (t.groupEnd g - g)).map
        (fun c => t.chunkCount lvl c)).sum + 1 ≤ t.chunkCount (lvl + 1) g := by
  obtain ⟨-, h2, -⟩ := w.internal_group_hits mnx mny mxx mxy hc
  have hnode : ∀ p ∈ t.groupList g, t.ValidNode (lvl + 1) p := by
    intro p hp
    rw [HilbertRTree.groupList, List.mem_range'_1] at hp
    obtain ⟨hlen, ⟨j, hj⟩, hg⟩ := hc
    have hge := w.groupEnd_eq ⟨hlen, ⟨j, hj⟩, hg⟩
    exact ⟨hlen, by omega, by omega⟩
  constructor
  · intro c hcm
    rw [h2, List.mem_map] at hcm
    obtain ⟨p, hp, hpc⟩ := hcm
    rw [List.mem_filter] at hp
    have hv := hnode p hp.1
    have := w.fc_eq (by omega) hv
    rw [← hpc, this]
    exact w.child_chunk_valid (by omega) hv
  · rw [h2]
    show _ + 1 ≤ 1 + ((t.groupList g).map _).sum
    rw [Nat.add_comm _ 1, Nat.add_le_add_iff_left]
    rw [List.map_map]
    simp only [Function.comp_def]
    refine sublist_sum_le (List.Sublist.map _ (List.filter_sublist _))

/-- One iteration of the work-queue loop: scan the group of the popped
chunk start, then continue on the head of the updated queue. -/
theorem qiLoop_succ (t : HilbertRTree) (mnx mny mxx mxy : ℚ) (fuel g : Nat)
    (st : TraversalState) :
    t.qiLoop mnx mny mxx mxy (fuel + 1) g st =
      match (t.qiGroup mnx mny mxx mxy (t.groupEnd g - g) g st).queue with
      | [] => t.qiGroup mnx mny mxx mxy (t.groupEnd g - g) g st
      | q :: rest =>
        t.qiLoop mnx mny mxx mxy fuel q
          { t.qiGroup mnx mny mxx mxy (t.groupEnd g - g) g st with queue := rest } := rfl

theorem sum_map_le_length_mul {α : Type} (f : α → Nat) (B : Nat) :
    ∀ l : List α, (∀ x ∈ l, f x ≤ B) → (l.map f).sum ≤ l.length * B := by
  intro l
  induction l with
  | nil => simp
  | cons a l ih =>
    intro h
    simp only [List.map_cons, List.sum_cons, List.length_cons]
    have h1 := h a (List.mem_cons_self a l)
    have h2 := ih (fun x hx => h x (List.mem_cons_of_mem a hx))
    have : (l.length + 1) * B = l.length * B + B := by ring
    omega

/-- A scanned group never exceeds the fanout. -/
theorem WF.groupList_len_le (w : WF t) (g : Nat) : (t.groupList g).length ≤ 16 := by
  rw [HilbertRTree.groupList, List.length_range']
  have : t.groupEnd g ≤ g + 16 := by
    rw [HilbertRTree.groupEnd, w.hB]
    exact min_le_left _ _
  omega

/-- The subtree chunk count of a valid chunk is bounded by the fanout power
of its level: the fuel `16 ^ depth` the traversals pass never runs out. -/
theorem WF.chunkCount_le (w : WF t) :
    ∀ lvl g, t.ValidChunk lvl g → t.chunkCount lvl g + 1 ≤ 16 ^ (lvl + 1) := by
  intro lvl
  induction lvl with
  | zero =>
    intro g _
    simp [HilbertRTree.chunkCount]
  | succ lvl ih =>
    intro g hc
    have hnode : ∀ p ∈ t.groupList g, t.ValidNode (lvl + 1) p := by
      intro p hp
      rw [HilbertRTree.groupList, List.mem_range'_1] at hp
      obtain ⟨hlen, ⟨j, hj⟩, hg⟩ := hc
      have hge := w.groupEnd_eq ⟨hlen, ⟨j, hj⟩, hg⟩
      exact ⟨hlen, by omega, by omega⟩
    have hbound : ∀ p ∈ t.groupList g,
        t.chunkCount lvl ((t.get_index p) >>> 2) ≤ 16 ^ (lvl + 1) - 1 := by
      intro p hp
      have hv := hnode p hp
      have hfc := w.fc_eq (by omega) hv
      have hcv := w.child_chunk_valid (by omega) hv
      rw [hfc]
      have := ih (t.fcp (lvl + 1) p) hcv
      omega
    have hsum := sum_map_le_length_mul
      (fun p => t.chunkCount lvl ((t.get_index p) >>> 2)) (16 ^ (lvl + 1) - 1)
      (t.groupList g) hbound
    have hlen := w.groupList_len_le g
    have hmul : (t.groupList g).length * (16 ^ (lvl + 1) - 1) ≤
        16 * (16 ^ (lvl + 1) - 1) := Nat.mul_le_mul_right _ hlen
    have hpow : 16 ^ (lvl + 1 + 1) = 16 ^ (lvl + 1) * 16 := pow_succ 16 (lvl + 1)
    have hpos : 1 ≤ 16 ^ (lvl + 1) := Nat.one_le_pow _ _ (by omega)
    simp only [HilbertRTree.chunkCount]
    omega

/-- The last level is the singleton root chunk. -/
theorem WF.root_chunk (w : WF t) :
    t.ValidChunk (t.level_bounds.length - 1) (t.total_nodes - 1) := by
  have h2 := w.hlen2
  have hroot := w.hroot
  have hlast := w.hlast
  have hstart : t.lvlStart (t.level_bounds.length - 1) = t.total_nodes - 1 := by
    unfold HilbertRTree.lvlStart
    rw [if_neg (by omega), show t.level_bounds.length - 1 - 1 =
      t.level_bounds.length - 2 from by omega]
    omega
  refine ⟨by omega, ⟨0, by omega⟩, ?_⟩
  have hend : t.lvlEnd (t.level_bounds.length - 1) = t.total_nodes := by
    unfold HilbertRTree.lvlEnd
    omega
  omega

/-- The root chunk's pruned traversal emits exactly the stored ids of the
intersecting leaves of the whole tree, in leaf-position order. -/
theorem WF.emitL_root (w : WF t) (mnx mny mxx mxy : ℚ) :
    t.emitL mnx mny mxx mxy (t.level_bounds.length - 1) (t.total_nodes - 1) =
      ((List.range t.num_items).filter
          (fun ℓ => decide (boxIntersects mnx mny mxx mxy (t.get_box ℓ)))).map
        (fun ℓ => t.get_index ℓ) := by
  have h2 := w.hlen2
  have hroot := w.hroot
  have hlast := w.hlast
  have hrc := w.root_chunk
  have hend : t.lvlEnd (t.level_bounds.length - 1) = t.total_nodes := by
    unfold HilbertRTree.lvlEnd
    omega
  have hstart : t.lvlStart (t.level_bounds.length - 1) = t.total_nodes - 1 := by
    unfold HilbertRTree.lvlStart
    rw [if_neg (by omega), show t.level_bounds.length - 1 - 1 =
      t.level_bounds.length - 2 from by omega]
    omega
  have hlo : t.chainLo (t.level_bounds.length - 1) (t.total_nodes - 1) = 0 := by
    have := (w.nodeFacts (t.level_bounds.length - 1) (by omega)).2
    rw [hstart] at this
    exact this
  have hmin : min (t.total_nodes - 1 + 16) (t.lvlEnd (t.level_bounds.length - 1)) =
      t.total_nodes := by
    rw [hend]
    omega
  have hhi : t.hiN (t.level_bounds.length - 1) t.total_nodes = t.num_items := by
    unfold HilbertRTree.hiN
    rw [if_neg (by omega)]
  rw [w.emitL_eq mnx mny mxx mxy _ _ hrc, hmin, hlo, hhi, Nat.sub_zero,
    ← List.range_eq_range']

/-- Every access a group scan of a valid chunk records is an in-bounds
buffer access. -/
theorem WF.group_access_ok (w : WF t) {lvl g : Nat} (hc : t.ValidChunk lvl g)
    (a : Access) (h : t.groupAccessOK g (t.groupEnd g - g) a) : t.accessOK a := by
  obtain ⟨hlen, hj, hg⟩ := hc
  have hge := w.groupEnd_eq ⟨hlen, hj, hg⟩
  have hle := w.lvlEnd_le_total hlen
  cases a with
  | boxRead p =>
    simp only [HilbertRTree.groupAccessOK] at h
    show p < t.total_nodes
    omega
  | idxRead p =>
    simp only [HilbertRTree.groupAccessOK] at h
    show p < t.total_nodes
    omega
  | batchRead p =>
    simp only [HilbertRTree.groupAccessOK] at h
    show p + 4 ≤ t.total_nodes
    omega
  | child c =>
    simp only [HilbertRTree.groupAccessOK] at h
    obtain ⟨p, h1, h2, h3, h4⟩ := h
    have hvn : t.ValidNode lvl p := ⟨hlen, by omega, by omega⟩
    have hlvl1 : 1 ≤ lvl := by
      by_contra hz
      have hz0 : lvl = 0 := by omega
      subst hz0
      have := w.lvlEnd_zero
      omega
    have hfc := w.fc_eq hlvl1 hvn
    have hlt := w.fcp_lt hlvl1 hvn
    have hle2 : t.lvlEnd (lvl - 1) ≤ t.total_nodes :=
      w.lvlEnd_le_total (by omega)
    show c < t.total_nodes
    rw [h4, hfc]
    omega

/-- Every access the work-queue loop records past a valid schedule is an
in-bounds buffer access (no fuel bound needed: whatever prefix runs only
touches valid chunks). -/
theorem WF.qiLoop_trace (w : WF t) (mnx mny mxx mxy : ℚ) :
    ∀ fuel lvl g (sched : List (Nat × Nat)) (res : List Nat) (tr : List Access),
      t.ValidChunk lvl g →
      (∀ x ∈ sched, t.ValidChunk x.1 x.2) →
      ∃ T, (t.qiLoop mnx mny mxx mxy fuel g
          ⟨res, sched.map Prod.snd, tr⟩).trace = tr ++ T ∧
        ∀ a ∈ T, t.accessOK a := by
  intro fuel
  induction fuel with
  | zero =>
    intro lvl g sched res tr _ _
    exact ⟨[], by simp [HilbertRTree.qiLoop], by simp⟩
  | succ fuel ih =>
    intro lvl g sched res tr hc hs
    obtain ⟨-, hq, T1, htr1, hT1⟩ := qiGroup_spec t mnx mny mxx mxy
      (t.groupEnd g - g) g ⟨res, sched.map Prod.snd, tr⟩
    have hT1ok : ∀ a ∈ T1, t.accessOK a :=
      fun a ha => w.group_access_ok hc a (hT1 a ha)
    obtain ⟨Cp, hCp1, hvalid⟩ :
        ∃ Cp : List (Nat × Nat),
          (t.qiGroup mnx mny mxx mxy (t.groupEnd g - g) g
              ⟨res, sched.map Prod.snd, tr⟩).queue = (sched ++ Cp).map Prod.snd ∧
          (∀ x ∈ sched ++ Cp, t.ValidChunk x.1 x.2) := by
      cases lvl with
      | zero =>
        obtain ⟨-, henq⟩ := w.leaf_group_hits mnx mny mxx mxy hc
        refine ⟨[], ?_, by simpa using hs⟩
        rw [hq, henq, List.append_nil, List.append_nil]
      | succ l =>
        obtain ⟨hchild, -⟩ := w.enq_children mnx mny mxx mxy hc
        refine ⟨(t.enqHits mnx mny mxx mxy g (t.groupEnd g - g)).map
          (fun c => (l, c)), ?_, ?_⟩
        · rw [hq, List.map_append, List.map_map]
          simp [Function.comp_def]
        · intro x hx
          rcases List.mem_append.mp hx with hx | hx
          · exact hs x hx
          · obtain ⟨c, hcm, hxc⟩ := List.mem_map.mp hx
            rw [← hxc]
            exact hchild c hcm
    rw [qiLoop_succ, hCp1]
    rcases hC : sched ++ Cp with - | ⟨y, ys⟩
    · simp only [List.map_nil]
      exact ⟨T1, htr1, hT1ok⟩
    · simp only [List.map_cons]
      have hval_y : t.ValidChunk y.1 y.2 := by
        refine hvalid y ?_
        rw [hC]
        exact List.mem_cons_self y ys
      have hval_ys : ∀ x ∈ ys, t.ValidChunk x.1 x.2 := by
        intro x hx
        refine hvalid x ?_
        rw [hC]
        exact List.mem_cons_of_mem y hx
      obtain ⟨T2, htr2, hT2ok⟩ := ih y.1 y.2 ys
        (t.qiGroup mnx mny mxx mxy (t.groupEnd g - g) g
          ⟨res, sched.map Prod.snd, tr⟩).results
        (t.qiGroup mnx mny mxx mxy (t.groupEnd g - g) g
          ⟨res, sched.map Prod.snd, tr⟩).trace hval_y hval_ys
      refine ⟨T1 ++ T2, ?_, ?_⟩
      · rw [htr2, htr1, List.append_assoc]
      · intro a ha
        rcases List.mem_append.mp ha with ha | ha
        · exact hT1ok a ha
        · exact hT2ok a ha

/-- The work-queue loop, started on a valid chunk with a schedule of further
valid chunks in the queue and enough fuel, ends with its previous results
followed (up to the breadth-first reordering) by the emissions of the
current chunk and of every scheduled chunk. -/
theorem WF.qiLoop_perm (w : WF t) (mnx mny mxx mxy : ℚ) :
    ∀ fuel lvl g (sched : List (Nat × Nat)) (res : List Nat) (trace : List Access),
      t.ValidChunk lvl g →
      (∀ x ∈ sched, t.ValidChunk x.1 x.2) →
      t.chunkCount lvl g +
          (sched.map (fun x => t.chunkCount x.1 x.2)).sum ≤ fuel →
      ((t.qiLoop mnx mny mxx mxy fuel g
          ⟨res, sched.map Prod.snd, trace⟩).results).Perm
        (res ++ t.emitL mnx mny mxx mxy lvl g ++
          sched.flatMap (fun x => t.emitL mnx mny mxx mxy x.1 x.2)) := by
  intro fuel
  induction fuel with
  | zero =>
    intro lvl g sched res trace hc hs hf
    have := chunkCount_pos t lvl g
    omega
  | succ fuel ih =>
    intro lvl g sched res trace hc hs hf
    obtain ⟨hres, hq, -⟩ := qiGroup_spec t mnx mny mxx mxy (t.groupEnd g - g) g
      ⟨res, sched.map Prod.snd, trace⟩
    obtain ⟨D, Cp, hD, hCp1, hvalid, hperm, hfuel⟩ :
        ∃ (D : List Nat) (Cp : List (Nat × Nat)),
          (t.qiGroup mnx mny mxx mxy (t.groupEnd g - g) g
              ⟨res, sched.map Prod.snd, trace⟩).results = res ++ D ∧
          (t.qiGroup mnx mny mxx mxy (t.groupEnd g - g) g
              ⟨res, sched.map Prod.snd, trace⟩).queue = (sched ++ Cp).map Prod.snd ∧
          (∀ x ∈ sched ++ Cp, t.ValidChunk x.1 x.2) ∧
          (D ++ (sched ++ Cp).flatMap
              (fun x => t.emitL mnx mny mxx mxy x.1 x.2)).Perm
            (t.emitL mnx mny mxx mxy lvl g ++
              sched.flatMap (fun x => t.emitL mnx mny mxx mxy x.1 x.2)) ∧
          ((sched ++ Cp).map (fun x => t.chunkCount x.1 x.2)).sum ≤ fuel := by
      cases lvl with
      | zero =>
        obtain ⟨hemit, henq⟩ := w.leaf_group_hits mnx mny mxx mxy hc
        refine ⟨t.emitL mnx mny mxx mxy 0 g, [], ?_, ?_, ?_, ?_, ?_⟩
        · rw [hres, hemit]
        · rw [hq, henq, List.append_nil, List.append_nil]
        · simpa using hs
        · rw [List.append_nil]
        · simp only [HilbertRTree.chunkCount] at hf
          rw [List.append_nil]
          omega
      | succ l =>
        obtain ⟨hemit, -, hrec⟩ := w.internal_group_hits mnx mny mxx mxy hc
        obtain ⟨hchild, hcc⟩ := w.enq_children mnx mny mxx mxy hc
        refine ⟨[], (t.enqHits mnx mny mxx mxy g (t.groupEnd g - g)).map
          (fun c => (l, c)), ?_, ?_, ?_, ?_, ?_⟩
        · rw [hres, hemit]
        · rw [hq, List.map_append, List.map_map]
          simp [Function.comp_def]
        · intro x hx
          rcases List.mem_append.mp hx with hx | hx
          · exact hs x hx
          · obtain ⟨c, hcm, hxc⟩ := List.mem_map.mp hx
            rw [← hxc]
            exact hchild c hcm
        · rw [List.nil_append, List.flatMap_append]
          have hCp : ((t.enqHits mnx mny mxx mxy g (t.groupEnd g - g)).map
                (fun c => (l, c))).flatMap
                (fun x => t.emitL mnx mny mxx mxy x.1 x.2) =
              t.emitL mnx mny mxx mxy (l + 1) g := by
            rw [List.flatMap_map, hrec]
          rw [hCp]
          exact List.perm_append_comm
        · have hsum : ((sched ++ (t.enqHits mnx mny mxx mxy g
                  (t.groupEnd g - g)).map (fun c => (l, c))).map
                (fun x => t.chunkCount x.1 x.2)).sum =
              (sched.map (fun x => t.chunkCount x.1 x.2)).sum +
                ((t.enqHits mnx mny mxx mxy g (t.groupEnd g - g)).map
                  (fun c => t.chunkCount l c)).sum := by
            rw [List.map_append, List.sum_append, List.map_map]
            rfl
          rw [hsum]
          omega
    rw [qiLoop_succ, hCp1]
    rcases hC : sched ++ Cp with - | ⟨y, ys⟩
    · rw [hC] at hperm
      simp only [List.map_nil]
      rw [hD]
      simp only [List.flatMap_nil, List.append_nil] at hperm
      rw [List.append_assoc]
      exact List.Perm.append_left res hperm
    · rw [hC] at hperm
      simp only [List.map_cons]
      have hval_y : t.ValidChunk y.1 y.2 := by
        refine hvalid y ?_
        rw [hC]
        exact List.mem_cons_self y ys
      have hval_ys : ∀ x ∈ ys, t.ValidChunk x.1 x.2 := by
        intro x hx
        refine hvalid x ?_
        rw [hC]
        exact List.mem_cons_of_mem y hx
      have hfuel_y : t.chunkCount y.1 y.2 +
          (ys.map (fun x => t.chunkCount x.1 x.2)).sum ≤ fuel := by
        rw [hC] at hfuel
        simp only [List.map_cons, List.sum_cons] at hfuel
        omega
      have hloop := ih y.1 y.2 ys (t.qiGroup mnx mny mxx mxy (t.groupEnd g - g) g
          ⟨res, sched.map Prod.snd, trace⟩).results
        (t.qiGroup mnx mny mxx mxy (t.groupEnd g - g) g
          ⟨res, sched.map Prod.snd, trace⟩).trace hval_y hval_ys hfuel_y
      refine List.Perm.trans hloop ?_
      rw [hD]
      have heq : res ++ D ++ t.emitL mnx mny mxx mxy y.1 y.2 ++
          ys.flatMap (fun x => t.emitL mnx mny mxx mxy x.1 x.2) =
          res ++ (D ++ (y :: ys).flatMap
            (fun x => t.emitL mnx mny mxx mxy x.1 x.2)) := by
        simp [List.flatMap_cons, List.append_assoc]
      rw [heq, List.append_assoc]
      exact List.Perm.append_left res hperm

/-- One flat-scan step: what it appends to the sink and the trace. -/
theorem qiFlatStep_spec (t : HilbertRTree) (mnx mny mxx mxy : ℚ)
    (st : TraversalState) (p : Nat) :
    (t.qiFlatStep mnx mny mxx mxy st p).results =
      st.results ++
        (if boxIntersects mnx mny mxx mxy (t.get_box p) then [t.get_index p]
          else []) ∧
    (t.qiFlatStep mnx mny mxx mxy st p).queue = st.queue ∧
    (t.qiFlatStep mnx mny mxx mxy st p).trace =
      st.trace ++
        (if boxIntersects mnx mny mxx mxy (t.get_box p) then
          [Access.boxRead p, Access.idxRead p] else [Access.boxRead p]) := by
  by_cases h : (t.get_box p).min_x ≤ mxx ∧ (t.get_box p).min_y ≤ mxy ∧
      mnx ≤ (t.get_box p).max_x ∧ mny ≤ (t.get_box p).max_y
  · simp [HilbertRTree.qiFlatStep, boxIntersects, h]
  · simp [HilbertRTree.qiFlatStep, boxIntersects, h]

/-- The flat scan folded over any position list: the sink collects the
filtered ids and the trace records only box and index reads at scanned
positions. -/
theorem qiFlat_fold (t : HilbertRTree) (mnx mny mxx mxy : ℚ) :
    ∀ (l : List Nat) (st : TraversalState),
      (l.foldl (t.qiFlatStep mnx mny mxx mxy) st).results =
        st.results ++ (l.filter
            (fun ℓ => decide (boxIntersects mnx mny mxx mxy (t.get_box ℓ)))).map
          (fun ℓ => t.get_index ℓ) ∧
      ∃ T, (l.foldl (t.qiFlatStep mnx mny mxx mxy) st).trace = st.trace ++ T ∧
        ∀ a ∈ T, ∃ p ∈ l, a = Access.boxRead p ∨ a = Access.idxRead p := by
  intro l
  induction l with
  | nil =>
    intro st
    exact ⟨by simp, [], by simp, by simp⟩
  | cons b l ih =>
    intro st
    rw [List.foldl_cons]
    obtain ⟨hres, T, htr, hT⟩ := ih (t.qiFlatStep mnx mny mxx mxy st b)
    obtain ⟨hr1, -, ht1⟩ := qiFlatStep_spec t mnx mny mxx mxy st b
    constructor
    · rw [hres, hr1, List.filter_cons]
      by_cases h : boxIntersects mnx mny mxx mxy (t.get_box b)
      · simp [h]
      · simp [h]
    · refine ⟨(if boxIntersects mnx mny mxx mxy (t.get_box b) then
        [Access.boxRead b, Access.idxRead b] else [Access.boxRead b]) ++ T, ?_, ?_⟩
      · rw [htr, ht1, List.append_assoc]
      · intro a ha
        rcases List.mem_append.mp ha with ha | ha
        · refine ⟨b, List.mem_cons_self b l, ?_⟩
          split at ha
          · simp only [List.mem_cons, List.not_mem_nil, or_false] at ha
            tauto
          · simp only [List.mem_cons, List.not_mem_nil, or_false] at ha
            tauto
        · obtain ⟨p, hp, hap⟩ := hT a ha
          exact ⟨p, List.mem_cons_of_mem b hp, hap⟩

/-- The hierarchical work-queue traversal started at the root with the
source's fuel emits a permutation of the stored ids of the intersecting leaf
positions. -/
theorem WF.qiLoop_root_perm (w : WF t) (mnx mny mxx mxy : ℚ) :
    ((t.qiLoop mnx mny mxx mxy (16 ^ t.level_bounds.length) (t.total_nodes - 1)
        ⟨[], [], []⟩).results).Perm
      (((List.range t.num_items).filter
          (fun ℓ => decide (boxIntersects mnx mny mxx mxy (t.get_box ℓ)))).map
        (fun ℓ => t.get_index ℓ)) := by
  have hfuel : t.chunkCount (t.level_bounds.length - 1) (t.total_nodes - 1) +
      (([] : List (Nat × Nat)).map (fun x => t.chunkCount x.1 x.2)).sum ≤
      16 ^ t.level_bounds.length := by
    have hcc := w.chunkCount_le _ _ w.root_chunk
    have h2 := w.hlen2
    rw [show t.level_bounds.length - 1 + 1 = t.level_bounds.length from by
      omega] at hcc
    simp only [List.map_nil, List.sum_nil]
    omega
  have hh := w.qiLoop_perm mnx mny mxx mxy (16 ^ t.level_bounds.length)
    (t.level_bounds.length - 1) (t.total_nodes - 1) [] [] []
    w.root_chunk (by simp) hfuel
  simp only [List.nil_append, List.flatMap_nil, List.append_nil] at hh
  rw [w.emitL_root] at hh
  exact hh

/-- On a well-formed tree, `query_intersecting` returns — whichever of the
two paths it takes — a permutation of the stored ids of the leaf positions
whose boxes intersect the window. -/
theorem WF.query_intersecting_perm (w : WF t) (mnx mny mxx mxy : ℚ) :
    (t.query_intersecting mnx mny mxx mxy).Perm
      (((List.range t.num_items).filter
          (fun ℓ => decide (boxIntersects mnx mny mxx mxy (t.get_box ℓ)))).map
        (fun ℓ => t.get_index ℓ)) := by
  have hguard : ¬(t.num_items = 0 ∨ t.level_bounds = []) := by
    have h1 := w.hN
    have h2 := w.hlen2
    rintro (h | h)
    · omega
    · rw [h] at h2
      simp at h2
  unfold HilbertRTree.query_intersecting HilbertRTree.query_intersecting_full
  rw [if_neg hguard]
  show (if ((t.bounds.getD zeroBox).max_x - (t.bounds.getD zeroBox).min_x) *
      ((t.bounds.getD zeroBox).max_y - (t.bounds.getD zeroBox).min_y) * (1 / 2) <
      (mxx - mnx) * (mxy - mny) then t.qiFlat mnx mny mxx mxy
    else t.qiLoop mnx mny mxx mxy (16 ^ t.level_bounds.length)
      (t.total_nodes - 1) ⟨[], [], []⟩).results.Perm _
  split
  · rw [HilbertRTree.qiFlat,
      (qiFlat_fold t mnx mny mxx mxy (List.range t.num_items) ⟨[], [], []⟩).1]
    simp
  · exact w.qiLoop_root_perm mnx mny mxx mxy

end ChunkLemmas

section AddAllLemmas

/-- Fields of the accumulating state after a sequence of `add` calls. -/
theorem addAll_boxes (items : List Box) (t : HilbertRTree) :
    (t.addAll items).boxes = t.boxes ++ items := by
  induction items generalizing t with
  | nil => simp [HilbertRTree.addAll]
  | cons b rest ih =>
    simp only [HilbertRTree.addAll, List.foldl_cons] at *
    rw [ih]
    simp [HilbertRTree.add]

theorem addAll_num_items (items : List Box) (t : HilbertRTree) :
    (t.addAll items).num_items = t.num_items + items.length := by
  induction items generalizing t with
  | nil => simp [HilbertRTree.addAll]
  | cons b rest ih =>
    simp only [HilbertRTree.addAll, List.foldl_cons] at *
    rw [ih]
    simp [HilbertRTree.add]
    omega

theorem addAll_node_size (items : List Box) (t : HilbertRTree) :
    (t.addAll items).node_size = t.node_size := by
  induction items generalizing t with
  | nil => simp [HilbertRTree.addAll]
  | cons b rest ih =>
    simp only [HilbertRTree.addAll, List.foldl_cons] at *
    rw [ih]
    simp [HilbertRTree.add]

theorem addAll_level_bounds (items : List Box) (t : HilbertRTree) :
    (t.addAll items).level_bounds = t.level_bounds := by
  induction items generalizing t with
  | nil => simp [HilbertRTree.addAll]
  | cons b rest ih =>
    simp only [HilbertRTree.addAll, List.foldl_cons] at *
    rw [ih]
    simp [HilbertRTree.add]

theorem addAll_bounds (items : List Box) (t : HilbertRTree) :
    (t.addAll items).bounds = items.foldl
      (fun acc b => some (match acc with
        | none => b
        | some old => mergeBox old b))
      t.bounds := by
  induction items generalizing t with
  | nil => simp [HilbertRTree.addAll]
  | cons b rest ih =>
    simp only [HilbertRTree.addAll, List.foldl_cons] at *
    rw [ih]
    rfl

theorem addAll_new_bounds (items : List Box) :
    (HilbertRTree.new.addAll items).bounds = globalBounds items := by
  rw [addAll_bounds]
  rfl

end AddAllLemmas

section BuildLemmas

/-- The `div_ceil` count chain of `build`: consecutive level sizes, all
positive, ending in the singleton root level.  The fuel `c` suffices because
the counts strictly decrease while above 1. -/
theorem buildCounts_succ (ns c fuel : Nat) :
    buildCounts ns c (fuel + 1) =
      (if divCeil c ns ≤ 1 then [divCeil c ns]
        else divCeil c ns :: buildCounts ns (divCeil c ns) fuel) := rfl

theorem buildCounts_chain : ∀ fuel c, 1 ≤ c → c ≤ fuel →
    List.Chain' (fun a b => b = divCeil a 16) (c :: buildCounts 16 c fuel) ∧
    (buildCounts 16 c fuel).getLast? = some 1 ∧
    ∀ x ∈ buildCounts 16 c fuel, 1 ≤ x := by
  intro fuel
  induction fuel with
  | zero =>
    intro c h1 h2
    omega
  | succ fuel ih =>
    intro c h1 h2
    have hd : divCeil c 16 = (c + 15) / 16 := by
      unfold divCeil
      omega
    by_cases hle : divCeil c 16 ≤ 1
    · have hbc : buildCounts 16 c (fuel + 1) = [divCeil c 16] := by
        rw [buildCounts_succ, if_pos hle]
      have hone : divCeil c 16 = 1 := by
        rw [hd] at hle ⊢
        omega
      rw [hbc, hone]
      refine ⟨?_, rfl, ?_⟩
      · exact List.chain'_pair.mpr hone.symm
      · intro x hx
        simp only [List.mem_singleton] at hx
        omega
    · have hbc : buildCounts 16 c (fuel + 1) =
          divCeil c 16 :: buildCounts 16 (divCeil c 16) fuel := by
        rw [buildCounts_succ, if_neg hle]
      have hdp : 2 ≤ divCeil c 16 := by omega
      have hlt : divCeil c 16 < c := by
        rw [hd] at hdp ⊢
        omega
      obtain ⟨hch, hlast, hpos⟩ := ih (divCeil c 16) (by omega) (by omega)
      rw [hbc]
      refine ⟨?_, ?_, ?_⟩
      · exact List.chain'_cons.mpr ⟨rfl, hch⟩
      · cases hb : buildCounts 16 (divCeil c 16) fuel with
        | nil =>
          rw [hb] at hlast
          simp at hlast
        | cons a l =>
          rw [hb] at hlast
          rw [List.getLast?_cons_cons]
          exact hlast
      · intro x hx
        rcases List.mem_cons.mp hx with hx | hx
        · omega
        · exact hpos x hx

/-- The total of the count chain never exceeds the leaf count. -/
theorem buildCounts_sum_le : ∀ fuel c, 1 ≤ c → (buildCounts 16 c fuel).sum ≤ c := by
  intro fuel
  induction fuel with
  | zero =>
    intro c h1
    simp [buildCounts]
  | succ fuel ih =>
    intro c h1
    have hd : divCeil c 16 = (c + 15) / 16 := by
      unfold divCeil
      omega
    by_cases hle : divCeil c 16 ≤ 1
    · have hbc : buildCounts 16 c (fuel + 1) = [divCeil c 16] := by
        rw [buildCounts_succ, if_pos hle]
      rw [hbc]
      simp only [List.sum_cons, List.sum_nil]
      omega
    · have hbc : buildCounts 16 c (fuel + 1) =
          divCeil c 16 :: buildCounts 16 (divCeil c 16) fuel := by
        rw [buildCounts_succ, if_neg hle]
      have hdp : 2 ≤ divCeil c 16 := by omega
      have hih := ih (divCeil c 16) (by omega)
      rw [hbc]
      simp only [List.sum_cons]
      rw [hd] at hdp hih ⊢
      omega

/-- `accBounds` is the strictly increasing ladder of partial sums. -/
theorem accBounds_chain : ∀ (l : List Nat) (s : Nat), (∀ x ∈ l, 1 ≤ x) →
    List.Chain' (· < ·) (s :: accBounds s l) := by
  intro l
  induction l with
  | nil =>
    intro s _
    simp [accBounds]
  | cons c rest ih =>
    intro s h
    have hc := h c (List.mem_cons_self c rest)
    rw [accBounds]
    refine List.chain'_cons.mpr ⟨by omega, ?_⟩
    exact ih (s + c) (fun x hx => h x (List.mem_cons_of_mem c hx))

theorem accBounds_length : ∀ (l : List Nat) (s : Nat),
    (accBounds s l).length = l.length := by
  intro l
  induction l with
  | nil => intro s; rfl
  | cons c rest ih =>
    intro s
    rw [accBounds]
    simp [ih]

/-- Stepping along the bounds ladder adds the matching count. -/
theorem accBounds_getD_succ : ∀ (l : List Nat) (s i : Nat), i < l.length →
    (s :: accBounds s l).getD (i + 1) 0 =
      (s :: accBounds s l).getD i 0 + l.getD i 0 := by
  intro l
  induction l with
  | nil =>
    intro s i hi
    simp at hi
  | cons c rest ih =>
    intro s i hi
    cases i with
    | zero => simp [accBounds]
    | succ i =>
      have := ih (s + c) i (by simpa using hi)
      simp only [accBounds, List.getD_cons_succ] at this ⊢
      exact this

/-- The last rung of the bounds ladder is the start plus the total count. -/
theorem accBounds_getLast : ∀ (l : List Nat) (s : Nat),
    (s :: accBounds s l).getD l.length 0 = s + l.sum := by
  intro l
  induction l with
  | nil =>
    intro s
    simp [accBounds]
  | cons c rest ih =>
    intro s
    have := ih (s + c)
    simp only [accBounds, List.length_cons, List.getD_cons_succ, List.sum_cons] at this ⊢
    rw [this]
    ring

theorem getD_set_ne {α : Type} (l : List α) (i j : Nat) (x d : α) (h : i ≠ j) :
    (l.set i x).getD j d = l.getD j d := by
  rw [List.getD_eq_getElem?_getD, List.getD_eq_getElem?_getD, List.getElem?_set_ne h]

theorem getD_set_self {α : Type} (l : List α) (i : Nat) (x d : α)
    (h : i < l.length) : (l.set i x).getD i d = x := by
  rw [List.getD_eq_getElem?_getD, List.getElem?_set_self]
  · rfl
  · exact h

theorem getD_append_left {α : Type} (l1 l2 : List α) (n : Nat) (d : α)
    (h : n < l1.length) : (l1 ++ l2).getD n d = l1.getD n d := by
  rw [List.getD_eq_getElem?_getD, List.getD_eq_getElem?_getD, List.getElem?_append,
    if_pos h]

theorem getD_append_right {α : Type} (l1 l2 : List α) (n : Nat) (d : α)
    (h : l1.length ≤ n) : (l1 ++ l2).getD n d = l2.getD (n - l1.length) d := by
  rw [List.getD_eq_getElem?_getD, List.getD_eq_getElem?_getD, List.getElem?_append,
    if_neg (by omega)]

theorem getD_replicate {α : Type} (n i : Nat) (d e : α) (h : i < n) :
    (List.replicate n d).getD i e = d := by
  rw [List.getD_eq_getElem?_getD, List.getElem?_replicate]
  simp [h]

theorem map_getD_range_eq_take {α : Type} (l : List α) (d : α) (n : Nat)
    (h : n ≤ l.length) : (List.range n).map (fun i => l.getD i d) = l.take n := by
  apply List.ext_getElem
  · simp [h]
  · intro i h1 h2
    simp only [List.getElem_map, List.getElem_range, List.getElem_take]
    rw [List.getD_eq_getElem?_getD]
    simp only [List.length_map, List.length_range] at h1
    rw [List.getElem?_eq_getElem (by omega)]
    rfl

/-- The chunk merge only looks at the scanned slots. -/
theorem getD_irrel {α : Type} (l : List α) (i : Nat) (d1 d2 : α)
    (h : i < l.length) : l.getD i d1 = l.getD i d2 := by
  rw [List.getD_eq_getElem?_getD, List.getD_eq_getElem?_getD,
    List.getElem?_eq_getElem h]
  rfl

theorem getD_mem {α : Type} (l : List α) (i : Nat) (d : α) (h : i < l.length) :
    l.getD i d ∈ l := by
  rw [List.getD_eq_getElem?_getD, List.getElem?_eq_getElem h]
  exact List.getElem_mem h

/-- The chunk merge only looks at the scanned slots. -/
theorem mergeChunk_congr (b1 b2 : List Box) : ∀ (n pos : Nat) (acc : Box),
    (∀ q, pos ≤ q → q < pos + n → b1.getD q zeroBox = b2.getD q zeroBox) →
    HilbertRTree.mergeChunk b1 pos n acc = HilbertRTree.mergeChunk b2 pos n acc := by
  intro n
  induction n with
  | zero =>
    intro pos acc _
    rfl
  | succ n ih =>
    intro pos acc h
    show HilbertRTree.mergeChunk b1 (pos + 1) n (mergeBox acc (b1.getD pos zeroBox)) =
      HilbertRTree.mergeChunk b2 (pos + 1) n (mergeBox acc (b2.getD pos zeroBox))
    rw [h pos (le_refl _) (by omega)]
    exact ih (pos + 1) _ (fun q h1 h2 => h q (by omega) (by omega))

/-- The chunk merge contains its seed. -/
theorem boxLE_mergeChunk_acc (boxes : List Box) : ∀ (n pos : Nat) (acc : Box),
    boxLE acc (HilbertRTree.mergeChunk boxes pos n acc) := by
  intro n
  induction n with
  | zero =>
    intro pos acc
    exact boxLE_refl acc
  | succ n ih =>
    intro pos acc
    show boxLE acc (HilbertRTree.mergeChunk boxes (pos + 1) n
      (mergeBox acc (boxes.getD pos zeroBox)))
    exact boxLE_trans (boxLE_mergeBox_left _ _) (ih (pos + 1) _)

/-- The chunk merge contains every scanned slot. -/
theorem boxLE_mergeChunk_mem (boxes : List Box) : ∀ (n pos : Nat) (acc : Box)
    (q : Nat), pos ≤ q → q < pos + n →
    boxLE (boxes.getD q zeroBox) (HilbertRTree.mergeChunk boxes pos n acc) := by
  intro n
  induction n with
  | zero =>
    intro pos acc q h1 h2
    omega
  | succ n ih =>
    intro pos acc q h1 h2
    show boxLE _ (HilbertRTree.mergeChunk boxes (pos + 1) n (mergeBox acc (boxes.getD pos zeroBox)))
    rcases Nat.eq_or_lt_of_le h1 with he | hlt
    · rw [← he]
      exact boxLE_trans (boxLE_mergeBox_right _ _) (boxLE_mergeChunk_acc boxes n (pos + 1) _)
    · exact ih (pos + 1) _ q hlt (by omega)

theorem buildChunks_succ (ns fuel : Nat) (boxes : List Box) (indices : List Nat)
    (pos levelEnd parentPos : Nat) :
    HilbertRTree.buildChunks ns (fuel + 1) boxes indices pos levelEnd parentPos =
      if levelEnd ≤ pos then (boxes, indices)
      else
        HilbertRTree.buildChunks ns fuel
          (boxes.set parentPos (HilbertRTree.mergeChunk boxes pos
            (min ns (levelEnd - pos)) (boxes.getD pos zeroBox)))
          (indices.set parentPos ((4 * pos) % u32mod))
          (pos + min ns (levelEnd - pos)) levelEnd (parentPos + 1) := rfl

/-- Full characterization of one parent pass (the `while pos < level_end`
chunk loop of `build`): list lengths are preserved, every position outside
the written parent window `[parentPos, parentPos + chunks)` is untouched,
and the `k`-th written parent holds the merge of its child chunk and the
tagged first-child pointer `4 * chunk_start`. -/
theorem buildChunks_spec :
    ∀ (fuel : Nat) (boxes : List Box) (indices : List Nat)
      (pos levelEnd parentPos : Nat),
      levelEnd ≤ parentPos →
      levelEnd - pos ≤ fuel →
      parentPos + divCeil (levelEnd - pos) 16 ≤ boxes.length →
      parentPos + divCeil (levelEnd - pos) 16 ≤ indices.length →
      (HilbertRTree.buildChunks 16 fuel boxes indices pos levelEnd parentPos).1.length =
          boxes.length ∧
      (HilbertRTree.buildChunks 16 fuel boxes indices pos levelEnd parentPos).2.length =
          indices.length ∧
      (∀ q, q < parentPos ∨ parentPos + divCeil (levelEnd - pos) 16 ≤ q →
        (HilbertRTree.buildChunks 16 fuel boxes indices pos levelEnd parentPos).1.getD q
            zeroBox = boxes.getD q zeroBox ∧
        (HilbertRTree.buildChunks 16 fuel boxes indices pos levelEnd parentPos).2.getD q
            0 = indices.getD q 0) ∧
      (∀ k, k < divCeil (levelEnd - pos) 16 →
        (HilbertRTree.buildChunks 16 fuel boxes indices pos levelEnd parentPos).2.getD
            (parentPos + k) 0 = (4 * (pos + 16 * k)) % u32mod ∧
        (HilbertRTree.buildChunks 16 fuel boxes indices pos levelEnd parentPos).1.getD
            (parentPos + k) zeroBox =
          HilbertRTree.mergeChunk boxes (pos + 16 * k)
            (min 16 (levelEnd - (pos + 16 * k)))
            (boxes.getD (pos + 16 * k) zeroBox)) := by
  intro fuel
  induction fuel with
  | zero =>
    intro boxes indices pos levelEnd parentPos hle hfuel hb hi
    have hz : levelEnd - pos = 0 := by omega
    have hdc : divCeil (levelEnd - pos) 16 = 0 := by
      unfold divCeil
      omega
    rw [hdc]
    exact ⟨rfl, rfl, fun q _ => ⟨rfl, rfl⟩, fun k hk => by omega⟩
  | succ fuel ih =>
    intro boxes indices pos levelEnd parentPos hle hfuel hb hi
    by_cases hstop : levelEnd ≤ pos
    · have hdc : divCeil (levelEnd - pos) 16 = 0 := by
        unfold divCeil
        omega
      rw [buildChunks_succ, if_pos hstop, hdc]
      exact ⟨rfl, rfl, fun q _ => ⟨rfl, rfl⟩, fun k hk => by omega⟩
    · rw [buildChunks_succ, if_neg hstop]
      have hm : 1 ≤ levelEnd - pos := by omega
      have hcnt1 : 1 ≤ min 16 (levelEnd - pos) := by omega
      have hnum1 : 1 ≤ divCeil (levelEnd - pos) 16 := by
        unfold divCeil
        omega
      have hnum : divCeil (levelEnd - (pos + min 16 (levelEnd - pos))) 16 + 1 =
          divCeil (levelEnd - pos) 16 := by
        unfold divCeil
        omega
      have hih := ih
        (boxes.set parentPos (HilbertRTree.mergeChunk boxes pos
          (min 16 (levelEnd - pos)) (boxes.getD pos zeroBox)))
        (indices.set parentPos ((4 * pos) % u32mod))
        (pos + min 16 (levelEnd - pos)) levelEnd (parentPos + 1)
        (by omega) (by omega)
        (by rw [List.length_set]; omega)
        (by rw [List.length_set]; omega)
      obtain ⟨hl1, hl2, huntouched, hchunk⟩ := hih
      have hplen : parentPos < boxes.length := by omega
      have hplen2 : parentPos < indices.length := by omega
      refine ⟨by rw [hl1, List.length_set], by rw [hl2, List.length_set], ?_, ?_⟩
      · intro q hq
        have hq' : q < parentPos + 1 ∨
            parentPos + 1 + divCeil (levelEnd - (pos + min 16 (levelEnd - pos))) 16 ≤ q := by
          omega
        obtain ⟨e1, e2⟩ := huntouched q hq'
        have hne : parentPos ≠ q := by omega
        rw [e1, e2, getD_set_ne _ _ _ _ _ hne, getD_set_ne _ _ _ _ _ hne]
        exact ⟨rfl, rfl⟩
      · intro k hk
        cases k with
        | zero =>
          have hq' : parentPos < parentPos + 1 ∨
              parentPos + 1 + divCeil (levelEnd - (pos + min 16 (levelEnd - pos))) 16 ≤
                parentPos := Or.inl (by omega)
          obtain ⟨e1, e2⟩ := huntouched parentPos hq'
          simp only [Nat.add_zero, Nat.mul_zero]
          rw [e1, e2, getD_set_self _ _ _ _ hplen, getD_set_self _ _ _ _ hplen2]
          exact ⟨rfl, rfl⟩
        | succ k =>
          have hk' : k < divCeil (levelEnd - (pos + min 16 (levelEnd - pos))) 16 := by
            omega
          obtain ⟨e1, e2⟩ := hchunk k hk'
          have hcnt16 : min 16 (levelEnd - pos) = 16 := by
            by_contra hne
            have : levelEnd - pos < 16 := by omega
            have : divCeil (levelEnd - pos) 16 ≤ 1 := by
              unfold divCeil
              omega
            omega
          have ep : parentPos + (k + 1) = parentPos + 1 + k := by omega
          have es : pos + min 16 (levelEnd - pos) + 16 * k = pos + 16 * (k + 1) := by
            omega
          have hks : pos + 16 * (k + 1) < levelEnd := by
            unfold divCeil at hk
            omega
          rw [es] at e1 e2
          rw [ep, e1, e2]
          constructor
          · rfl
          · have hsetne : ∀ q, pos + 16 * (k + 1) ≤ q →
                q < pos + 16 * (k + 1) + min 16 (levelEnd - (pos + 16 * (k + 1))) →
                (boxes.set parentPos (HilbertRTree.mergeChunk boxes pos
                  (min 16 (levelEnd - pos)) (boxes.getD pos zeroBox))).getD q zeroBox =
                  boxes.getD q zeroBox := by
              intro q hq1 hq2
              have : parentPos ≠ q := by omega
              exact getD_set_ne _ _ _ _ _ this
            rw [mergeChunk_congr _ boxes _ _ _ hsetne]
            rw [hsetne (pos + 16 * (k + 1)) (le_refl _) (by omega)]

theorem buildLevels_cons (ns : Nat) (boxes : List Box) (indices : List Nat)
    (pos e : Nat) (rest : List Nat) :
    HilbertRTree.buildLevels ns boxes indices pos (e :: rest) =
      HilbertRTree.buildLevels ns
        (HilbertRTree.buildChunks ns e boxes indices pos e e).1
        (HilbertRTree.buildChunks ns e boxes indices pos e e).2 e rest := rfl

/-- The bottom-up level construction: lengths are preserved, the region below
the first boundary (the leaves, at the outer call) is untouched, and every
pass's parent slots satisfy the per-chunk write facts in the final buffers. -/
theorem buildLevels_spec :
    ∀ (ends : List Nat) (boxes : List Box) (indices : List Nat) (pos total : Nat),
      boxes.length = total → indices.length = total →
      Ladder total pos ends →
      (HilbertRTree.buildLevels 16 boxes indices pos ends).1.length = total ∧
      (HilbertRTree.buildLevels 16 boxes indices pos ends).2.length = total ∧
      (∀ q, q < ends.headD total →
        (HilbertRTree.buildLevels 16 boxes indices pos ends).1.getD q zeroBox =
          boxes.getD q zeroBox ∧
        (HilbertRTree.buildLevels 16 boxes indices pos ends).2.getD q 0 =
          indices.getD q 0) ∧
      passFacts (HilbertRTree.buildLevels 16 boxes indices pos ends).1
        (HilbertRTree.buildLevels 16 boxes indices pos ends).2 total pos ends := by
  intro ends
  induction ends with
  | nil =>
    intro boxes indices pos total hbl hil _
    exact ⟨hbl, hil, fun q _ => ⟨rfl, rfl⟩, trivial⟩
  | cons e rest ih =>
    intro boxes indices pos total hbl hil hlad
    obtain ⟨hpe, hnext, htot, hlad'⟩ := hlad
    have hnum1 : 1 ≤ divCeil (e - pos) 16 := by
      unfold divCeil
      omega
    obtain ⟨hP1, hP2, hPun, hPchunk⟩ := buildChunks_spec e boxes indices pos e e
      (le_refl e) (by omega) (by omega) (by omega)
    rw [buildLevels_cons]
    obtain ⟨hF1, hF2, hFun, hFpass⟩ := ih
      (HilbertRTree.buildChunks 16 e boxes indices pos e e).1
      (HilbertRTree.buildChunks 16 e boxes indices pos e e).2 e total
      (by omega) (by omega) hlad'
    refine ⟨hF1, hF2, ?_, ?_, hFpass⟩
    · intro q hq
      simp only [List.headD_cons] at hq
      have hq2 : q < rest.headD total := by omega
      obtain ⟨f1, f2⟩ := hFun q hq2
      obtain ⟨p1, p2⟩ := hPun q (Or.inl hq)
      rw [f1, f2, p1, p2]
      exact ⟨rfl, rfl⟩
    · intro k hk
      have hkc : k < divCeil (e - pos) 16 := by omega
      have hks : pos + 16 * k < e := by
        unfold divCeil at hkc
        omega
      have hek : e + k < rest.headD total := by omega
      obtain ⟨f1, f2⟩ := hFun (e + k) hek
      obtain ⟨c1, c2⟩ := hPchunk k hkc
      rw [f1, f2, c1, c2]
      have hread : ∀ q, pos + 16 * k ≤ q →
          q < pos + 16 * k + min 16 (e - (pos + 16 * k)) →
          boxes.getD q zeroBox =
            (HilbertRTree.buildLevels 16
              (HilbertRTree.buildChunks 16 e boxes indices pos e e).1
              (HilbertRTree.buildChunks 16 e boxes indices pos e e).2 e rest).1.getD
              q zeroBox := by
        intro q hq1 hq2
        have hqe : q < e := by omega
        obtain ⟨f1', -⟩ := hFun q (by omega)
        obtain ⟨p1', -⟩ := hPun q (Or.inl hqe)
        rw [f1', p1']
      refine ⟨rfl, ?_⟩
      rw [mergeChunk_congr boxes _ _ _ _ hread,
        hread (pos + 16 * k) (le_refl _) (by omega)]

theorem chain'_getD {R : Nat → Nat → Prop} :
    ∀ (l : List Nat), List.Chain' R l →
      ∀ i, i + 1 < l.length → R (l.getD i 0) (l.getD (i + 1) 0) := by
  intro l
  induction l with
  | nil =>
    intro _ i hi
    simp at hi
  | cons a rest ih =>
    intro hch i hi
    cases rest with
    | nil => simp at hi
    | cons b rest' =>
      obtain ⟨hab, hch'⟩ := List.chain'_cons.mp hch
      cases i with
      | zero => exact hab
      | succ i =>
        exact ih hch' i (by simpa using hi)

theorem dropLast_getD {α : Type} :
    ∀ (l : List α) (i : Nat) (d : α), i + 1 < l.length →
      l.dropLast.getD i d = l.getD i d := by
  intro l
  induction l with
  | nil =>
    intro i d hi
    simp at hi
  | cons a rest ih =>
    intro i d hi
    cases rest with
    | nil => simp at hi
    | cons b rest' =>
      cases i with
      | zero => rfl
      | succ i =>
        have := ih i d (by simpa using hi)
        simp only [List.dropLast_cons₂, List.getD_cons_succ] at this ⊢
        exact this

theorem headD_drop {α : Type} :
    ∀ (l : List α) (n : Nat) (d : α), n < l.length →
      (l.drop n).headD d = l.getD n d := by
  intro l
  induction l with
  | nil =>
    intro n d hn
    simp at hn
  | cons a rest ih =>
    intro n d hn
    cases n with
    | zero => rfl
    | succ n =>
      have := ih n d (by simpa using hn)
      simp only [List.drop_succ_cons, List.getD_cons_succ]
      exact this

theorem getD_map {α β : Type} (f : α → β) (dA : α) (dB : β) :
    ∀ (l : List α) (i : Nat), i < l.length →
      (l.map f).getD i dB = f (l.getD i dA) := by
  intro l
  induction l with
  | nil =>
    intro i hi
    simp at hi
  | cons a rest ih =>
    intro i hi
    cases i with
    | zero => rfl
    | succ i =>
      have := ih i (by simpa using hi)
      simpa using this

theorem getLast?_getD (l : List Nat) (x : Nat) (h : l.getLast? = some x) :
    l.getD (l.length - 1) 0 = x := by
  rw [List.getLast?_eq_getElem?] at h
  rw [List.getD_eq_getElem?_getD, h]
  rfl

theorem take_eq_of_getD {α : Type} (l1 l2 : List α) (d : α) (n : Nat)
    (h1 : n ≤ l1.length) (h2 : l2.length = n)
    (h : ∀ i, i < n → l1.getD i d = l2.getD i d) : l1.take n = l2 := by
  apply List.ext_getElem
  · simp
    omega
  · intro i hi1 hi2
    have hin : i < n := by
      simp at hi1
      omega
    have := h i hin
    rw [List.getD_eq_getElem?_getD, List.getD_eq_getElem?_getD,
      List.getElem?_eq_getElem (by omega), List.getElem?_eq_getElem (by omega)] at this
    simp only [Option.getD_some] at this
    simp only [List.getElem_take]
    exact this

/-- The level-bounds ladder built from a `div_ceil` count chain satisfies the
pass invariant of `buildLevels`. -/
theorem ladder_of_chain :
    ∀ (cs : List Nat) (pos s : Nat), pos < s →
      List.Chain' (fun a b => b = divCeil a 16) ((s - pos) :: cs) →
      (∀ x ∈ cs, 1 ≤ x) →
      Ladder (s + cs.sum) pos ((s :: accBounds s cs).dropLast) := by
  intro cs
  induction cs with
  | nil =>
    intro pos s hps _ _
    simp only [accBounds, List.dropLast_single]
    trivial
  | cons c cs' ih =>
    intro pos s hps hch hpos
    obtain ⟨hc, hch'⟩ := List.chain'_cons.mp hch
    have hc1 : 1 ≤ c := hpos c (List.mem_cons_self c cs')
    show Ladder (s + (c :: cs').sum) pos
      (s :: ((s + c) :: accBounds (s + c) cs').dropLast)
    have hhead : (((s + c) :: accBounds (s + c) cs').dropLast).headD
        (s + (c :: cs').sum) = s + c := by
      cases cs' with
      | nil => simp [accBounds]
      | cons c' rest => simp [accBounds]
    refine ⟨hps, ?_, ?_, ?_⟩
    · rw [hhead, ← hc]
    · rw [hhead]
      simp only [List.sum_cons]
      omega
    · have := ih s (s + c) (by omega)
        (by rwa [show s + c - s = c from by omega])
        (fun x hx => hpos x (List.mem_cons_of_mem c hx))
      rwa [show s + c + cs'.sum = s + (c :: cs').sum from by simp [List.sum_cons]; ring]
        at this

/-- Indexed extraction from the recursive pass facts: the `i`-th pass wrote
the parents `[ends[i], next_i)` from the children starting at the previous
boundary (`pos` for the first pass). -/
theorem passFacts_getD :
    ∀ (ends : List Nat) (B : List Box) (I : List Nat) (total pos : Nat),
      passFacts B I total pos ends →
      ∀ i, i < ends.length →
      ∀ k, k < (ends.drop (i + 1)).headD total - ends.getD i 0 →
        I.getD (ends.getD i 0 + k) 0 =
          (4 * ((if i = 0 then pos else ends.getD (i - 1) 0) + 16 * k)) % u32mod ∧
        B.getD (ends.getD i 0 + k) zeroBox =
          HilbertRTree.mergeChunk B
            ((if i = 0 then pos else ends.getD (i - 1) 0) + 16 * k)
            (min 16 (ends.getD i 0 -
              ((if i = 0 then pos else ends.getD (i - 1) 0) + 16 * k)))
            (B.getD ((if i = 0 then pos else ends.getD (i - 1) 0) + 16 * k)
              zeroBox) := by
  intro ends
  induction ends with
  | nil =>
    intro B I total pos _ i hi
    simp at hi
  | cons e rest ih =>
    intro B I total pos hpf i hi k hk
    obtain ⟨hhead, htail⟩ := hpf
    cases i with
    | zero =>
      simp only [List.getD_cons_zero, List.drop_succ_cons, List.drop_zero,
        if_pos rfl] at hk ⊢
      exact hhead k hk
    | succ j =>
      have hprev : (if j = 0 then e else rest.getD (j - 1) 0) =
          (e :: rest).getD j 0 := by
        cases j with
        | zero => rfl
        | succ j' => rfl
      have := ih B I total e htail j (by simpa using hi) k (by
        simpa using hk)
      rw [hprev] at this
      simpa using this

/-- Level counts of a tree of at most one full node: a single parent level. -/
theorem buildCounts_small (n : Nat) (h1 : 1 ≤ n) (h2 : n ≤ 16) :
    buildCounts 16 n n = [1] := by
  match n, h1 with
  | n + 1, _ =>
    simp only [buildCounts, divCeil]
    have hd : n / 16 = 0 := by omega
    simp [hd]

/-- The accumulated global bounds contain the accumulator seed and every
added box. -/
theorem foldl_bounds_boxLE :
    ∀ (l : List Box) (acc : Option Box),
      (∀ x, acc = some x →
        boxLE x ((l.foldl (fun acc b => some (match acc with
          | none => b
          | some old => mergeBox old b)) acc).getD zeroBox)) ∧
      (∀ b ∈ l,
        boxLE b ((l.foldl (fun acc b => some (match acc with
          | none => b
          | some old => mergeBox old b)) acc).getD zeroBox)) := by
  intro l
  induction l with
  | nil =>
    intro acc
    constructor
    · intro x hx
      rw [hx]
      exact boxLE_refl x
    · intro b hb
      simp at hb
  | cons b l ih =>
    intro acc
    constructor
    · intro x hx
      subst hx
      have := (ih (some (mergeBox x b))).1 (mergeBox x b) rfl
      exact boxLE_trans (boxLE_mergeBox_left x b) this
    · intro c hc
      rcases List.mem_cons.mp hc with hc | hc
      · subst hc
        cases acc with
        | none =>
          exact (ih (some c)).1 c rfl
        | some old =>
          have := (ih (some (mergeBox old c))).1 (mergeBox old c) rfl
          exact boxLE_trans (boxLE_mergeBox_right old c) this
      · cases acc with
        | none => exact (ih (some b)).2 c hc
        | some old => exact (ih (some (mergeBox old b))).2 c hc

/-- Every added box is contained in the accumulated global bounds. -/
theorem globalBounds_boxLE (items : List Box) (b : Box) (hb : b ∈ items) :
    boxLE b ((globalBounds items).getD zeroBox) :=
  (foldl_bounds_boxLE items none).2 b hb

/-- Closed form of the built tree in the single-root branch. -/
theorem build_small (items : List Box) (h1 : items ≠ []) (h16 : items.length ≤ 16) :
    buildTree items =
      { header := [0xfb, 0x01] ++ le16 (16 % 65536) ++ le32 (items.length % u32mod)
        boxes := items ++ [(globalBounds items).getD zeroBox]
        indices := List.range items.length ++ [0]
        level_bounds := [items.length, items.length + 1]
        node_size := 16
        num_items := items.length
        bounds := globalBounds items
        total_nodes := items.length + 1 } := by
  have hlen : 1 ≤ items.length := List.length_pos.mpr h1
  unfold buildTree HilbertRTree.build
  rw [addAll_num_items, addAll_node_size, addAll_boxes, addAll_new_bounds]
  simp only [HilbertRTree.new, Nat.zero_add, List.nil_append]
  rw [if_neg (by omega), if_pos h16, buildCounts_small items.length hlen h16]
  simp [accBounds]

/-- Closed form of the built tree in the general branch. -/
theorem build_general (items : List Box) (h16 : 16 < items.length) :
    buildTree items =
      { header := [0xfb, 0x01] ++ le16 (16 % 65536) ++ le32 (items.length % u32mod)
        boxes := (HilbertRTree.buildLevels 16 (boxes0 items) (indices0 items) 0
          (lbs items).dropLast).1
        indices := (HilbertRTree.buildLevels 16 (boxes0 items) (indices0 items) 0
          (lbs items).dropLast).2
        level_bounds := lbs items
        node_size := 16
        num_items := items.length
        bounds := globalBounds items
        total_nodes := totalN items } := by
  unfold buildTree HilbertRTree.build
  rw [addAll_num_items, addAll_node_size, addAll_boxes, addAll_new_bounds]
  simp only [HilbertRTree.new, Nat.zero_add, List.nil_append]
  rw [if_neg (by omega), if_neg (by omega)]
  unfold boxes0 indices0 sortIdx lbs totalN
  rfl

/-- Well-formedness of any tree with the two-level single-root shape. -/
theorem WF_of_two_levels (t : HilbertRTree) (N : Nat)
    (hb : t.node_size = 16) (hn : t.num_items = N) (h1 : 1 ≤ N) (h16 : N ≤ 16)
    (hlb : t.level_bounds = [N, N + 1]) (htn : t.total_nodes = N + 1)
    (hblen : t.boxes.length = N + 1) (hilen : t.indices.length = N + 1)
    (hidxN : t.get_index N = 0)
    (hidxid : (t.indices.take N).Perm (List.range N))
    (hroot : ∀ q, q < N → boxLE (t.get_box q) (t.get_box N)) :
    WF t := by
  have hstart0 : t.lvlStart 0 = 0 := by
    unfold HilbertRTree.lvlStart
    rw [if_pos rfl]
  have hstart1 : t.lvlStart 1 = N := by
    unfold HilbertRTree.lvlStart
    rw [if_neg (by omega), hlb]
    rfl
  have hend0 : t.lvlEnd 0 = N := by
    unfold HilbertRTree.lvlEnd
    rw [hlb]
    rfl
  have hend1 : t.lvlEnd 1 = N + 1 := by
    unfold HilbertRTree.lvlEnd
    rw [hlb]
    rfl
  refine ⟨hb, by omega, by rw [hlb]; simp, ?_, by rw [hlb, hn]; rfl, ?_, ?_,
    by omega, by omega, ?_, ?_, ?_, ?_⟩
  · rw [hlb]
    simp only [List.chain'_cons, List.chain'_singleton, and_true]
    omega
  · rw [hlb]
    show ([N, N + 1].getD 1 0) = t.total_nodes
    rw [htn]
    rfl
  · rw [hlb]
    show ([N, N + 1].getD 0 0) + 1 = t.total_nodes
    rw [htn]
    rfl
  · intro lvl hlvl
    rw [hlb] at hlvl
    have h0 : lvl = 0 := by
      simp only [List.length_cons, List.length_nil] at hlvl
      omega
    subst h0
    rw [show (0 : Nat) + 1 = 1 from rfl, hend1, hstart1, hend0, hstart0]
    unfold divCeil
    omega
  · intro lvl hl1 hl2 p hp1 hp2
    rw [hlb] at hl2
    have h0 : lvl = 1 := by
      simp only [List.length_cons, List.length_nil] at hl2
      omega
    subst h0
    rw [hstart1] at hp1
    rw [hend1] at hp2
    have hpN : p = N := by omega
    subst hpN
    rw [hidxN]
    unfold HilbertRTree.fcp
    rw [show (1 : Nat) - 1 = 0 from rfl, hstart0, hstart1]
    omega
  · intro lvl hl1 hl2 p hp1 hp2 q hq1 hq2
    rw [hlb] at hl2
    have h0 : lvl = 1 := by
      simp only [List.length_cons, List.length_nil] at hl2
      omega
    subst h0
    rw [hstart1] at hp1
    rw [hend1] at hp2
    have hpN : p = N := by omega
    subst hpN
    unfold HilbertRTree.fcp at hq1 hq2
    rw [show (1 : Nat) - 1 = 0 from rfl, hstart0, hstart1] at hq1 hq2
    rw [hend0] at hq2
    have hqN : q < p := by omega
    exact hroot q hqN
  · rw [hn]
    exact hidxid

/-- Well-formedness and leaf coherence of the built tree, single-root
branch. -/
theorem WF_build_small (items : List Box) (h1 : items ≠ [])
    (h16 : items.length ≤ 16) :
    WF (buildTree items) ∧
    (∀ p, p < items.length →
      (buildTree items).get_index p < items.length ∧
      (buildTree items).get_box p =
        items.getD ((buildTree items).get_index p) zeroBox) := by
  have hlen : 1 ≤ items.length := List.length_pos.mpr h1
  have hsm := build_small items h1 h16
  have hgb : ∀ p, p < items.length → (buildTree items).get_box p =
      items.getD p zeroBox := by
    intro p hp
    rw [hsm]
    show (items ++ _).getD p zeroBox = _
    rw [getD_append_left _ _ _ _ (by omega)]
  have hgi : ∀ p, p < items.length → (buildTree items).get_index p = p := by
    intro p hp
    rw [hsm]
    show (List.range items.length ++ [0]).getD p 0 = p
    rw [getD_append_left _ _ _ _ (by simpa using hp)]
    rw [List.getD_eq_getElem?_getD, List.getElem?_range hp]
    rfl
  constructor
  · refine WF_of_two_levels (buildTree items) items.length ?_ ?_ hlen h16 ?_ ?_
      ?_ ?_ ?_ ?_ ?_
    · rw [hsm]
    · rw [hsm]
    · rw [hsm]
    · rw [hsm]
    · rw [hsm]
      simp
    · rw [hsm]
      simp
    · rw [hsm]
      show (List.range items.length ++ [0]).getD items.length 0 = 0
      rw [getD_append_right _ _ _ _ (by simp)]
      simp
    · rw [hsm]
      show ((List.range items.length ++ [0]).take items.length).Perm _
      rw [List.take_left' (by simp)]
    · intro q hq
      have e1 : (buildTree items).get_box q = items.getD q zeroBox := hgb q hq
      have e2 : (buildTree items).get_box items.length =
          (globalBounds items).getD zeroBox := by
        rw [hsm]
        show (items ++ _).getD items.length zeroBox = _
        rw [getD_append_right _ _ _ _ (by omega)]
        simp
      rw [e1, e2]
      exact globalBounds_boxLE items _ (getD_mem items q zeroBox hq)
  · intro p hp
    rw [hgi p hp]
    exact ⟨hp, hgb p hp⟩

/-- Bundled facts about the count chain of a general build. -/
theorem counts_facts (items : List Box) (h16 : 16 < items.length) :
    buildCounts 16 items.length items.length ≠ [] ∧
    List.Chain' (fun a b => b = divCeil a 16)
      (items.length :: buildCounts 16 items.length items.length) ∧
    (buildCounts 16 items.length items.length).getLast? = some 1 ∧
    (∀ x ∈ buildCounts 16 items.length items.length, 1 ≤ x) ∧
    (buildCounts 16 items.length items.length).sum ≤ items.length ∧
    1 ≤ (buildCounts 16 items.length items.length).sum := by
  obtain ⟨hch, hlast, hpos⟩ :=
    buildCounts_chain items.length items.length (by omega) (le_refl _)
  have hne : buildCounts 16 items.length items.length ≠ [] := by
    intro h
    rw [h] at hlast
    simp at hlast
  refine ⟨hne, hch, hlast, hpos, buildCounts_sum_le _ _ (by omega), ?_⟩
  cases hc : buildCounts 16 items.length items.length with
  | nil => exact absurd hc hne
  | cons c rest =>
    have h1 : 1 ≤ c := hpos c (by rw [hc]; exact List.mem_cons_self c rest)
    simp only [List.sum_cons]
    omega

/-- Bundled facts about the level-bounds ladder of a general build. -/
theorem lbs_struct (items : List Box) (h16 : 16 < items.length) :
    (lbs items).length = (buildCounts 16 items.length items.length).length + 1 ∧
    (lbs items).getD 0 0 = items.length ∧
    (∀ i, i < (buildCounts 16 items.length items.length).length →
      (lbs items).getD (i + 1) 0 = (lbs items).getD i 0 +
        (buildCounts 16 items.length items.length).getD i 0) ∧
    (lbs items).getD (buildCounts 16 items.length items.length).length 0 =
      totalN items ∧
    List.Chain' (· < ·) (lbs items) := by
  obtain ⟨hne, hch, hlast, hpos, hsum, hsum1⟩ := counts_facts items h16
  refine ⟨?_, rfl, ?_, ?_, ?_⟩
  · unfold lbs
    simp [accBounds_length]
  · intro i hi
    exact accBounds_getD_succ _ _ i hi
  · exact accBounds_getLast _ _
  · exact accBounds_chain _ _ hpos

/-- Well-formedness and leaf coherence of the built tree, general branch.
The size bound keeps every `4 * first_child` tag below the `u32` modulus. -/
theorem WF_build_general (items : List Box) (h16 : 16 < items.length)
    (hsz : items.length < 536870912) :
    WF (buildTree items) ∧
    (∀ p, p < items.length →
      (buildTree items).get_index p < items.length ∧
      (buildTree items).get_box p =
        items.getD ((buildTree items).get_index p) zeroBox) := by
  obtain ⟨hcne, hch, hclast, hcpos, hcsum, hcsum1⟩ := counts_facts items h16
  obtain ⟨hLlen, hL0, hLsucc, hLlast, hLchain⟩ := lbs_struct items h16
  have hcl1 : 1 ≤ (buildCounts 16 items.length items.length).length := by
    cases hx : buildCounts 16 items.length items.length with
    | nil => exact absurd hx hcne
    | cons a l => simp
  have hsiperm : (sortIdx items).Perm (List.range items.length) := sortBy_perm _ _
  have hsilen : (sortIdx items).length = items.length := by
    rw [hsiperm.length_eq, List.length_range]
  have hsimem : ∀ q, q < items.length → (sortIdx items).getD q 0 < items.length := by
    intro q hq
    have hmem := getD_mem (sortIdx items) q 0 (by omega)
    have := hsiperm.mem_iff.mp hmem
    simpa using this
  have htotN : items.length ≤ totalN items := by
    unfold totalN
    omega
  have htot2N : totalN items ≤ 2 * items.length := by
    unfold totalN
    omega
  have hb0len : (boxes0 items).length = totalN items := by
    unfold boxes0
    simp [hsilen]
    omega
  have hi0len : (indices0 items).length = totalN items := by
    unfold indices0
    simp [hsilen]
    omega
  have hlad : Ladder (totalN items) 0 ((lbs items).dropLast) := by
    have := ladder_of_chain (buildCounts 16 items.length items.length) 0
      items.length (by omega) (by rwa [Nat.sub_zero]) hcpos
    exact this
  obtain ⟨hBlen, hIlen, hLeaf, hPass⟩ := buildLevels_spec
    ((lbs items).dropLast) (boxes0 items) (indices0 items) 0 (totalN items)
    hb0len hi0len hlad
  have hT := build_general items h16
  have hTlb : (buildTree items).level_bounds = lbs items := by rw [hT]
  have hTns : (buildTree items).node_size = 16 := by rw [hT]
  have hTn : (buildTree items).num_items = items.length := by rw [hT]
  have hTtot : (buildTree items).total_nodes = totalN items := by rw [hT]
  have hTbox : (buildTree items).boxes = (HilbertRTree.buildLevels 16 (boxes0 items)
      (indices0 items) 0 (lbs items).dropLast).1 := by rw [hT]
  have hTidx : (buildTree items).indices = (HilbertRTree.buildLevels 16 (boxes0 items)
      (indices0 items) 0 (lbs items).dropLast).2 := by rw [hT]
  have hEnd : ∀ lvl, (buildTree items).lvlEnd lvl = (lbs items).getD lvl 0 := by
    intro lvl
    unfold HilbertRTree.lvlEnd
    rw [hTlb]
  have hStart : ∀ lvl, 1 ≤ lvl →
      (buildTree items).lvlStart lvl = (lbs items).getD (lvl - 1) 0 := by
    intro lvl h
    unfold HilbertRTree.lvlStart
    rw [if_neg (by omega), hTlb]
  have hStart0 : (buildTree items).lvlStart 0 = 0 := by
    unfold HilbertRTree.lvlStart
    rw [if_pos rfl]
  have hcposD : ∀ i, i < (buildCounts 16 items.length items.length).length →
      1 ≤ (buildCounts 16 items.length items.length).getD i 0 :=
    fun i hi => hcpos _ (getD_mem _ i 0 hi)
  have hχ : ∀ i, i + 1 < (buildCounts 16 items.length items.length).length + 1 →
      (buildCounts 16 items.length items.length).getD i 0 =
        divCeil ((items.length :: buildCounts 16 items.length items.length).getD i 0)
          16 := by
    intro i hi
    have := chain'_getD _ hch i (by simpa using hi)
    simpa using this
  have hMono : ∀ d i, i + d = (buildCounts 16 items.length items.length).length →
      (lbs items).getD i 0 ≤ totalN items := by
    intro d
    induction d with
    | zero =>
      intro i hi
      rw [show i = (buildCounts 16 items.length items.length).length from by omega,
        hLlast]
    | succ d ih =>
      intro i hi
      have h1 := hLsucc i (by omega)
      have h2 := ih (i + 1) (by omega)
      omega
  have hends_len : ((lbs items).dropLast).length =
      (buildCounts 16 items.length items.length).length := by
    rw [List.length_dropLast, hLlen]
    omega
  have hends_getD : ∀ i, i < (buildCounts 16 items.length items.length).length →
      ((lbs items).dropLast).getD i 0 = (lbs items).getD i 0 := by
    intro i hi
    exact dropLast_getD _ i 0 (by rw [hLlen]; omega)
  have hnext : ∀ i, i < (buildCounts 16 items.length items.length).length →
      (((lbs items).dropLast).drop (i + 1)).headD (totalN items) =
        (lbs items).getD (i + 1) 0 := by
    intro i hi
    by_cases hlt : i + 1 < (buildCounts 16 items.length items.length).length
    · rw [headD_drop _ _ _ (by rw [hends_len]; omega),
        getD_irrel _ _ _ 0 (by rw [hends_len]; omega), hends_getD (i + 1) hlt]
    · rw [List.drop_eq_nil_of_le (by rw [hends_len]; omega)]
      simp only [List.headD_nil]
      rw [show i + 1 = (buildCounts 16 items.length items.length).length from by omega,
        hLlast]
  have hExtract : ∀ lvl, 1 ≤ lvl →
      lvl < (buildCounts 16 items.length items.length).length + 1 →
      ∀ k, k < (lbs items).getD lvl 0 - (lbs items).getD (lvl - 1) 0 →
      (buildTree items).indices.getD ((lbs items).getD (lvl - 1) 0 + k) 0 =
        (4 * ((buildTree items).lvlStart (lvl - 1) + 16 * k)) % u32mod ∧
      (buildTree items).boxes.getD ((lbs items).getD (lvl - 1) 0 + k) zeroBox =
        HilbertRTree.mergeChunk (buildTree items).boxes
          ((buildTree items).lvlStart (lvl - 1) + 16 * k)
          (min 16 ((lbs items).getD (lvl - 1) 0 -
            ((buildTree items).lvlStart (lvl - 1) + 16 * k)))
          ((buildTree items).boxes.getD
            ((buildTree items).lvlStart (lvl - 1) + 16 * k) zeroBox) := by
    intro lvl h1 h2 k hk
    have hi : lvl - 1 < ((lbs items).dropLast).length := by
      rw [hends_len]
      omega
    have hkb : k < (((lbs items).dropLast).drop (lvl - 1 + 1)).headD (totalN items) -
        ((lbs items).dropLast).getD (lvl - 1) 0 := by
      rw [hnext (lvl - 1) (by omega), hends_getD (lvl - 1) (by omega),
        show lvl - 1 + 1 = lvl from by omega]
      exact hk
    have hfacts := passFacts_getD ((lbs items).dropLast) _ _ (totalN items) 0
      hPass (lvl - 1) hi k hkb
    have hprev : (if lvl - 1 = 0 then 0 else ((lbs items).dropLast).getD (lvl - 1 - 1) 0) =
        (buildTree items).lvlStart (lvl - 1) := by
      rcases Nat.eq_or_lt_of_le h1 with he | hlt2
      · rw [if_pos (by omega), ← he, hStart0]
      · rw [if_neg (by omega), hends_getD (lvl - 1 - 1) (by omega),
          hStart (lvl - 1) (by omega)]
    rw [hprev, hends_getD (lvl - 1) (by omega)] at hfacts
    rw [hTbox, hTidx]
    exact hfacts
  have hCnt : ∀ lvl, 1 ≤ lvl →
      lvl < (buildCounts 16 items.length items.length).length + 1 →
      (lbs items).getD lvl 0 - (lbs items).getD (lvl - 1) 0 =
        divCeil ((lbs items).getD (lvl - 1) 0 -
          (buildTree items).lvlStart (lvl - 1)) 16 := by
    intro lvl h1 h2
    have hsz' := hLsucc (lvl - 1) (by omega)
    rw [show lvl - 1 + 1 = lvl from by omega] at hsz'
    have hx := hχ (lvl - 1) (by omega)
    rcases Nat.eq_or_lt_of_le h1 with he | hlt2
    · rw [← he] at hsz' hx ⊢
      rw [show (1 : Nat) - 1 = 0 from rfl] at hsz' hx ⊢
      simp only [List.getD_cons_zero] at hx
      rw [hStart0, hL0, Nat.sub_zero]
      omega
    · have hx2 := hLsucc (lvl - 2) (by omega)
      rw [show lvl - 2 + 1 = lvl - 1 from by omega] at hx2
      rw [hStart (lvl - 1) (by omega)]
      rw [show lvl - 1 - 1 = lvl - 2 from by omega]
      have hgc : (items.length :: buildCounts 16 items.length items.length).getD
          (lvl - 1) 0 = (buildCounts 16 items.length items.length).getD (lvl - 2) 0 := by
        rw [show lvl - 1 = (lvl - 2) + 1 from by omega]
        rfl
      rw [hgc] at hx
      rw [show (lbs items).getD (lvl - 1) 0 - (lbs items).getD (lvl - 2) 0 =
        (buildCounts 16 items.length items.length).getD (lvl - 2) 0 from by omega]
      omega
  refine ⟨⟨hTns, by omega, by rw [hTlb, hLlen]; omega, by rw [hTlb]; exact hLchain,
    by rw [hTlb, hTn]; exact hL0, ?_, ?_, by rw [hTbox, hTtot]; exact hBlen,
    by rw [hTidx, hTtot]; exact hIlen, ?_, ?_, ?_, ?_⟩, ?_⟩
  · rw [hTlb, hTtot, hLlen, Nat.add_sub_cancel]
    exact hLlast
  · rw [hTlb, hTtot, hLlen]
    have hs := hLsucc ((buildCounts 16 items.length items.length).length - 1)
      (by omega)
    rw [show (buildCounts 16 items.length items.length).length - 1 + 1 =
      (buildCounts 16 items.length items.length).length from by omega] at hs
    have h1last : (buildCounts 16 items.length items.length).getD
        ((buildCounts 16 items.length items.length).length - 1) 0 = 1 :=
      getLast?_getD _ 1 hclast
    rw [show (buildCounts 16 items.length items.length).length + 1 - 2 =
      (buildCounts 16 items.length items.length).length - 1 from by omega]
    rw [← hLlast, hs, h1last]
  · intro lvl hlvl
    rw [hTlb, hLlen] at hlvl
    have := hCnt (lvl + 1) (by omega) (by omega)
    rw [Nat.add_sub_cancel] at this
    rw [hEnd (lvl + 1), hStart (lvl + 1) (by omega), Nat.add_sub_cancel, hEnd lvl]
    exact this
  · intro lvl h1 h2 p hp1 hp2
    rw [hTlb, hLlen] at h2
    rw [hStart lvl h1] at hp1
    rw [hEnd lvl] at hp2
    obtain ⟨e1, -⟩ := hExtract lvl h1 h2 (p - (lbs items).getD (lvl - 1) 0) (by omega)
    rw [show (lbs items).getD (lvl - 1) 0 + (p - (lbs items).getD (lvl - 1) 0) = p
      from by omega] at e1
    have hcnt := hCnt lvl h1 h2
    have hcs : (buildTree items).lvlStart (lvl - 1) +
        16 * (p - (lbs items).getD (lvl - 1) 0) < (lbs items).getD (lvl - 1) 0 := by
      unfold divCeil at hcnt
      omega
    have hbound : (lbs items).getD (lvl - 1) 0 ≤ totalN items :=
      hMono ((buildCounts 16 items.length items.length).length - (lvl - 1)) (lvl - 1)
        (by omega)
    have hmod : 4 * ((buildTree items).lvlStart (lvl - 1) +
        16 * (p - (lbs items).getD (lvl - 1) 0)) < u32mod := by
      have hu : u32mod = 4294967296 := rfl
      omega
    show (buildTree items).indices.getD p 0 = 4 * (buildTree items).fcp lvl p
    rw [e1, Nat.mod_eq_of_lt hmod]
    unfold HilbertRTree.fcp
    rw [hStart lvl h1]
    omega
  · intro lvl h1 h2 p hp1 hp2 q hq1 hq2
    rw [hTlb, hLlen] at h2
    rw [hStart lvl h1] at hp1
    rw [hEnd lvl] at hp2
    obtain ⟨-, e2⟩ := hExtract lvl h1 h2 (p - (lbs items).getD (lvl - 1) 0) (by omega)
    rw [show (lbs items).getD (lvl - 1) 0 + (p - (lbs items).getD (lvl - 1) 0) = p
      from by omega] at e2
    unfold HilbertRTree.fcp at hq1 hq2
    rw [hStart lvl h1] at hq1 hq2
    rw [hEnd (lvl - 1)] at hq2
    show boxLE ((buildTree items).boxes.getD q zeroBox)
      ((buildTree items).boxes.getD p zeroBox)
    rw [e2]
    apply boxLE_mergeChunk_mem
    · omega
    · omega
  · rw [hTidx, hTn]
    have hhead0 : ((lbs items).dropLast).headD (totalN items) = items.length := by
      cases hx : buildCounts 16 items.length items.length with
      | nil => exact absurd hx hcne
      | cons c rest =>
        show ((items.length :: accBounds items.length (buildCounts 16 items.length
          items.length)).dropLast).headD (totalN items) = items.length
        rw [hx]
        rfl
    have htake : ((HilbertRTree.buildLevels 16 (boxes0 items) (indices0 items) 0
        (lbs items).dropLast).2.take items.length) = sortIdx items := by
      apply take_eq_of_getD _ _ 0 items.length (by omega) hsilen
      intro i hi
      obtain ⟨-, f2⟩ := hLeaf i (by rw [hhead0]; omega)
      rw [f2]
      unfold indices0
      rw [getD_append_left _ _ _ _ (by rw [List.length_map, hsilen]; omega)]
      rw [getD_map _ 0 _ _ i (by omega)]
      exact Nat.mod_eq_of_lt (by
        have := hsimem i hi
        have hu : u32mod = 4294967296 := rfl
        omega)
    rw [htake]
    exact hsiperm
  · intro p hp
    have hhead0 : ((lbs items).dropLast).headD (totalN items) = items.length := by
      cases hx : buildCounts 16 items.length items.length with
      | nil => exact absurd hx hcne
      | cons c rest =>
        show ((items.length :: accBounds items.length (buildCounts 16 items.length
          items.length)).dropLast).headD (totalN items) = items.length
        rw [hx]
        rfl
    obtain ⟨f1, f2⟩ := hLeaf p (by rw [hhead0]; omega)
    have hgi : (buildTree items).get_index p = (sortIdx items).getD p 0 := by
      show (buildTree items).indices.getD p 0 = _
      rw [hTidx, f2]
      unfold indices0
      rw [getD_append_left _ _ _ _ (by rw [List.length_map, hsilen]; omega)]
      rw [getD_map _ 0 _ _ p (by omega)]
      exact Nat.mod_eq_of_lt (by
        have := hsimem p hp
        have hu : u32mod = 4294967296 := rfl
        omega)
    refine ⟨by rw [hgi]; exact hsimem p hp, ?_⟩
    show (buildTree items).boxes.getD p zeroBox = _
    rw [hTbox, f1]
    unfold boxes0
    rw [getD_append_left _ _ _ _ (by rw [List.length_map, hsilen]; omega)]
    rw [getD_map _ 0 _ _ p (by omega), hgi]

/-- Combined well-formedness and leaf coherence of every nonempty build. -/
theorem WF_buildTree (items : List Box) (h1 : items ≠ [])
    (hsz : items.length < 536870912) :
    WF (buildTree items) ∧
    (∀ p, p < items.length →
      (buildTree items).get_index p < items.length ∧
      (buildTree items).get_box p =
        items.getD ((buildTree items).get_index p) zeroBox) := by
  by_cases h : items.length ≤ 16
  · exact WF_build_small items h1 h
  · exact WF_build_general items (by omega) hsz

theorem buildTree_num_items (items : List Box) :
    (buildTree items).num_items = items.length := by
  by_cases hnil : items = []
  · subst hnil
    rfl
  · by_cases h : items.length ≤ 16
    · rw [build_small items hnil h]
    · rw [build_general items (by omega)]

/-- Master permutation: on a built tree, `query_intersecting` emits exactly
the ids of the intersecting items (as a permutation of the filtered id
range). -/
theorem buildTree_query_perm (items : List Box) (mnx mny mxx mxy : ℚ)
    (h1 : items ≠ []) (hsz : items.length < 536870912) :
    ((buildTree items).query_intersecting mnx mny mxx mxy).Perm
      ((List.range items.length).filter
        (fun i => decide (boxIntersects mnx mny mxx mxy
          (items.getD i zeroBox)))) := by
  obtain ⟨w, hco⟩ := WF_buildTree items h1 hsz
  have hn := buildTree_num_items items
  have hperm := w.query_intersecting_perm mnx mny mxx mxy
  rw [hn] at hperm
  refine hperm.trans ?_
  have hstep1 : ((List.range items.length).filter
      (fun ℓ => decide (boxIntersects mnx mny mxx mxy
        ((buildTree items).get_box ℓ)))) =
      ((List.range items.length).filter
        ((fun i => decide (boxIntersects mnx mny mxx mxy (items.getD i zeroBox))) ∘
          (fun ℓ => (buildTree items).get_index ℓ))) := by
    refine List.filter_congr ?_
    intro ℓ hℓ
    rw [List.mem_range] at hℓ
    obtain ⟨-, hbox⟩ := hco ℓ hℓ
    simp only [Function.comp_apply]
    rw [hbox]
  rw [hstep1, ← List.filter_map]
  have hstep2 : (List.range items.length).map
      (fun ℓ => (buildTree items).get_index ℓ) =
      (buildTree items).indices.take items.length := by
    refine map_getD_range_eq_take _ 0 _ ?_
    have hx := w.hidxlen
    have h0 : (buildTree items).lvlEnd 0 ≤ (buildTree items).total_nodes :=
      w.lvlEnd_le_total (by have := w.hlen2; omega)
    have he0 := w.lvlEnd_zero
    omega
  rw [hstep2]
  refine List.Perm.filter _ ?_
  have hlp := w.hleafperm
  rw [hn] at hlp
  exact hlp

end BuildLemmas

section KnnLemmas

open HilbertRTree

variable {t : HilbertRTree}

theorem axis_distance_nonneg (x lo hi : ℚ) :
    0 ≤ HilbertRTree.axis_distance x lo hi := by
  unfold HilbertRTree.axis_distance
  split
  · linarith
  · split
    · linarith
    · linarith

theorem axis_distance_mono (x alo ahi blo bhi : ℚ) (h0 : alo ≤ ahi)
    (h1 : blo ≤ alo) (h2 : ahi ≤ bhi) :
    HilbertRTree.axis_distance x blo bhi ≤
      HilbertRTree.axis_distance x alo ahi := by
  unfold HilbertRTree.axis_distance
  split_ifs <;> linarith

/-- A proper box inside another is at least as far from any point. -/
theorem boxDistSq_antitone (px py : ℚ) {a b : Box}
    (hax : a.min_x ≤ a.max_x) (hay : a.min_y ≤ a.max_y) (h : boxLE a b) :
    HilbertRTree.boxDistSq px py b ≤ HilbertRTree.boxDistSq px py a := by
  obtain ⟨h1, h2, h3, h4⟩ := h
  unfold HilbertRTree.boxDistSq
  dsimp only
  have hx := axis_distance_mono px a.min_x a.max_x b.min_x b.max_x hax h1 h3
  have hy := axis_distance_mono py a.min_y a.max_y b.min_y b.max_y hay h2 h4
  have hxn := axis_distance_nonneg px b.min_x b.max_x
  have hyn := axis_distance_nonneg py b.min_y b.max_y
  have hh1 := mul_le_mul hx hx hxn (le_trans hxn hx)
  have hh2 := mul_le_mul hy hy hyn (le_trans hyn hy)
  linarith

theorem pqInsert_perm (e : ℚ × Nat × Bool) :
    ∀ l : List (ℚ × Nat × Bool), (pqInsert e l).Perm (e :: l) := by
  intro l
  induction l with
  | nil => rfl
  | cons x xs ih =>
    unfold pqInsert
    split
    · exact List.Perm.refl _
    · exact List.Perm.trans (ih.cons x) (List.Perm.swap e x xs)

theorem pqInsert_pairwise (e : ℚ × Nat × Bool) :
    ∀ l : List (ℚ × Nat × Bool), l.Pairwise (fun a b => a.1 ≤ b.1) →
      (pqInsert e l).Pairwise (fun a b => a.1 ≤ b.1) := by
  intro l
  induction l with
  | nil =>
    intro _
    simp [pqInsert]
  | cons x xs ih =>
    intro h
    rw [List.pairwise_cons] at h
    unfold pqInsert
    split
    · rename_i hlt
      rw [List.pairwise_cons]
      refine ⟨?_, List.pairwise_cons.mpr h⟩
      intro y hy
      rcases List.mem_cons.mp hy with hy | hy
      · rw [hy]
        linarith
      · have := h.1 y hy
        linarith
    · rename_i hge
      rw [List.pairwise_cons]
      refine ⟨?_, ih h.2⟩
      intro y hy
      have hm := (pqInsert_perm e xs).mem_iff.mp hy
      rcases List.mem_cons.mp hm with hy2 | hy2
      · rw [hy2]
        linarith
      · exact h.1 y hy2

theorem rhInsert_perm (e : ℚ × Nat) :
    ∀ l : List (ℚ × Nat), (rhInsert e l).Perm (e :: l) := by
  intro l
  induction l with
  | nil => rfl
  | cons x xs ih =>
    unfold rhInsert
    split
    · exact List.Perm.refl _
    · exact List.Perm.trans (ih.cons x) (List.Perm.swap e x xs)

theorem rhInsert_pairwise (e : ℚ × Nat) :
    ∀ l : List (ℚ × Nat), l.Pairwise (fun a b => b.1 ≤ a.1) →
      (rhInsert e l).Pairwise (fun a b => b.1 ≤ a.1) := by
  intro l
  induction l with
  | nil =>
    intro _
    simp [rhInsert]
  | cons x xs ih =>
    intro h
    rw [List.pairwise_cons] at h
    unfold rhInsert
    split
    · rename_i hlt
      rw [List.pairwise_cons]
      refine ⟨?_, List.pairwise_cons.mpr h⟩
      intro y hy
      rcases List.mem_cons.mp hy with hy | hy
      · rw [hy]
        linarith
      · have := h.1 y hy
        linarith
    · rename_i hge
      rw [List.pairwise_cons]
      refine ⟨?_, ih h.2⟩
      intro y hy
      have hm := (rhInsert_perm e xs).mem_iff.mp hy
      rcases List.mem_cons.mp hm with hy2 | hy2
      · rw [hy2]
        linarith
      · exact h.1 y hy2

theorem rhInsert_length (e : ℚ × Nat) (l : List (ℚ × Nat)) :
    (rhInsert e l).length = l.length + 1 :=
  (rhInsert_perm e l).length_eq

/-- On a list whose elements before position `i` are all `≤ p` while the
`i`-th is `> p`, the first-index-above search returns `i`. -/
theorem findIdx?_first_above {l : List Nat} {i : Nat} (hi : i < l.length) (p : Nat)
    (hup : p < l.getD i 0) (hlo : ∀ j, j < i → l.getD j 0 ≤ p) :
    l.findIdx? (fun b => decide (p < b)) = some i := by
  induction l generalizing i with
  | nil => simp at hi
  | cons x xs ih =>
    cases i with
    | zero =>
      simp only [List.getD_cons_zero] at hup
      rw [List.findIdx?_cons]
      simp [hup]
    | succ i' =>
      have hx : x ≤ p := by simpa using hlo 0 (Nat.succ_pos i')
      rw [List.findIdx?_cons]
      rw [if_neg (by simp; omega)]
      rw [List.findIdx?_succ]
      rw [ih (by simpa using hi) (by simpa using hup)
        (fun j hj => by simpa using hlo (j + 1) (by omega))]
      rfl

/-- The traversal's level lookup identifies the level a position belongs
to. -/
theorem WF.findLevel_eq (w : WF t) {lvl p : Nat} (hv : t.ValidNode lvl p) :
    t.findLevel p = lvl := by
  obtain ⟨hlen, hs, he⟩ := hv
  have hfi : t.level_bounds.findIdx? (fun b => decide (p < b)) = some lvl := by
    refine findIdx?_first_above hlen p he ?_
    intro j hj
    have hjs : t.level_bounds.getD j 0 ≤ t.lvlStart lvl := by
      unfold HilbertRTree.lvlStart
      rw [if_neg (by omega)]
      exact w.lb_getD_le (by omega) (by omega)
    omega
  unfold HilbertRTree.findLevel
  rw [hfi]

theorem nodeWeight_pos (t : HilbertRTree) (lvl pos : Nat) :
    1 ≤ t.nodeWeight lvl pos := by
  cases lvl with
  | zero => exact le_refl 1
  | succ l =>
    unfold HilbertRTree.nodeWeight
    omega

theorem sum_map_mul_le {α : Type} (f : α → Nat) (c B : Nat) :
    ∀ l : List α, (∀ x ∈ l, c * f x ≤ B) → c * (l.map f).sum ≤ l.length * B := by
  intro l
  induction l with
  | nil => simp
  | cons a l ih =>
    intro h
    simp only [List.map_cons, List.sum_cons, List.length_cons, Nat.mul_add]
    have h1 := h a (List.mem_cons_self a l)
    have h2 := ih (fun x hx => h x (List.mem_cons_of_mem a hx))
    have : (l.length + 1) * B = l.length * B + B := by ring
    omega

/-- Subtree node counts are geometrically bounded by the fanout, so the
`16 ^ levels` fuel dominates the root's weight. -/
theorem nodeWeight_le (t : HilbertRTree) :
    ∀ lvl pos, 15 * t.nodeWeight lvl pos + 1 ≤ 16 ^ (lvl + 1) := by
  intro lvl
  induction lvl with
  | zero =>
    intro pos
    norm_num [HilbertRTree.nodeWeight]
  | succ l ih =>
    intro pos
    unfold HilbertRTree.nodeWeight
    set fc := (t.get_index pos) >>> 2 with hfc
    set n := min (fc + 16) (t.lvlEnd l) - fc with hn
    have hlen : (List.range' fc n).length = n := by simp
    have hn16 : n ≤ 16 := by omega
    have hone : 1 ≤ 16 ^ (l + 1) := Nat.one_le_pow _ _ (by norm_num)
    have hsum : 15 * ((List.range' fc n).map (t.nodeWeight l)).sum ≤
        n * (16 ^ (l + 1) - 1) := by
      have := sum_map_mul_le (t.nodeWeight l) 15 (16 ^ (l + 1) - 1) (List.range' fc n)
        (fun x _ => by have := ih x; omega)
      rw [hlen] at this
      exact this
    have hmul : n * (16 ^ (l + 1) - 1) ≤ 16 * (16 ^ (l + 1) - 1) :=
      Nat.mul_le_mul_right _ hn16
    have hpow : 16 ^ (l + 1 + 1) = 16 ^ (l + 1) * 16 := pow_succ 16 (l + 1)
    rw [hpow]
    have h15 : 15 * (1 + ((List.range' fc n).map (t.nodeWeight l)).sum) =
        15 + 15 * ((List.range' fc n).map (t.nodeWeight l)).sum := by ring
    omega

/-- One step of the child-expansion walk. -/
theorem knnChildren_succ (t : HilbertRTree) (px py : ℚ) (k : Nat) (md : Option ℚ)
    (resLen : Nat) (isLeaf : Bool) (childEnd : Nat)
    (pq : List (ℚ × Nat × Bool)) (fc r : Nat) :
    HilbertRTree.knnChildren t px py k md resLen isLeaf childEnd pq fc (r + 1) =
      if childEnd ≤ fc then pq
      else HilbertRTree.knnChildren t px py k md resLen isLeaf childEnd
        (if withinMax (boxDistSq px py (t.get_box fc)) md || decide (resLen < k) then
          pqInsert (boxDistSq px py (t.get_box fc), fc, isLeaf) pq
         else pq) (fc + 1) r := rfl

/-- The child-expansion walk pushes exactly the threshold-passing children
of the visited range onto the queue. -/
theorem knnChildren_perm (t : HilbertRTree) (px py : ℚ) (k : Nat) (md : Option ℚ)
    (resLen : Nat) (isLeaf : Bool) (childEnd : Nat) :
    ∀ r pq fc,
      (HilbertRTree.knnChildren t px py k md resLen isLeaf childEnd pq fc r).Perm
        (pq ++ ((List.range' fc (min (fc + r) childEnd - fc)).filter
            (fun c => withinMax (boxDistSq px py (t.get_box c)) md ||
              decide (resLen < k))).map
          (fun c => (boxDistSq px py (t.get_box c), c, isLeaf))) := by
  intro r
  induction r with
  | zero =>
    intro pq fc
    have h0 : min (fc + 0) childEnd - fc = 0 := by omega
    rw [h0]
    simp [HilbertRTree.knnChildren]
  | succ r ih =>
    intro pq fc
    rw [knnChildren_succ]
    by_cases hce : childEnd ≤ fc
    · rw [if_pos hce]
      have h0 : min (fc + (r + 1)) childEnd - fc = 0 := by omega
      rw [h0]
      simp
    · rw [if_neg hce]
      have hcons : List.range' fc (min (fc + (r + 1)) childEnd - fc) =
          fc :: List.range' (fc + 1) (min (fc + 1 + r) childEnd - (fc + 1)) := by
        have h1 : min (fc + (r + 1)) childEnd - fc =
            (min (fc + 1 + r) childEnd - (fc + 1)) + 1 := by omega
        rw [h1, List.range'_succ]
      rw [hcons, List.filter_cons]
      by_cases hp : (withinMax (boxDistSq px py (t.get_box fc)) md ||
          decide (resLen < k)) = true
      · rw [if_pos hp, if_pos hp, List.map_cons]
        refine (ih _ _).trans ?_
        refine ((pqInsert_perm _ pq).append_right _).trans ?_
        exact List.perm_middle.symm
      · rw [if_neg hp, if_neg hp]
        exact ih _ _

/-- The child-expansion walk keeps the queue sorted by ascending
distance. -/
theorem knnChildren_pairwise (t : HilbertRTree) (px py : ℚ) (k : Nat) (md : Option ℚ)
    (resLen : Nat) (isLeaf : Bool) (childEnd : Nat) :
    ∀ r pq fc, pq.Pairwise (fun a b => a.1 ≤ b.1) →
      (HilbertRTree.knnChildren t px py k md resLen isLeaf childEnd pq fc r).Pairwise
        (fun a b => a.1 ≤ b.1) := by
  intro r
  induction r with
  | zero =>
    intro pq fc h
    exact h
  | succ r ih =>
    intro pq fc h
    rw [knnChildren_succ]
    split
    · exact h
    · split
      · exact ih _ _ (pqInsert_pairwise _ _ h)
      · exact ih _ _ h

theorem insertSorted_pairwise {α : Type} (le : α → α → Bool)
    (htot : ∀ a b, le a b = false → le b a = true)
    (htrans : ∀ a b c, le a b = true → le b c = true → le a c = true) (x : α) :
    ∀ l : List α, l.Pairwise (fun a b => le a b = true) →
      (insertSorted le x l).Pairwise (fun a b => le a b = true) := by
  intro l
  induction l with
  | nil =>
    intro _
    simp [insertSorted]
  | cons y ys ih =>
    intro h
    rw [List.pairwise_cons] at h
    unfold insertSorted
    split
    · rename_i hxy
      rw [List.pairwise_cons]
      refine ⟨?_, List.pairwise_cons.mpr h⟩
      intro z hz
      rcases List.mem_cons.mp hz with rfl | hz
      · exact hxy
      · exact htrans x y z hxy (h.1 z hz)
    · rename_i hxy
      have hyx : le y x = true := htot x y (by simpa using hxy)
      rw [List.pairwise_cons]
      refine ⟨?_, ih h.2⟩
      intro z hz
      have hm := (insertSorted_perm le x ys).mem_iff.mp hz
      rcases List.mem_cons.mp hm with rfl | hz2
      · exact hyx
      · exact h.1 z hz2

/-- Every leaf position in a node's span is a real leaf whose box the node's
box contains, so the node's clamped distance lower-bounds the leaf's. -/
theorem WF.leafSpan_facts (w : WF t)
    (hproper : ∀ ℓ, ℓ < t.num_items →
      (t.get_box ℓ).min_x ≤ (t.get_box ℓ).max_x ∧
      (t.get_box ℓ).min_y ≤ (t.get_box ℓ).max_y)
    (px py : ℚ) {lvl pos : Nat} (hv : t.ValidNode lvl pos) :
    ∀ ℓ ∈ t.leafSpan pos, ℓ < t.num_items ∧
      boxDistSq px py (t.get_box pos) ≤ boxDistSq px py (t.get_box ℓ) := by
  intro ℓ hℓ
  have hfl := w.findLevel_eq hv
  unfold HilbertRTree.leafSpan at hℓ
  rw [hfl, List.mem_range'_1] at hℓ
  obtain ⟨hlt, hle, hboxes⟩ := (w.nodeFacts lvl hv.1).1 pos hv
  have hℓlo : t.chainLo lvl pos ≤ ℓ := hℓ.1
  have hℓhi : ℓ < t.hiN lvl (pos + 1) := by omega
  have hℓN : ℓ < t.num_items := by omega
  refine ⟨hℓN, ?_⟩
  exact boxDistSq_antitone px py (hproper ℓ hℓN).1 (hproper ℓ hℓN).2 (hboxes ℓ hℓlo hℓhi)

/-- A leaf's span is itself. -/
theorem WF.leafSpan_leaf (w : WF t) {pos : Nat} (hv : t.ValidNode 0 pos) :
    t.leafSpan pos = [pos] := by
  have hfl := w.findLevel_eq hv
  unfold HilbertRTree.leafSpan
  rw [hfl]
  have h1 : t.chainLo 0 pos = pos := rfl
  have h2 : t.hiN 0 (pos + 1) = pos + 1 := by
    unfold HilbertRTree.hiN
    split
    · rfl
    · rename_i hcond
      have hz := w.lvlEnd_zero
      have h3 := hv.2.2
      omega
  rw [h1, h2, (show pos + 1 - pos = 1 from by omega), List.range'_one]

/-- An internal node's span is the concatenation of its children's spans. -/
theorem WF.leafSpan_expand (w : WF t) {lvl pos : Nat} (hv : t.ValidNode (lvl + 1) pos) :
    t.leafSpan pos =
      (List.range' (t.fcp (lvl + 1) pos)
          (min (t.fcp (lvl + 1) pos + 16) (t.lvlEnd lvl) - t.fcp (lvl + 1) pos)).flatMap
        t.leafSpan := by
  have hfl := w.findLevel_eq hv
  have hv1 : lvl + 1 < t.level_bounds.length := hv.1
  unfold HilbertRTree.leafSpan
  rw [hfl]
  have hfce : t.fcp (lvl + 1) pos < t.lvlEnd lvl := w.fcp_lt (by omega) hv
  have hfcs : t.lvlStart lvl ≤ t.fcp (lvl + 1) pos := by
    unfold HilbertRTree.fcp
    simp only [Nat.add_sub_cancel]
    omega
  have hlo : t.chainLo (lvl + 1) pos = t.chainLo lvl (t.fcp (lvl + 1) pos) :=
    w.chainLo_succ_node hv
  have hhi : t.hiN (lvl + 1) (pos + 1) =
      t.hiN lvl (min (t.fcp (lvl + 1) pos + 16) (t.lvlEnd lvl)) := w.hiN_succ_node hv
  rw [hlo, hhi]
  have hseg := w.rangeSegs (show lvl < t.level_bounds.length from by omega)
    (min (t.fcp (lvl + 1) pos + 16) (t.lvlEnd lvl) - t.fcp (lvl + 1) pos)
    (t.fcp (lvl + 1) pos) hfcs (by omega) (by omega)
  rw [(show t.fcp (lvl + 1) pos +
      (min (t.fcp (lvl + 1) pos + 16) (t.lvlEnd lvl) - t.fcp (lvl + 1) pos) =
      min (t.fcp (lvl + 1) pos + 16) (t.lvlEnd lvl) from by omega)] at hseg
  rw [hseg]
  refine flatMap_congr_mem ?_
  intro c hc
  rw [List.mem_range'_1] at hc
  have hvc : t.ValidNode lvl c := ⟨by omega, by omega, by omega⟩
  have hflc := w.findLevel_eq hvc
  rw [hflc]

/-- One step of the best-first loop on a nonempty queue. -/
theorem knnLoop_succ (t : HilbertRTree) (px py : ℚ) (k f : Nat)
    (e : ℚ × Nat × Bool) (pqRest : List (ℚ × Nat × Bool)) (rh : List (ℚ × Nat))
    (md : Option ℚ) :
    t.knnLoop px py k (f + 1) (e :: pqRest) rh md =
      (if aboveMax e.1 md then
        if rh.length = k then rh
        else t.knnLoop px py k f pqRest rh md
      else if e.2.2 then
        let index := t.get_index e.2.1
        let rh1 := rhInsert (e.1, index) rh
        let rh2 := if k < rh1.length then rh1.tail else rh1
        let maxDist' := if rh2.length = k then
            (match rh2.head? with
              | some top => some top.1
              | none => md)
          else md
        t.knnLoop px py k f pqRest rh2 maxDist'
      else
        let level := t.findLevel e.2.1
        let first_child := (t.get_index e.2.1) >>> 2
        let pq' :=
          if 0 < level then
            let child_level_start := t.level_bounds.getD (level - 1) 0
            let child_level_end := t.level_bounds.getD (level - 1) 0
            t.knnChildren px py k md rh.length
              (decide (child_level_start = t.num_items)) child_level_end pqRest
              first_child t.node_size
          else
            t.knnChildren px py k md rh.length true t.num_items pqRest
              first_child t.node_size
        t.knnLoop px py k f pq' rh md) := rfl

/-- Popping the head of a list that is a permutation of a mapped list
splits off one preimage. -/
theorem perm_map_extract {α β : Type} {F : α → β} {B : List α} {hd : β} {rest : List β}
    (h : (hd :: rest).Perm (B.map F)) :
    ∃ b B₁ B₂, B = B₁ ++ b :: B₂ ∧ F b = hd ∧ rest.Perm ((B₁ ++ B₂).map F) := by
  have hm : hd ∈ B.map F := h.mem_iff.mp (List.mem_cons_self hd rest)
  obtain ⟨b, hbB, hfb⟩ := List.mem_map.mp hm
  obtain ⟨B₁, B₂, rfl⟩ := List.append_of_mem hbB
  refine ⟨b, B₁, B₂, rfl, hfb, ?_⟩
  have h2 : (hd :: rest).Perm (hd :: (B₁ ++ B₂).map F) := by
    refine h.trans ?_
    rw [List.map_append, List.map_cons, hfb, List.map_append]
    exact List.perm_middle
  exact h2.cons_inv

/-- The expansion step of the best-first loop, bundled: the child walk of an
internal node pushes the threshold-passing members of a child list `CH`
whose nodes live one level down, whose spans concatenate to the parent's
span, and whose subtree weights make up the parent's weight. -/
theorem WF.knnStepExpand (w : WF t) (px py : ℚ) (k : Nat) (md : Option ℚ) (rlen : Nat)
    {lvl pos : Nat} (hv : t.ValidNode (lvl + 1) pos) (pqRest : List (ℚ × Nat × Bool)) :
    ∃ CH : List Nat,
      (t.knnChildren px py k md rlen (decide (lvl = 0)) (t.lvlEnd lvl) pqRest
          ((t.get_index pos) >>> 2) 16).Perm
        (pqRest ++ (CH.filter (fun c => withinMax (boxDistSq px py (t.get_box c)) md ||
            decide (rlen < k))).map
          (fun c => (boxDistSq px py (t.get_box c), c, decide (lvl = 0)))) ∧
      (∀ c ∈ CH, t.ValidNode lvl c) ∧
      t.leafSpan pos = CH.flatMap t.leafSpan ∧
      t.nodeWeight (lvl + 1) pos = 1 + (CH.map (t.nodeWeight lvl)).sum := by
  have hv1 : lvl + 1 < t.level_bounds.length := hv.1
  have hfcp : (t.get_index pos) >>> 2 = t.fcp (lvl + 1) pos := w.fc_eq (by omega) hv
  have hfce : t.fcp (lvl + 1) pos < t.lvlEnd lvl := w.fcp_lt (by omega) hv
  have hfcs : t.lvlStart lvl ≤ t.fcp (lvl + 1) pos := by
    unfold HilbertRTree.fcp
    simp only [Nat.add_sub_cancel]
    omega
  refine ⟨List.range' ((t.get_index pos) >>> 2)
      (min ((t.get_index pos) >>> 2 + 16) (t.lvlEnd lvl) - (t.get_index pos) >>> 2),
    knnChildren_perm t px py k md rlen (decide (lvl = 0)) (t.lvlEnd lvl) 16 pqRest
      ((t.get_index pos) >>> 2), ?_, ?_, ?_⟩
  · intro c hc
    rw [List.mem_range'_1, hfcp] at hc
    exact ⟨by omega, by omega, by omega⟩
  · rw [hfcp]
    exact w.leafSpan_expand hv
  · rfl
theorem sortBy_pairwise {α : Type} (le : α → α → Bool)
    (htot : ∀ a b, le a b = false → le b a = true)
    (htrans : ∀ a b c, le a b = true → le b c = true → le a c = true)
    (l : List α) : (sortBy le l).Pairwise (fun a b => le a b = true) := by
  induction l with
  | nil => simp [sortBy]
  | cons x xs ih =>
    show (insertSorted le x (sortBy le xs)).Pairwise _
    exact insertSorted_pairwise le htot htrans x _ ih

/-- Invariant of the best-first loop of `query_nearest_k`: starting from a
sorted queue of valid node entries carrying their own clamped distances, a
sorted result heap holding the image of a banked leaf set `B`, and a
threshold that is the heap's maximum exactly when `k` results are banked
(with every already-discarded leaf of `D` at or beyond it), the loop returns
a heap that is the image of a banked leaf set `B'` where `B' ++ D'`
re-partitions the pending spans together with `B ++ D`, at most `k` results
are returned, fewer than `k` only when nothing was discarded, and every
discarded leaf is at least as far as every returned result. -/
theorem WF.knnLoop_spec (w : WF t)
    (hproper : ∀ ℓ, ℓ < t.num_items →
      (t.get_box ℓ).min_x ≤ (t.get_box ℓ).max_x ∧
      (t.get_box ℓ).min_y ≤ (t.get_box ℓ).max_y)
    (px py : ℚ) (k : Nat) :
    ∀ fuel (pq : List (ℚ × Nat × Bool)) (rh : List (ℚ × Nat)) (md : Option ℚ)
      (B D : List Nat),
      (∀ e ∈ pq, ∃ lvl, t.ValidNode lvl e.2.1 ∧ e.2.2 = decide (lvl = 0) ∧
        e.1 = boxDistSq px py (t.get_box e.2.1)) →
      pq.Pairwise (fun a b => a.1 ≤ b.1) →
      rh.Pairwise (fun a b => b.1 ≤ a.1) →
      rh.Perm (B.map (t.leafPair px py)) →
      (∀ ℓ ∈ B, ℓ < t.num_items) →
      (match md with
        | none => rh.length < k ∧ D = []
        | some m => rh.length = k ∧ (∃ i0 tl, rh = (m, i0) :: tl) ∧
            ∀ ℓ ∈ D, m ≤ boxDistSq px py (t.get_box ℓ)) →
      (pq.map (fun e => t.nodeWeight (t.findLevel e.2.1) e.2.1)).sum ≤ fuel →
      ∃ B' D',
        (t.knnLoop px py k fuel pq rh md).Perm (B'.map (t.leafPair px py)) ∧
        (B' ++ D').Perm (pq.flatMap (fun e => t.leafSpan e.2.1) ++ B ++ D) ∧
        (∀ ℓ ∈ B', ℓ < t.num_items) ∧
        (t.knnLoop px py k fuel pq rh md).length ≤ k ∧
        ((t.knnLoop px py k fuel pq rh md).length < k → D' = []) ∧
        (∀ ℓ ∈ D', ∀ x ∈ t.knnLoop px py k fuel pq rh md,
          x.1 ≤ boxDistSq px py (t.get_box ℓ)) := by
  intro fuel
  induction fuel with
  | zero =>
    intro pq rh md B D hent hpq hrh hcorr hB hmd hfuel
    have hpqnil : pq = [] := by
      cases pq with
      | nil => rfl
      | cons e es =>
        exfalso
        simp only [List.map_cons, List.sum_cons] at hfuel
        have hw := nodeWeight_pos t (t.findLevel e.2.1) e.2.1
        omega
    subst hpqnil
    cases md with
    | none =>
      obtain ⟨hlt, hD⟩ := hmd
      subst hD
      refine ⟨B, [], hcorr, List.Perm.refl (B ++ []), hB, le_of_lt hlt,
        fun _ => rfl, ?_⟩
      intro ℓ hℓ
      simp at hℓ
    | some m =>
      obtain ⟨hlenk, hhead, hDm⟩ := hmd
      obtain ⟨i0, tl, hrheq⟩ := hhead
      refine ⟨B, D, hcorr, List.Perm.refl (B ++ D), hB, le_of_eq hlenk, ?_, ?_⟩
      · intro hlt
        exfalso
        have hlt2 : rh.length < k := hlt
        omega
      · intro ℓ hℓ x hx
        have hxm : x.1 ≤ m := by
          rw [hrheq] at hrh hx
          rcases List.mem_cons.mp hx with rfl | hx2
          · exact le_refl _
          · exact (List.pairwise_cons.mp hrh).1 x hx2
        exact le_trans hxm (hDm ℓ hℓ)
  | succ f ih =>
    intro pq rh md B D hent hpq hrh hcorr hB hmd hfuel
    cases pq with
    | nil =>
      cases md with
      | none =>
        obtain ⟨hlt, hD⟩ := hmd
        subst hD
        refine ⟨B, [], hcorr, List.Perm.refl (B ++ []), hB, le_of_lt hlt,
          fun _ => rfl, ?_⟩
        intro ℓ hℓ
        simp at hℓ
      | some m =>
        obtain ⟨hlenk, hhead, hDm⟩ := hmd
        obtain ⟨i0, tl, hrheq⟩ := hhead
        refine ⟨B, D, hcorr, List.Perm.refl (B ++ D), hB, le_of_eq hlenk, ?_, ?_⟩
        · intro hlt
          exfalso
          have hlt2 : rh.length < k := hlt
          omega
        · intro ℓ hℓ x hx
          have hxm : x.1 ≤ m := by
            rw [hrheq] at hrh hx
            rcases List.mem_cons.mp hx with rfl | hx2
            · exact le_refl _
            · exact (List.pairwise_cons.mp hrh).1 x hx2
          exact le_trans hxm (hDm ℓ hℓ)
    | cons e pqRest =>
      obtain ⟨lvl, hvN, hflag, hdist⟩ := hent e (List.mem_cons_self e pqRest)
      have hfl : t.findLevel e.2.1 = lvl := w.findLevel_eq hvN
      have hentR : ∀ e' ∈ pqRest, ∃ lvl', t.ValidNode lvl' e'.2.1 ∧
          e'.2.2 = decide (lvl' = 0) ∧ e'.1 = boxDistSq px py (t.get_box e'.2.1) :=
        fun e' he' => hent e' (List.mem_cons_of_mem e he')
      have hpqR : pqRest.Pairwise (fun a b => a.1 ≤ b.1) := (List.pairwise_cons.mp hpq).2
      have hpqhead : ∀ e' ∈ pqRest, e.1 ≤ e'.1 := (List.pairwise_cons.mp hpq).1
      rw [knnLoop_succ]
      by_cases ha : aboveMax e.1 md = true
      · rw [if_pos ha]
        cases md with
        | none => simp [HilbertRTree.aboveMax] at ha
        | some m =>
          obtain ⟨hlenk, hhead, hDm⟩ := hmd
          obtain ⟨i0, tl, hrheq⟩ := hhead
          rw [if_pos hlenk]
          have hm_lt : m < e.1 := by simpa [HilbertRTree.aboveMax] using ha
          have hxm : ∀ x ∈ rh, x.1 ≤ m := by
            intro x hx
            rw [hrheq] at hrh hx
            rcases List.mem_cons.mp hx with rfl | hx2
            · exact le_refl _
            · exact (List.pairwise_cons.mp hrh).1 x hx2
          refine ⟨B, D ++ (e :: pqRest).flatMap (fun e' => t.leafSpan e'.2.1),
            hcorr, ?_, hB, le_of_eq hlenk, ?_, ?_⟩
          · rw [List.perm_iff_count]
            intro a
            simp only [List.count_append]
            omega
          · intro hlt
            exfalso
            have hlt2 : rh.length < k := hlt
            omega
          · intro ℓ hℓ x hx
            rcases List.mem_append.mp hℓ with hD2 | hC
            · exact le_trans (hxm x hx) (hDm ℓ hD2)
            · obtain ⟨e', he', hsp⟩ := List.mem_flatMap.mp hC
              obtain ⟨lvl', hv', hflag', hdist'⟩ := hent e' he'
              have hsf := (w.leafSpan_facts hproper px py hv' ℓ hsp).2
              rw [← hdist'] at hsf
              have he1 : e.1 ≤ e'.1 := by
                rcases List.mem_cons.mp he' with rfl | hr
                · exact le_refl _
                · exact hpqhead e' hr
              have hx1 := hxm x hx
              linarith
      · rw [if_neg ha]
        by_cases hlf : e.2.2 = true
        · -- bank a leaf
          rw [if_pos hlf]
          dsimp only
          have hlvl0 : lvl = 0 := by
            rw [hlf] at hflag
            exact of_decide_eq_true hflag.symm
          subst hlvl0
          have hposN : e.2.1 < t.num_items := by
            have h1 := hvN.2.2
            have h2 := w.lvlEnd_zero
            omega
          have hspan : t.leafSpan e.2.1 = [e.2.1] := w.leafSpan_leaf hvN
          have hFe : t.leafPair px py e.2.1 = (e.1, t.get_index e.2.1) := by
            unfold HilbertRTree.leafPair
            rw [hdist]
          have hw1 : t.nodeWeight (t.findLevel e.2.1) e.2.1 = 1 := by
            rw [hfl]
            rfl
          have hfuelR :
              (pqRest.map (fun e' => t.nodeWeight (t.findLevel e'.2.1) e'.2.1)).sum ≤ f := by
            simp only [List.map_cons, List.sum_cons, hw1] at hfuel
            omega
          cases md with
          | none =>
            obtain ⟨hlt, hD⟩ := hmd
            subst hD
            have hlen1 : (rhInsert (e.1, t.get_index e.2.1) rh).length = rh.length + 1 :=
              rhInsert_length _ _
            rw [if_neg (show ¬ k < (rhInsert (e.1, t.get_index e.2.1) rh).length from
              by omega)]
            have hsorted1 : (rhInsert (e.1, t.get_index e.2.1) rh).Pairwise
                (fun a b => b.1 ≤ a.1) := rhInsert_pairwise _ _ hrh
            have hcorr1 : (rhInsert (e.1, t.get_index e.2.1) rh).Perm
                ((e.2.1 :: B).map (t.leafPair px py)) := by
              refine (rhInsert_perm _ _).trans ?_
              rw [List.map_cons, hFe]
              exact hcorr.cons _
            have hB1 : ∀ ℓ ∈ e.2.1 :: B, ℓ < t.num_items := by
              intro ℓ hℓ
              rcases List.mem_cons.mp hℓ with rfl | h2
              · exact hposN
              · exact hB ℓ h2
            by_cases hk1 : (rhInsert (e.1, t.get_index e.2.1) rh).length = k
            · rw [if_pos hk1]
              rcases hrh1eq : rhInsert (e.1, t.get_index e.2.1) rh with _ | ⟨hd, tl1⟩
              · exfalso
                rw [hrh1eq] at hlen1
                simp only [List.length_nil] at hlen1
                omega
              · simp only [List.head?_cons]
                obtain ⟨B', D', hP1, hP2, hPB, hP3, hP4, hP5⟩ :=
                  ih pqRest (hd :: tl1) (some hd.1) (e.2.1 :: B) [] hentR hpqR
                    (by rw [← hrh1eq]; exact hsorted1)
                    (by rw [← hrh1eq]; exact hcorr1)
                    hB1
                    ⟨by rw [← hrh1eq]; exact hk1, ⟨hd.2, tl1, by rw [Prod.mk.eta]⟩,
                      fun ℓ hℓ => absurd hℓ (List.not_mem_nil ℓ)⟩
                    hfuelR
                refine ⟨B', D', hP1, ?_, hPB, hP3, hP4, hP5⟩
                refine hP2.trans ?_
                simp only [List.flatMap_cons]
                rw [hspan]
                rw [List.perm_iff_count]
                intro a
                simp only [List.count_append, List.count_cons, List.count_nil,
                  List.singleton_append]
                omega
            · rw [if_neg hk1]
              obtain ⟨B', D', hP1, hP2, hPB, hP3, hP4, hP5⟩ :=
                ih pqRest (rhInsert (e.1, t.get_index e.2.1) rh) none (e.2.1 :: B) []
                  hentR hpqR hsorted1 hcorr1 hB1 ⟨by omega, rfl⟩ hfuelR
              refine ⟨B', D', hP1, ?_, hPB, hP3, hP4, hP5⟩
              refine hP2.trans ?_
              simp only [List.flatMap_cons]
              rw [hspan]
              rw [List.perm_iff_count]
              intro a
              simp only [List.count_append, List.count_cons, List.count_nil,
                List.singleton_append]
              omega
          | some m =>
            obtain ⟨hlenk, hhead, hDm⟩ := hmd
            obtain ⟨i0, tl, hrheq⟩ := hhead
            subst hrheq
            have hlen_tl : tl.length + 1 = k := by simpa using hlenk
            have hem : e.1 ≤ m := by
              have h2 := ha
              simp only [HilbertRTree.aboveMax, decide_eq_true_eq] at h2
              exact le_of_not_lt h2
            have hins : rhInsert (e.1, t.get_index e.2.1) ((m, i0) :: tl) =
                (m, i0) :: rhInsert (e.1, t.get_index e.2.1) tl := by
              rw [show rhInsert (e.1, t.get_index e.2.1) ((m, i0) :: tl) =
                  if (m, i0).1 < e.1 then (e.1, t.get_index e.2.1) :: (m, i0) :: tl
                  else (m, i0) :: rhInsert (e.1, t.get_index e.2.1) tl from rfl]
              rw [if_neg (show ¬ (m, i0).1 < e.1 from not_lt.mpr hem)]
            rw [hins]
            have hlen2 : (rhInsert (e.1, t.get_index e.2.1) tl).length = tl.length + 1 :=
              rhInsert_length _ _
            rw [if_pos (show k <
                ((m, i0) :: rhInsert (e.1, t.get_index e.2.1) tl).length from by
              simp only [List.length_cons]
              omega)]
            simp only [List.tail_cons]
            rw [if_pos (show (rhInsert (e.1, t.get_index e.2.1) tl).length = k from
              by omega)]
            rcases htl2 : rhInsert (e.1, t.get_index e.2.1) tl with _ | ⟨hd2, tl2'⟩
            · exfalso
              rw [htl2] at hlen2
              simp only [List.length_nil] at hlen2
              omega
            · simp only [List.head?_cons]
              have hsorted_tl : tl.Pairwise (fun a b => b.1 ≤ a.1) :=
                (List.pairwise_cons.mp hrh).2
              have htl_le : ∀ y ∈ tl, y.1 ≤ m := (List.pairwise_cons.mp hrh).1
              obtain ⟨b, B₁, B₂, hBsplit, hfb, htlcorr⟩ := perm_map_extract hcorr
              subst hBsplit
              have hldb : boxDistSq px py (t.get_box b) = m := by
                have h3 := congrArg Prod.fst hfb
                simpa [HilbertRTree.leafPair] using h3
              have hsorted2 : (hd2 :: tl2').Pairwise (fun a b => b.1 ≤ a.1) := by
                rw [← htl2]
                exact rhInsert_pairwise _ _ hsorted_tl
              have hcorr2 : (hd2 :: tl2').Perm
                  ((e.2.1 :: (B₁ ++ B₂)).map (t.leafPair px py)) := by
                rw [← htl2]
                refine (rhInsert_perm _ _).trans ?_
                rw [List.map_cons, hFe]
                exact htlcorr.cons _
              have hmem2 : ∀ y ∈ hd2 :: tl2', y.1 ≤ m := by
                intro y hy
                rw [← htl2] at hy
                have h4 := (rhInsert_perm (e.1, t.get_index e.2.1) tl).mem_iff.mp hy
                rcases List.mem_cons.mp h4 with rfl | h5
                · exact hem
                · exact htl_le y h5
              have hhd2m : hd2.1 ≤ m := hmem2 hd2 (List.mem_cons_self _ _)
              have hB2 : ∀ ℓ ∈ e.2.1 :: (B₁ ++ B₂), ℓ < t.num_items := by
                intro ℓ hℓ
                rcases List.mem_cons.mp hℓ with rfl | h2
                · exact hposN
                · refine hB ℓ ?_
                  rcases List.mem_append.mp h2 with h3 | h3
                  · exact List.mem_append.mpr (Or.inl h3)
                  · exact List.mem_append.mpr (Or.inr (List.mem_cons_of_mem b h3))
              obtain ⟨B', D', hP1, hP2, hPB, hP3, hP4, hP5⟩ :=
                ih pqRest (hd2 :: tl2') (some hd2.1) (e.2.1 :: (B₁ ++ B₂)) (b :: D)
                  hentR hpqR hsorted2 hcorr2 hB2
                  ⟨by rw [← htl2]; omega, ⟨hd2.2, tl2', by rw [Prod.mk.eta]⟩,
                    fun ℓ hℓ => by
                      rcases List.mem_cons.mp hℓ with rfl | h2
                      · rw [hldb]
                        exact hhd2m
                      · exact le_trans hhd2m (hDm ℓ h2)⟩
                  hfuelR
              refine ⟨B', D', hP1, ?_, hPB, hP3, hP4, hP5⟩
              refine hP2.trans ?_
              simp only [List.flatMap_cons]
              rw [hspan]
              rw [List.perm_iff_count]
              intro a
              simp only [List.count_append, List.count_cons, List.count_nil,
                List.singleton_append]
              omega
        · -- expand an internal node
          rw [if_neg hlf]
          dsimp only
          have hlvlpos : 0 < lvl := by
            rcases Nat.eq_zero_or_pos lvl with h0 | h
            · rw [h0] at hflag
              simp only [decide_eq_true_eq] at hflag
              exact absurd (by simp [hflag]) hlf
            · exact h
          obtain ⟨lvl', rfl⟩ : ∃ l', lvl = l' + 1 := ⟨lvl - 1, by omega⟩
          rw [hfl, if_pos (Nat.succ_pos lvl'), Nat.add_sub_cancel, w.hB]
          have hEnd : t.level_bounds.getD lvl' 0 = t.lvlEnd lvl' := rfl
          rw [hEnd]
          have hv1 : lvl' + 1 < t.level_bounds.length := hvN.1
          have hflagval : (decide (t.lvlEnd lvl' = t.num_items)) = decide (lvl' = 0) := by
            apply decide_eq_decide.mpr
            constructor
            · intro hEq
              by_contra h0
              have h1 := w.lb_getD_lt (show 0 < lvl' from by omega)
                (show lvl' < t.level_bounds.length from by omega)
              rw [w.hhead] at h1
              have h2 : t.lvlEnd lvl' = t.level_bounds.getD lvl' 0 := rfl
              omega
            · intro h0
              rw [h0]
              exact w.lvlEnd_zero
          rw [hflagval]
          obtain ⟨CH, hperm, hCHv, hspanE, hwe⟩ :=
            w.knnStepExpand px py k md rh.length hvN pqRest
          have hentP : ∀ x ∈ t.knnChildren px py k md rh.length (decide (lvl' = 0))
              (t.lvlEnd lvl') pqRest ((t.get_index e.2.1) >>> 2) 16,
              ∃ lv, t.ValidNode lv x.2.1 ∧ x.2.2 = decide (lv = 0) ∧
                x.1 = boxDistSq px py (t.get_box x.2.1) := by
            intro x hx
            have hx2 := hperm.mem_iff.mp hx
            rcases List.mem_append.mp hx2 with hxR | hxP
            · exact hentR x hxR
            · obtain ⟨c, hcf, rfl⟩ := List.mem_map.mp hxP
              have hcCH : c ∈ CH := List.mem_of_mem_filter hcf
              exact ⟨lvl', hCHv c hcCH, rfl, rfl⟩
          have hsortedP : (t.knnChildren px py k md rh.length (decide (lvl' = 0))
              (t.lvlEnd lvl') pqRest ((t.get_index e.2.1) >>> 2) 16).Pairwise
              (fun a b => a.1 ≤ b.1) :=
            knnChildren_pairwise t px py k md rh.length (decide (lvl' = 0))
              (t.lvlEnd lvl') 16 pqRest ((t.get_index e.2.1) >>> 2) hpqR
          have hfuelP : ((t.knnChildren px py k md rh.length (decide (lvl' = 0))
              (t.lvlEnd lvl') pqRest ((t.get_index e.2.1) >>> 2) 16).map
              (fun e' => t.nodeWeight (t.findLevel e'.2.1) e'.2.1)).sum ≤ f := by
            have hs := (hperm.map (fun e' => t.nodeWeight (t.findLevel e'.2.1) e'.2.1)).sum_eq
            rw [hs, List.map_append, List.sum_append, List.map_map]
            have hmc : ((CH.filter (fun c =>
                withinMax (boxDistSq px py (t.get_box c)) md ||
                  decide (rh.length < k))).map
                ((fun e' => t.nodeWeight (t.findLevel e'.2.1) e'.2.1) ∘
                  (fun c => (boxDistSq px py (t.get_box c), c, decide (lvl' = 0))))) =
                (CH.filter (fun c =>
                withinMax (boxDistSq px py (t.get_box c)) md ||
                  decide (rh.length < k))).map (t.nodeWeight lvl') := by
              refine List.map_congr_left ?_
              intro c hc
              have hcCH := List.mem_of_mem_filter hc
              show t.nodeWeight (t.findLevel c) c = t.nodeWeight lvl' c
              rw [w.findLevel_eq (hCHv c hcCH)]
            rw [hmc]
            have hsubl : ((CH.filter (fun c =>
                withinMax (boxDistSq px py (t.get_box c)) md ||
                  decide (rh.length < k))).map (t.nodeWeight lvl')).Sublist
                (CH.map (t.nodeWeight lvl')) :=
              (List.filter_sublist CH).map _
            have hsums := sublist_sum_le hsubl
            simp only [List.map_cons, List.sum_cons] at hfuel
            rw [hfl, hwe] at hfuel
            omega
          have hflz : ((t.knnChildren px py k md rh.length (decide (lvl' = 0))
              (t.lvlEnd lvl') pqRest ((t.get_index e.2.1) >>> 2) 16).flatMap
                (fun e' => t.leafSpan e'.2.1)).Perm
              (pqRest.flatMap (fun e' => t.leafSpan e'.2.1) ++
                (CH.filter (fun c => withinMax (boxDistSq px py (t.get_box c)) md ||
                  decide (rh.length < k))).flatMap t.leafSpan) := by
            refine (hperm.flatMap_right _).trans ?_
            rw [List.flatMap_append _ _ _, List.flatMap_map]
          cases md with
          | none =>
            obtain ⟨hlt, hD⟩ := hmd
            subst hD
            have hfp : CH.filter (fun c =>
                withinMax (boxDistSq px py (t.get_box c)) none ||
                  decide (rh.length < k)) = CH := by
              refine List.filter_eq_self.mpr ?_
              intro c hc
              simp [HilbertRTree.withinMax]
            obtain ⟨B', D', hP1, hP2, hPB, hP3, hP4, hP5⟩ :=
              ih (t.knnChildren px py k none rh.length (decide (lvl' = 0))
                  (t.lvlEnd lvl') pqRest ((t.get_index e.2.1) >>> 2) 16)
                rh none B [] hentP hsortedP hrh hcorr hB ⟨hlt, rfl⟩ hfuelP
            refine ⟨B', D', hP1, ?_, hPB, hP3, hP4, hP5⟩
            refine hP2.trans ?_
            refine ((hflz.append_right B).append_right []).trans ?_
            simp only [List.flatMap_cons]
            rw [hspanE, hfp]
            rw [List.perm_iff_count]
            intro a
            simp only [List.count_append, List.count_nil]
            omega
          | some m =>
            obtain ⟨hlenk, hhead, hDm⟩ := hmd
            have hdropped : ∀ ℓ ∈ (CH.filter (fun c =>
                !(withinMax (boxDistSq px py (t.get_box c)) (some m) ||
                  decide (rh.length < k)))).flatMap t.leafSpan,
                m ≤ boxDistSq px py (t.get_box ℓ) := by
              intro ℓ hℓ
              obtain ⟨c, hcf, hsp⟩ := List.mem_flatMap.mp hℓ
              have hcCH := List.mem_of_mem_filter hcf
              have hcp := List.of_mem_filter hcf
              simp only [Bool.not_eq_true', Bool.or_eq_false_iff] at hcp
              obtain ⟨h1, h2⟩ := hcp
              have hnm : m < boxDistSq px py (t.get_box c) := by
                simpa [HilbertRTree.withinMax] using h1
              have hsf := (w.leafSpan_facts hproper px py (hCHv c hcCH) ℓ hsp).2
              linarith
            obtain ⟨B', D', hP1, hP2, hPB, hP3, hP4, hP5⟩ :=
              ih (t.knnChildren px py k (some m) rh.length (decide (lvl' = 0))
                  (t.lvlEnd lvl') pqRest ((t.get_index e.2.1) >>> 2) 16)
                rh (some m) B
                (D ++ (CH.filter (fun c =>
                  !(withinMax (boxDistSq px py (t.get_box c)) (some m) ||
                    decide (rh.length < k)))).flatMap t.leafSpan)
                hentP hsortedP hrh hcorr hB
                ⟨hlenk, hhead, fun ℓ hℓ => by
                  rcases List.mem_append.mp hℓ with h1 | h2
                  · exact hDm ℓ h1
                  · exact hdropped ℓ h2⟩
                hfuelP
            refine ⟨B', D', hP1, ?_, hPB, hP3, hP4, hP5⟩
            refine hP2.trans ?_
            refine ((hflz.append_right B).append_right _).trans ?_
            simp only [List.flatMap_cons]
            rw [hspanE]
            have hCHsplit : (CH.flatMap t.leafSpan).Perm
                ((CH.filter (fun c => withinMax (boxDistSq px py (t.get_box c)) (some m) ||
                    decide (rh.length < k))).flatMap t.leafSpan ++
                  (CH.filter (fun c => !(withinMax (boxDistSq px py (t.get_box c)) (some m) ||
                    decide (rh.length < k)))).flatMap t.leafSpan) := by
              rw [← List.flatMap_append _ _ _]
              exact (CH.filter_append_perm _).symm.flatMap_right _
            refine List.Perm.trans ?_
              ((((hCHsplit.append_right _).append_right B).append_right D).symm)
            rw [List.perm_iff_count]
            intro a
            simp only [List.count_append]
            omega

/-- Top-level contract of `query_nearest_k` on a well-formed tree with
proper item boxes and `1 ≤ k`: the leaf positions split into a banked set
`B'` and a discarded set `D'` partitioning all leaves, the result lists the
stored ids of `B'` in ascending distance order (via the final sort of the
pair list `P`), at most `k` ids are returned, fewer than `k` only when
nothing was discarded, and every discarded leaf is at least as far from the
query point as every returned one. -/
theorem WF.query_nearest_k_spec (w : WF t)
    (hproper : ∀ ℓ, ℓ < t.num_items →
      (t.get_box ℓ).min_x ≤ (t.get_box ℓ).max_x ∧
      (t.get_box ℓ).min_y ≤ (t.get_box ℓ).max_y)
    (px py : ℚ) (k : Nat) (hk : 1 ≤ k) :
    ∃ (B' D' : List Nat) (P : List (ℚ × Nat)),
      (B' ++ D').Perm (List.range t.num_items) ∧
      t.query_nearest_k px py k = P.map (fun p => p.2) ∧
      P.Perm (B'.map (t.leafPair px py)) ∧
      P.Pairwise (fun a b => a.1 ≤ b.1) ∧
      P.length ≤ k ∧
      (P.length < k → D' = []) ∧
      (∀ ℓ ∈ D', ∀ p ∈ P, p.1 ≤ boxDistSq px py (t.get_box ℓ)) := by
  have hL2 : 2 ≤ t.level_bounds.length := w.hlen2
  have htot1 : 1 ≤ t.total_nodes := by
    have := w.hroot
    omega
  have hrs : (if 0 < t.level_bounds.length - 1 then
      t.level_bounds.getD (t.level_bounds.length - 1 - 1) 0 else 0) =
      t.total_nodes - 1 := by
    rw [if_pos (by omega)]
    rw [(show t.level_bounds.length - 1 - 1 = t.level_bounds.length - 2 from by omega)]
    have h1 := w.hroot
    omega
  have hre : t.level_bounds.getD (t.level_bounds.length - 1) 0 = t.total_nodes := w.hlast
  have hseed : t.knnSeed px py =
      [(boxDistSq px py (t.get_box (t.total_nodes - 1)), t.total_nodes - 1, false)] := by
    unfold HilbertRTree.knnSeed
    dsimp only
    rw [hrs, hre]
    rw [(show t.total_nodes - (t.total_nodes - 1) = 1 from by omega)]
    rw [List.range'_one]
    rfl
  have hvroot : t.ValidNode (t.level_bounds.length - 1) (t.total_nodes - 1) := by
    refine ⟨by omega, ?_, ?_⟩
    · unfold HilbertRTree.lvlStart
      rw [if_neg (by omega)]
      rw [(show t.level_bounds.length - 1 - 1 = t.level_bounds.length - 2 from by omega)]
      have := w.hroot
      omega
    · show t.total_nodes - 1 < t.lvlEnd (t.level_bounds.length - 1)
      unfold HilbertRTree.lvlEnd
      rw [hre]
      omega
  have hspanRoot : t.leafSpan (t.total_nodes - 1) = List.range t.num_items := by
    unfold HilbertRTree.leafSpan
    rw [w.findLevel_eq hvroot]
    have hls : t.lvlStart (t.level_bounds.length - 1) = t.total_nodes - 1 := by
      unfold HilbertRTree.lvlStart
      rw [if_neg (by omega),
        (show t.level_bounds.length - 1 - 1 = t.level_bounds.length - 2 from by omega)]
      have := w.hroot
      omega
    have hchain : t.chainLo (t.level_bounds.length - 1) (t.total_nodes - 1) = 0 := by
      have h := (w.nodeFacts (t.level_bounds.length - 1) (by omega)).2
      rw [hls] at h
      exact h
    have hhiN : t.hiN (t.level_bounds.length - 1) (t.total_nodes - 1 + 1) =
        t.num_items := by
      unfold HilbertRTree.hiN
      rw [if_neg (show ¬ (t.total_nodes - 1 + 1 <
          t.lvlEnd (t.level_bounds.length - 1)) from by
        unfold HilbertRTree.lvlEnd
        rw [hre]
        omega)]
    rw [hchain, hhiN, Nat.sub_zero]
    exact (List.range_eq_range' _).symm
  have hfuelOK : ((t.knnSeed px py).map
      (fun e => t.nodeWeight (t.findLevel e.2.1) e.2.1)).sum ≤
      16 ^ t.level_bounds.length := by
    rw [hseed]
    simp only [List.map_cons, List.map_nil, List.sum_cons, List.sum_nil]
    rw [w.findLevel_eq hvroot]
    have h := nodeWeight_le t (t.level_bounds.length - 1) (t.total_nodes - 1)
    rw [(show t.level_bounds.length - 1 + 1 = t.level_bounds.length from by omega)] at h
    omega
  have hentSeed : ∀ e ∈ t.knnSeed px py, ∃ lvl, t.ValidNode lvl e.2.1 ∧
      e.2.2 = decide (lvl = 0) ∧ e.1 = boxDistSq px py (t.get_box e.2.1) := by
    rw [hseed]
    intro e he
    rcases List.mem_cons.mp he with rfl | h2
    · refine ⟨t.level_bounds.length - 1, hvroot, ?_, rfl⟩
      have hne : ¬ (t.level_bounds.length - 1 = 0) := by omega
      simp [hne]
    · simp at h2
  have hpqSeed : (t.knnSeed px py).Pairwise (fun a b => a.1 ≤ b.1) := by
    rw [hseed]
    simp
  obtain ⟨B', D', hP1, hP2, hPmem, hP3, hP4, hP5⟩ :=
    w.knnLoop_spec hproper px py k (16 ^ t.level_bounds.length) (t.knnSeed px py)
      [] none [] [] hentSeed hpqSeed List.Pairwise.nil (List.Perm.refl [])
      (fun ℓ h => absurd h (List.not_mem_nil ℓ))
      ⟨by simp only [List.length_nil]; omega, rfl⟩ hfuelOK
  have hcons : (B' ++ D').Perm (List.range t.num_items) := by
    refine hP2.trans ?_
    rw [hseed]
    simp only [List.flatMap_cons, List.flatMap_nil, List.append_nil]
    rw [hspanRoot]
  have hres : t.query_nearest_k px py k =
      (sortBy (fun a b => decide (a.1 ≤ b.1))
        (t.knnLoop px py k (16 ^ t.level_bounds.length) (t.knnSeed px py) [] none)).map
        (fun p => p.2) := by
    unfold HilbertRTree.query_nearest_k
    rw [if_neg (show ¬ (t.num_items = 0 ∨ t.level_bounds = [] ∨ k = 0) from by
      push_neg
      refine ⟨?_, ?_, by omega⟩
      · have := w.hN
        omega
      · intro hnil
        rw [hnil] at hL2
        simp at hL2)]
  refine ⟨B', D', sortBy (fun a b => decide (a.1 ≤ b.1))
    (t.knnLoop px py k (16 ^ t.level_bounds.length) (t.knnSeed px py) [] none),
    hcons, hres, ?_, ?_, ?_, ?_, ?_⟩
  · exact (sortBy_perm _ _).trans hP1
  · have htot : ∀ a b : ℚ × Nat, (decide (a.1 ≤ b.1)) = false →
        (decide (b.1 ≤ a.1)) = true := by
      intro a b hf
      simp only [decide_eq_false_iff_not] at hf
      simp only [decide_eq_true_eq]
      linarith
    have htrans : ∀ a b c : ℚ × Nat, (decide (a.1 ≤ b.1)) = true →
        (decide (b.1 ≤ c.1)) = true → (decide (a.1 ≤ c.1)) = true := by
      intro a b c hab hbc
      simp only [decide_eq_true_eq] at hab hbc ⊢
      linarith
    exact (sortBy_pairwise _ htot htrans _).imp (fun hab => of_decide_eq_true hab)
  · rw [(sortBy_perm _ _).length_eq]
    exact hP3
  · rw [(sortBy_perm _ _).length_eq]
    exact hP4
  · intro ℓ hℓ p hp
    exact hP5 ℓ hℓ p ((sortBy_perm _ _).mem_iff.mp hp)

end KnnLemmas

set_option maxRecDepth 8000 in
/-- `C1` (code_bug evidence): `query_intersecting_id` rejects out-of-range
ids with the claimed descriptive error, but on a success it queries the box
stored at leaf POSITION `item_id` (`get_box(item_id)`), not the box of the
ITEM with id `item_id`.  On the 17-item input the Hilbert sort moves item 0
(the isolated box, still reported by `get 0`) away from position 0, so
`query_intersecting_id 0` returns the neighbours of whatever item landed at
position 0.  Queried with item 0's true box and id-filtered as the claim
prescribes, the result would be `[]`, which differs. -/
theorem C1_query_intersecting_id_position_bug :
    (∀ (t : HilbertRTree) (item_id : Nat), t.num_items ≤ item_id →
      t.query_intersecting_id item_id =
        Except.error ("item_id " ++ toString item_id ++
          " is out of bounds (tree has " ++ toString t.num_items ++ " items)")) ∧
    (buildTree items17).get 0 = some (100, 100, 101, 101) ∧
    (buildTree items17).query_intersecting_id 0 = Except.ok [1, 2, 6, 5] ∧
    ((buildTree items17).query_intersecting 100 100 101 101).filter
      (fun idx => decide (idx ≠ 0)) = [] ∧
    (buildTree items17).query_intersecting_id 0 ≠
      Except.ok (((buildTree items17).query_intersecting 100 100 101 101).filter
        (fun idx => decide (idx ≠ 0))) := by
  have h2 : (buildTree items17).get 0 = some (100, 100, 101, 101) := by
    with_unfolding_all decide
  have h3 : (buildTree items17).query_intersecting_id 0 = Except.ok [1, 2, 6, 5] := by
    with_unfolding_all rfl
  have h4 : ((buildTree items17).query_intersecting 100 100 101 101).filter
      (fun idx => decide (idx ≠ 0)) = [] := by
    with_unfolding_all decide
  refine ⟨?_, h2, h3, h4, ?_⟩
  · intro t item_id h
    unfold HilbertRTree.query_intersecting_id
    rw [if_pos h]
  · rw [h3, h4]
    simp

/-- Witness for `C1`'s error path at a concrete tree and out-of-range id. -/
theorem C1_witness :
    (buildTree items17).query_intersecting_id 20 =
      Except.error ("item_id " ++ toString 20 ++ " is out of bounds (tree has " ++
        toString (buildTree items17).num_items ++ " items)") :=
  C1_query_intersecting_id_position_bug.1 (buildTree items17) 20 (by decide)

/-- `C10`: `get` returns exactly the four coordinates passed to the
`item_id`-th `add` call, both on the un-built accumulating state (insertion
order, empty `level_bounds`) and after `build` (linear scan for the leaf
position holding the stored id), and `none` for out-of-range ids in both
states. -/
theorem C10_get_pre_and_post_build (items : List Box) (item_id : Nat)
    (hsz : items.length < 536870912) :
    (item_id < items.length →
      (HilbertRTree.new.addAll items).get item_id =
        some ((items.getD item_id zeroBox).min_x, (items.getD item_id zeroBox).min_y,
          (items.getD item_id zeroBox).max_x, (items.getD item_id zeroBox).max_y) ∧
      (buildTree items).get item_id =
        some ((items.getD item_id zeroBox).min_x, (items.getD item_id zeroBox).min_y,
          (items.getD item_id zeroBox).max_x, (items.getD item_id zeroBox).max_y)) ∧
    (items.length ≤ item_id →
      (HilbertRTree.new.addAll items).get item_id = none ∧
      (buildTree items).get item_id = none) := by
  constructor
  · intro hid
    have h1 : items ≠ [] := by
      intro h
      rw [h] at hid
      simp at hid
    obtain ⟨w, hco⟩ := WF_buildTree items h1 hsz
    have hn := buildTree_num_items items
    constructor
    · have hb : (HilbertRTree.new.addAll items).get_box item_id =
          items.getD item_id zeroBox := by
        show (HilbertRTree.new.addAll items).boxes.getD item_id zeroBox = _
        rw [addAll_boxes]
        rfl
      unfold HilbertRTree.get
      rw [if_neg (by rw [addAll_num_items]; simp [HilbertRTree.new]; omega)]
      rw [if_pos (show (HilbertRTree.new.addAll items).level_bounds = [] from by
        rw [addAll_level_bounds]; rfl)]
      rw [hb]
    · have hnonnil : ¬(buildTree items).level_bounds = [] := by
        intro h
        have h2 := w.hlen2
        rw [h] at h2
        simp at h2
      have hidxlen : items.length ≤ (buildTree items).indices.length := by
        have hx := w.hidxlen
        have h0 : (buildTree items).lvlEnd 0 ≤ (buildTree items).total_nodes :=
          w.lvlEnd_le_total (by have := w.hlen2; omega)
        have he0 := w.lvlEnd_zero
        omega
      unfold HilbertRTree.get
      rw [if_neg (by omega)]
      rw [if_neg hnonnil]
      have hex : ∃ pos ∈ List.range (buildTree items).num_items,
          (buildTree items).get_index pos = item_id := by
        have hlp := w.hleafperm
        rw [hn] at hlp
        have hmem : item_id ∈ (buildTree items).indices.take items.length :=
          hlp.mem_iff.mpr (List.mem_range.mpr hid)
        obtain ⟨i, hilt, hieq⟩ := List.getElem_of_mem hmem
        have hiN : i < items.length := by
          have := List.length_take_le items.length (buildTree items).indices
          omega
        refine ⟨i, by rw [List.mem_range, hn]; omega, ?_⟩
        show (buildTree items).indices.getD i 0 = item_id
        rw [List.getD_eq_getElem?_getD, List.getElem?_eq_getElem (by omega),
          Option.getD_some]
        rw [← hieq, List.getElem_take]
      split
      · rename_i pos heq
        have hp := List.find?_some heq
        have hpm := List.mem_of_find?_eq_some heq
        rw [decide_eq_true_eq] at hp
        rw [List.mem_range, hn] at hpm
        obtain ⟨-, hbox⟩ := hco pos hpm
        rw [hbox, hp]
      · rename_i heq
        exfalso
        rw [List.find?_eq_none] at heq
        obtain ⟨pos, hpm, hpd⟩ := hex
        have := heq pos hpm
        simp only [decide_eq_true_eq] at this
        exact this hpd
  · intro hge
    constructor
    · unfold HilbertRTree.get
      rw [if_pos (by rw [addAll_num_items]; simp [HilbertRTree.new]; omega)]
    · unfold HilbertRTree.get
      rw [if_pos (by rw [buildTree_num_items]; omega)]

/-- Witness for `C10` on a concrete two-item tree. -/
theorem C10_witness :
    (1 < ([⟨0, 0, 1, 1⟩, ⟨2, 2, 3, 3⟩] : List Box).length →
      (HilbertRTree.new.addAll [⟨0, 0, 1, 1⟩, ⟨2, 2, 3, 3⟩]).get 1 =
        some ((([⟨0, 0, 1, 1⟩, ⟨2, 2, 3, 3⟩] : List Box).getD 1 zeroBox).min_x,
          (([⟨0, 0, 1, 1⟩, ⟨2, 2, 3, 3⟩] : List Box).getD 1 zeroBox).min_y,
          (([⟨0, 0, 1, 1⟩, ⟨2, 2, 3, 3⟩] : List Box).getD 1 zeroBox).max_x,
          (([⟨0, 0, 1, 1⟩, ⟨2, 2, 3, 3⟩] : List Box).getD 1 zeroBox).max_y) ∧
      (buildTree [⟨0, 0, 1, 1⟩, ⟨2, 2, 3, 3⟩]).get 1 =
        some ((([⟨0, 0, 1, 1⟩, ⟨2, 2, 3, 3⟩] : List Box).getD 1 zeroBox).min_x,
          (([⟨0, 0, 1, 1⟩, ⟨2, 2, 3, 3⟩] : List Box).getD 1 zeroBox).min_y,
          (([⟨0, 0, 1, 1⟩, ⟨2, 2, 3, 3⟩] : List Box).getD 1 zeroBox).max_x,
          (([⟨0, 0, 1, 1⟩, ⟨2, 2, 3, 3⟩] : List Box).getD 1 zeroBox).max_y)) ∧
    (([⟨0, 0, 1, 1⟩, ⟨2, 2, 3, 3⟩] : List Box).length ≤ 1 →
      (HilbertRTree.new.addAll [⟨0, 0, 1, 1⟩, ⟨2, 2, 3, 3⟩]).get 1 = none ∧
      (buildTree [⟨0, 0, 1, 1⟩, ⟨2, 2, 3, 3⟩]).get 1 = none) :=
  C10_get_pre_and_post_build [⟨0, 0, 1, 1⟩, ⟨2, 2, 3, 3⟩] 1 (by decide)

/-- `C2`: on every built tree, `query_intersecting` returns exactly the ids
of the items whose boxes intersect the window (touching edges count via the
closed comparisons): every intersecting item appears, every returned id is an
in-range item whose box intersects, and no id appears twice.  The size bound
keeps the `u32` child-pointer tags of the build exact. -/
theorem C2_query_intersecting_exact (items : List Box) (mnx mny mxx mxy : ℚ)
    (h1 : items ≠ []) (hsz : items.length < 536870912) :
    (∀ i, i < items.length →
      boxIntersects mnx mny mxx mxy (items.getD i zeroBox) →
      i ∈ (buildTree items).query_intersecting mnx mny mxx mxy) ∧
    (∀ i ∈ (buildTree items).query_intersecting mnx mny mxx mxy,
      i < items.length ∧ boxIntersects mnx mny mxx mxy (items.getD i zeroBox)) ∧
    ((buildTree items).query_intersecting mnx mny mxx mxy).Nodup := by
  have hq := buildTree_query_perm items mnx mny mxx mxy h1 hsz
  refine ⟨?_, ?_, ?_⟩
  · intro i hi hbox
    rw [hq.mem_iff, List.mem_filter, List.mem_range]
    exact ⟨hi, by simpa using hbox⟩
  · intro i hi
    rw [hq.mem_iff, List.mem_filter, List.mem_range] at hi
    exact ⟨hi.1, by simpa using hi.2⟩
  · exact hq.symm.nodup (List.Nodup.filter _ (List.nodup_range _))

/-- Witness for `C2` on a concrete two-item tree and window. -/
theorem C2_witness :
    (∀ i, i < ([⟨0, 0, 1, 1⟩, ⟨3, 3, 4, 4⟩] : List Box).length →
      boxIntersects 0 0 5 5
        (([⟨0, 0, 1, 1⟩, ⟨3, 3, 4, 4⟩] : List Box).getD i zeroBox) →
      i ∈ (buildTree [⟨0, 0, 1, 1⟩, ⟨3, 3, 4, 4⟩]).query_intersecting 0 0 5 5) ∧
    (∀ i ∈ (buildTree [⟨0, 0, 1, 1⟩, ⟨3, 3, 4, 4⟩]).query_intersecting 0 0 5 5,
      i < ([⟨0, 0, 1, 1⟩, ⟨3, 3, 4, 4⟩] : List Box).length ∧
      boxIntersects 0 0 5 5
        (([⟨0, 0, 1, 1⟩, ⟨3, 3, 4, 4⟩] : List Box).getD i zeroBox)) ∧
    ((buildTree [⟨0, 0, 1, 1⟩, ⟨3, 3, 4, 4⟩]).query_intersecting 0 0 5 5).Nodup :=
  C2_query_intersecting_exact [⟨0, 0, 1, 1⟩, ⟨3, 3, 4, 4⟩] 0 0 5 5
    (by decide) (by decide)

/-- `C9`: every buffer access `query_intersecting` performs on a built tree
is in bounds: each box or index read lies below `total_nodes`, each batched
four-box read ends at or before `total_nodes`, and each child position
decoded from an internal index slot lies below `total_nodes` — on both the
flat-scan and the hierarchical path. -/
theorem C9_query_accesses_in_bounds (items : List Box)
    (mnx mny mxx mxy : ℚ) (h1 : items ≠ []) (hsz : items.length < 536870912) :
    ∀ a ∈ (buildTree items).query_intersecting_trace mnx mny mxx mxy,
      (buildTree items).accessOK a := by
  obtain ⟨w, -⟩ := WF_buildTree items h1 hsz
  have hguard : ¬((buildTree items).num_items = 0 ∨
      (buildTree items).level_bounds = []) := by
    have hx := w.hN
    have h2 := w.hlen2
    rintro (h | h)
    · omega
    · rw [h] at h2
      simp at h2
  unfold HilbertRTree.query_intersecting_trace HilbertRTree.query_intersecting_full
  rw [if_neg hguard]
  show ∀ a ∈ (if (((buildTree items).bounds.getD zeroBox).max_x -
      ((buildTree items).bounds.getD zeroBox).min_x) *
      (((buildTree items).bounds.getD zeroBox).max_y -
        ((buildTree items).bounds.getD zeroBox).min_y) * (1 / 2) <
      (mxx - mnx) * (mxy - mny) then (buildTree items).qiFlat mnx mny mxx mxy
    else (buildTree items).qiLoop mnx mny mxx mxy
      (16 ^ (buildTree items).level_bounds.length)
      ((buildTree items).total_nodes - 1) ⟨[], [], []⟩).trace,
    (buildTree items).accessOK a
  split
  · obtain ⟨-, T, htr, hT⟩ := qiFlat_fold (buildTree items) mnx mny mxx mxy
      (List.range (buildTree items).num_items) ⟨[], [], []⟩
    intro a ha
    rw [HilbertRTree.qiFlat, htr] at ha
    simp only [List.nil_append] at ha
    obtain ⟨p, hp, hap⟩ := hT a ha
    rw [List.mem_range] at hp
    have hptot : p < (buildTree items).total_nodes := by
      have h0 : (buildTree items).lvlEnd 0 ≤ (buildTree items).total_nodes :=
        w.lvlEnd_le_total (by have := w.hlen2; omega)
      have he0 := w.lvlEnd_zero
      omega
    rcases hap with h | h
    · rw [h]
      exact hptot
    · rw [h]
      exact hptot
  · obtain ⟨T, htr, hT⟩ := w.qiLoop_trace mnx mny mxx mxy
      (16 ^ (buildTree items).level_bounds.length)
      ((buildTree items).level_bounds.length - 1)
      ((buildTree items).total_nodes - 1) [] [] [] w.root_chunk (by simp)
    simp only [List.map_nil] at htr
    intro a ha
    rw [htr] at ha
    simp only [List.nil_append] at ha
    exact hT a ha

/-- Witness for `C9` on a concrete two-item tree and window. -/
theorem C9_witness :
    ([⟨0, 0, 1, 1⟩, ⟨3, 3, 4, 4⟩] : List Box) ≠ [] ∧
    ([⟨0, 0, 1, 1⟩, ⟨3, 3, 4, 4⟩] : List Box).length < 536870912 ∧
    ∀ a ∈ (buildTree [⟨0, 0, 1, 1⟩, ⟨3, 3, 4, 4⟩]).query_intersecting_trace
      0 0 2 2, (buildTree [⟨0, 0, 1, 1⟩, ⟨3, 3, 4, 4⟩]).accessOK a :=
  ⟨by decide, by decide,
    C9_query_accesses_in_bounds [⟨0, 0, 1, 1⟩, ⟨3, 3, 4, 4⟩] 0 0 2 2
      (by decide) (by decide)⟩

/-- `C5`: on every built tree the flat-scan path and the hierarchical
work-queue path of `query_intersecting` emit the same ids (up to traversal
order), so the 0.5-of-bounds-area threshold choice never changes the returned
item set. -/
theorem C5_flat_hier_equiv (items : List Box) (mnx mny mxx mxy : ℚ)
    (h1 : items ≠ []) (hsz : items.length < 536870912) :
    (((buildTree items).qiFlat mnx mny mxx mxy).results).Perm
      (((buildTree items).qiLoop mnx mny mxx mxy
        (16 ^ (buildTree items).level_bounds.length)
        ((buildTree items).total_nodes - 1) ⟨[], [], []⟩).results) := by
  obtain ⟨w, -⟩ := WF_buildTree items h1 hsz
  have hflat := (qiFlat_fold (buildTree items) mnx mny mxx mxy
    (List.range (buildTree items).num_items) ⟨[], [], []⟩).1
  have hloop := w.qiLoop_root_perm mnx mny mxx mxy
  show (((buildTree items).qiFlat mnx mny mxx mxy).results).Perm _
  rw [HilbertRTree.qiFlat, hflat]
  simp only [List.nil_append]
  exact hloop.symm

/-- Witness for `C5` on a concrete two-item tree and window. -/
theorem C5_witness :
    (((buildTree [⟨0, 0, 1, 1⟩, ⟨3, 3, 4, 4⟩]).qiFlat 0 0 2 2).results).Perm
      (((buildTree [⟨0, 0, 1, 1⟩, ⟨3, 3, 4, 4⟩]).qiLoop 0 0 2 2
        (16 ^ (buildTree [⟨0, 0, 1, 1⟩, ⟨3, 3, 4, 4⟩]).level_bounds.length)
        ((buildTree [⟨0, 0, 1, 1⟩, ⟨3, 3, 4, 4⟩]).total_nodes - 1)
        ⟨[], [], []⟩).results) :=
  C5_flat_hier_equiv [⟨0, 0, 1, 1⟩, ⟨3, 3, 4, 4⟩] 0 0 2 2 (by decide) (by decide)

/-- `C6`: building from `1 ≤ N ≤ 16` items yields exactly two levels (the `N`
leaves and one root at position `N`): `level_bounds = [N, N + 1]`,
`total_nodes = N + 1`, the leaf boxes stay in insertion order followed by the
root box which is the global MBR of the added items, and the index array is
the identity on the leaves followed by the root's first-child pointer `0`. -/
theorem C6_small_tree_shape (items : List Box) (h1 : items ≠ [])
    (h2 : items.length ≤ 16) :
    (buildTree items).level_bounds = [items.length, items.length + 1] ∧
    (buildTree items).total_nodes = items.length + 1 ∧
    (buildTree items).boxes = items ++ [(globalBounds items).getD zeroBox] ∧
    (buildTree items).indices = List.range items.length ++ [0] := by
  have hlen : 1 ≤ items.length := by
    cases items with
    | nil => simp at h1
    | cons b rest => simp
  unfold buildTree HilbertRTree.build
  rw [addAll_num_items, addAll_node_size, addAll_boxes, addAll_new_bounds]
  simp only [HilbertRTree.new, Nat.zero_add, List.nil_append]
  have hne : ¬ items.length = 0 := by omega
  rw [if_neg hne, if_pos h2]
  rw [buildCounts_small items.length hlen h2]
  simp [accBounds]

/-- Witness for `C6` on a concrete three-item tree. -/
theorem C6_witness :
    (buildTree [⟨0, 0, 2, 2⟩, ⟨1, 1, 3, 3⟩, ⟨4, 4, 5, 5⟩]).level_bounds = [3, 4] ∧
    (buildTree [⟨0, 0, 2, 2⟩, ⟨1, 1, 3, 3⟩, ⟨4, 4, 5, 5⟩]).total_nodes = 4 ∧
    (buildTree [⟨0, 0, 2, 2⟩, ⟨1, 1, 3, 3⟩, ⟨4, 4, 5, 5⟩]).boxes =
      [⟨0, 0, 2, 2⟩, ⟨1, 1, 3, 3⟩, ⟨4, 4, 5, 5⟩] ++
        [(globalBounds [⟨0, 0, 2, 2⟩, ⟨1, 1, 3, 3⟩, ⟨4, 4, 5, 5⟩]).getD zeroBox] ∧
    (buildTree [⟨0, 0, 2, 2⟩, ⟨1, 1, 3, 3⟩, ⟨4, 4, 5, 5⟩]).indices =
      List.range 3 ++ [0] :=
  C6_small_tree_shape [⟨0, 0, 2, 2⟩, ⟨1, 1, 3, 3⟩, ⟨4, 4, 5, 5⟩] (by decide) (by decide)

/-- `C8`: a negative radius (`query_circle`), a negative distance or
zero-magnitude direction (`query_in_direction`, `query_in_direction_k`), and
`k = 0` in every K-bounded query (`query_intersecting_k`, `query_nearest_k`,
`query_nearest_k_points`, `query_in_direction_k`) all yield an empty result
rather than an error. -/
theorem C8_degenerate_inputs_empty_result (t : HilbertRTree)
    (cx cy r mnx mny mxx mxy dx dy dist dlen px py : ℚ) (k : Nat) :
    (r < 0 → t.query_circle cx cy r = []) ∧
    (dist < 0 → t.query_in_direction mnx mny mxx mxy dx dy dist dlen = []) ∧
    (dx = 0 → dy = 0 → t.query_in_direction mnx mny mxx mxy dx dy dist dlen = []) ∧
    (dist < 0 → t.query_in_direction_k mnx mny mxx mxy dx dy k dist dlen = []) ∧
    (dx = 0 → dy = 0 → t.query_in_direction_k mnx mny mxx mxy dx dy k dist dlen = []) ∧
    (k = 0 → t.query_intersecting_k mnx mny mxx mxy k = []) ∧
    (k = 0 → t.query_nearest_k px py k = []) ∧
    (k = 0 → t.query_nearest_k_points px py k = []) ∧
    (k = 0 → t.query_in_direction_k mnx mny mxx mxy dx dy k dist dlen = []) := by
  refine ⟨?_, ?_, ?_, ?_, ?_, ?_, ?_, ?_, ?_⟩
  · intro hr
    simp [HilbertRTree.query_circle, hr]
  · intro hd
    simp [HilbertRTree.query_in_direction, hd]
  · intro hx hy
    subst hx
    subst hy
    unfold HilbertRTree.query_in_direction
    split
    · rfl
    · norm_num
  · intro hd
    simp [HilbertRTree.query_in_direction_k, hd]
  · intro hx hy
    subst hx
    subst hy
    unfold HilbertRTree.query_in_direction_k
    split
    · rfl
    · norm_num
  · intro hk
    simp [HilbertRTree.query_intersecting_k, hk]
  · intro hk
    simp [HilbertRTree.query_nearest_k, hk]
  · intro hk
    simp [HilbertRTree.query_nearest_k_points, hk]
  · intro hk
    simp [HilbertRTree.query_in_direction_k, hk]

/-- Witness for `C8` at a concrete built tree and concrete degenerate
arguments. -/
theorem C8_witness :
    (buildTree [⟨0, 0, 1, 1⟩, ⟨2, 2, 3, 3⟩]).query_circle 0 0 (-1) = [] ∧
      (buildTree [⟨0, 0, 1, 1⟩, ⟨2, 2, 3, 3⟩]).query_in_direction 0 0 1 1 0 0 5 0 = [] ∧
      (buildTree [⟨0, 0, 1, 1⟩, ⟨2, 2, 3, 3⟩]).query_nearest_k 0 0 0 = [] := by
  have h := C8_degenerate_inputs_empty_result (buildTree [⟨0, 0, 1, 1⟩, ⟨2, 2, 3, 3⟩])
    0 0 (-1) 0 0 1 1 0 0 5 0 0 0 0
  exact ⟨h.1 (by norm_num), h.2.2.1 rfl rfl, h.2.2.2.2.2.2.1 rfl⟩

/-- `C7`: loading the image produced by `save` succeeds and restores the tree
state exactly (every persisted field round-trips), hence every query on the
loaded tree returns exactly what it returns on the original.  The `u32`
bounds are forced by the file format's 32-bit fields: the counters, each
level bound, and the buffer byte length `data_len` all travel as `u32`, and
a buffer of `2^32` bytes or more would be restored truncated. -/
theorem C7_save_load_roundtrip (t : HilbertRTree)
    (h1 : t.node_size < u32mod) (h2 : t.num_items < u32mod)
    (h3 : t.total_nodes < u32mod) (h4 : ∀ b ∈ t.level_bounds, b < u32mod)
    (h5 : t.header.length + 32 * t.boxes.length + 4 * t.indices.length < u32mod) :
    HilbertRTree.load t.save = Except.ok t := by
  unfold HilbertRTree.load HilbertRTree.save
  simp only
  norm_num
  have hdl : (t.header.length + 32 * t.boxes.length + 4 * t.indices.length) % u32mod =
      t.header.length + 32 * t.boxes.length + 4 * t.indices.length :=
    Nat.mod_eq_of_lt h5
  congr 1
  · rw [hdl]
    exact List.take_of_length_le (by omega)
  · rw [hdl]
    refine List.take_of_length_le ?_
    omega
  · rw [hdl]
    refine List.take_of_length_le ?_
    omega
  · exact List.map_congr_left (fun b hb => Nat.mod_eq_of_lt (h4 b hb)) |>.trans (List.map_id _)
  · exact Nat.mod_eq_of_lt h1
  · exact Nat.mod_eq_of_lt h2
  · exact Nat.mod_eq_of_lt h3

/-- Witness for `C7` at a concrete built tree. -/
theorem C7_witness :
    HilbertRTree.load (buildTree [⟨0, 0, 2, 2⟩, ⟨1, 1, 3, 3⟩, ⟨4, 4, 5, 5⟩]).save =
      Except.ok (buildTree [⟨0, 0, 2, 2⟩, ⟨1, 1, 3, 3⟩, ⟨4, 4, 5, 5⟩]) := by
  exact C7_save_load_roundtrip _ (by decide) (by decide) (by decide) (by decide)
    (by with_unfolding_all decide)

/-- `C4`: `query_nearest_k` with `k = 0` returns no ids; otherwise, on a
tree built from proper boxes, it returns exactly `min k N` distinct
in-range item ids ordered by non-decreasing clamped squared box distance to
the query point, returns every item when `N ≤ k`, and every item it does
not return is at least as far from the query point as every returned one
(in particular as the `k`-th returned distance). -/
theorem C4_query_nearest_k_exact (items : List Box) (px py : ℚ) (k : Nat)
    (h1 : items ≠ []) (hsz : items.length < 536870912)
    (hpr : ∀ b ∈ items, b.min_x ≤ b.max_x ∧ b.min_y ≤ b.max_y) :
    (k = 0 → (buildTree items).query_nearest_k px py k = []) ∧
    ((buildTree items).query_nearest_k px py k).length = min k items.length ∧
    (∀ i ∈ (buildTree items).query_nearest_k px py k, i < items.length) ∧
    ((buildTree items).query_nearest_k px py k).Nodup ∧
    (items.length ≤ k → ∀ i, i < items.length →
      i ∈ (buildTree items).query_nearest_k px py k) ∧
    (((buildTree items).query_nearest_k px py k).map
        (fun i => HilbertRTree.boxDistSq px py (items.getD i zeroBox))).Chain'
      (· ≤ ·) ∧
    (∀ i, i < items.length → i ∉ (buildTree items).query_nearest_k px py k →
      ∀ d ∈ ((buildTree items).query_nearest_k px py k).map
        (fun i => HilbertRTree.boxDistSq px py (items.getD i zeroBox)),
        d ≤ HilbertRTree.boxDistSq px py (items.getD i zeroBox)) := by
  have hN1 : 0 < items.length := List.length_pos.mpr h1
  by_cases hk0 : k = 0
  · subst hk0
    have hres0 : (buildTree items).query_nearest_k px py 0 = [] := by
      unfold HilbertRTree.query_nearest_k
      rw [if_pos (Or.inr (Or.inr rfl))]
    rw [hres0]
    refine ⟨fun _ => rfl, by simp, by simp, List.nodup_nil, ?_, by simp, by simp⟩
    intro hNk
    exact absurd hN1 (by omega)
  · obtain ⟨hw, hcoh⟩ := WF_buildTree items h1 hsz
    have hn := buildTree_num_items items
    have hproper : ∀ ℓ, ℓ < (buildTree items).num_items →
        ((buildTree items).get_box ℓ).min_x ≤ ((buildTree items).get_box ℓ).max_x ∧
        ((buildTree items).get_box ℓ).min_y ≤ ((buildTree items).get_box ℓ).max_y := by
      intro ℓ hℓ
      rw [hn] at hℓ
      obtain ⟨hidx, hbox⟩ := hcoh ℓ hℓ
      rw [hbox]
      exact hpr _ (getD_mem items _ zeroBox hidx)
    obtain ⟨B', D', P, hcons, hres, hPB, hsort, hlen, hltD, hthr⟩ :=
      hw.query_nearest_k_spec hproper px py k (by omega)
    rw [hn] at hcons
    have hBsub : ∀ ℓ ∈ B', ℓ < items.length := by
      intro ℓ h
      have hm := hcons.mem_iff.mp (List.mem_append.mpr (Or.inl h))
      rw [List.mem_range] at hm
      exact hm
    have hDsub : ∀ ℓ ∈ D', ℓ < items.length := by
      intro ℓ h
      have hm := hcons.mem_iff.mp (List.mem_append.mpr (Or.inr h))
      rw [List.mem_range] at hm
      exact hm
    have hlenBD : B'.length + D'.length = items.length := by
      have h := hcons.length_eq
      simp only [List.length_append, List.length_range] at h
      exact h
    have hPlen : P.length = B'.length := by
      rw [hPB.length_eq, List.length_map]
    have hresPerm : ((buildTree items).query_nearest_k px py k).Perm
        (B'.map (fun ℓ => (buildTree items).get_index ℓ)) := by
      rw [hres]
      refine (hPB.map (fun p => p.2)).trans ?_
      rw [List.map_map]
      exact List.Perm.refl _
    have hreslen : ((buildTree items).query_nearest_k px py k).length = P.length := by
      rw [hres, List.length_map]
    have hlp : ((buildTree items).indices.take items.length).Perm
        (List.range items.length) := by
      have h := hw.hleafperm
      rw [hn] at h
      exact h
    have hmapN : (List.range items.length).map
        (fun ℓ => (buildTree items).get_index ℓ) =
        (buildTree items).indices.take items.length := by
      refine map_getD_range_eq_take _ 0 _ ?_
      have hx := hw.hidxlen
      have h0 : (buildTree items).lvlEnd 0 ≤ (buildTree items).total_nodes :=
        hw.lvlEnd_le_total (by have := hw.hlen2; omega)
      have he0 := hw.lvlEnd_zero
      omega
    have hndmap : ((List.range items.length).map
        (fun ℓ => (buildTree items).get_index ℓ)).Nodup := by
      rw [hmapN]
      exact (hlp.nodup_iff).mpr (List.nodup_range _)
    have hinj : ∀ p₁ ∈ List.range items.length, ∀ p₂ ∈ List.range items.length,
        (buildTree items).get_index p₁ = (buildTree items).get_index p₂ → p₁ = p₂ :=
      List.inj_on_of_nodup_map hndmap
    have hBD_nodup : (B' ++ D').Nodup := hcons.nodup_iff.mpr (List.nodup_range _)
    have hB'nodup : B'.Nodup := hBD_nodup.of_append_left
    have hnodup : ((buildTree items).query_nearest_k px py k).Nodup := by
      rw [hresPerm.nodup_iff]
      refine hB'nodup.map_on ?_
      intro x hx y hy hxy
      exact hinj x (List.mem_range.mpr (hBsub x hx)) y
        (List.mem_range.mpr (hBsub y hy)) hxy
    have hmemlt : ∀ i ∈ (buildTree items).query_nearest_k px py k,
        i < items.length := by
      intro i hi
      obtain ⟨ℓ, hℓ, rfl⟩ := List.mem_map.mp (hresPerm.mem_iff.mp hi)
      exact (hcoh ℓ (hBsub ℓ hℓ)).1
    have hlength : ((buildTree items).query_nearest_k px py k).length =
        min k items.length := by
      rw [hreslen]
      by_cases hc : P.length < k
      · have hD0 := hltD hc
        rw [hD0] at hlenBD
        simp only [List.length_nil] at hlenBD
        omega
      · omega
    have hcomplete : items.length ≤ k → ∀ i, i < items.length →
        i ∈ (buildTree items).query_nearest_k px py k := by
      intro hNk i hi
      have hsubset : ∀ j ∈ (buildTree items).query_nearest_k px py k,
          j ∈ List.range items.length :=
        fun j hj => List.mem_range.mpr (hmemlt j hj)
      have hsp := List.subperm_of_subset hnodup hsubset
      have hperm := hsp.perm_of_length_le (by
        rw [List.length_range, hlength]
        omega)
      exact hperm.mem_iff.mpr (List.mem_range.mpr hi)
    have hmapeq : P.map ((fun i => HilbertRTree.boxDistSq px py
        (items.getD i zeroBox)) ∘ (fun p : ℚ × Nat => p.2)) =
        P.map (fun p => p.1) := by
      refine List.map_congr_left ?_
      intro p hp
      obtain ⟨ℓ, hℓ, rfl⟩ := List.mem_map.mp (hPB.mem_iff.mp hp)
      obtain ⟨hidx, hbox⟩ := hcoh ℓ (hBsub ℓ hℓ)
      show HilbertRTree.boxDistSq px py
          (items.getD ((buildTree items).get_index ℓ) zeroBox) =
        HilbertRTree.boxDistSq px py ((buildTree items).get_box ℓ)
      rw [hbox]
    have hchain : (((buildTree items).query_nearest_k px py k).map
        (fun i => HilbertRTree.boxDistSq px py (items.getD i zeroBox))).Chain'
        (· ≤ ·) := by
      rw [hres, List.map_map, hmapeq]
      rw [List.chain'_iff_pairwise]
      exact List.pairwise_map.mpr hsort
    have hcut : ∀ i, i < items.length →
        i ∉ (buildTree items).query_nearest_k px py k →
        ∀ d ∈ ((buildTree items).query_nearest_k px py k).map
          (fun i => HilbertRTree.boxDistSq px py (items.getD i zeroBox)),
          d ≤ HilbertRTree.boxDistSq px py (items.getD i zeroBox) := by
      intro i hi hni d hd
      have hmap_all : ((B' ++ D').map
          (fun ℓ => (buildTree items).get_index ℓ)).Perm
          (List.range items.length) := by
        refine (hcons.map _).trans ?_
        rw [hmapN]
        exact hlp
      have hiin : i ∈ (B' ++ D').map (fun ℓ => (buildTree items).get_index ℓ) :=
        hmap_all.mem_iff.mpr (List.mem_range.mpr hi)
      obtain ⟨ℓ, hℓ, hℓi⟩ := List.mem_map.mp hiin
      have hℓD : ℓ ∈ D' := by
        rcases List.mem_append.mp hℓ with hB2 | hD2
        · exfalso
          exact hni (hresPerm.mem_iff.mpr (List.mem_map.mpr ⟨ℓ, hB2, hℓi⟩))
        · exact hD2
      obtain ⟨j, hj, hdj⟩ := List.mem_map.mp hd
      rw [hres] at hj
      obtain ⟨p, hp, rfl⟩ := List.mem_map.mp hj
      have hpd := hthr ℓ hℓD p hp
      obtain ⟨ℓ₂, hℓ₂, hpe⟩ := List.mem_map.mp (hPB.mem_iff.mp hp)
      obtain ⟨hidx2, hbox2⟩ := hcoh ℓ₂ (hBsub ℓ₂ hℓ₂)
      obtain ⟨hidx3, hbox3⟩ := hcoh ℓ (hDsub ℓ hℓD)
      rw [← hdj, ← hℓi]
      have hL : HilbertRTree.boxDistSq px py (items.getD p.2 zeroBox) = p.1 := by
        rw [← hpe]
        show HilbertRTree.boxDistSq px py
            (items.getD ((buildTree items).get_index ℓ₂) zeroBox) =
          HilbertRTree.boxDistSq px py ((buildTree items).get_box ℓ₂)
        rw [hbox2]
      have hR : HilbertRTree.boxDistSq px py
          (items.getD ((buildTree items).get_index ℓ) zeroBox) =
          HilbertRTree.boxDistSq px py ((buildTree items).get_box ℓ) := by
        rw [hbox3]
      rw [hL, hR]
      exact hpd
    exact ⟨fun h0 => absurd h0 hk0, hlength, hmemlt, hnodup, hcomplete, hchain, hcut⟩

/-- Witness for `C4` on a concrete two-item tree with `k = 1`. -/
theorem C4_witness :
    ([⟨0, 0, 1, 1⟩, ⟨5, 5, 6, 6⟩] : List Box) ≠ [] ∧
    ([⟨0, 0, 1, 1⟩, ⟨5, 5, 6, 6⟩] : List Box).length < 536870912 ∧
    (∀ b ∈ ([⟨0, 0, 1, 1⟩, ⟨5, 5, 6, 6⟩] : List Box),
      b.min_x ≤ b.max_x ∧ b.min_y ≤ b.max_y) ∧
    ((1 = 0 → (buildTree [⟨0, 0, 1, 1⟩, ⟨5, 5, 6, 6⟩]).query_nearest_k 0 0 1 = []) ∧
      ((buildTree [⟨0, 0, 1, 1⟩, ⟨5, 5, 6, 6⟩]).query_nearest_k 0 0 1).length =
        min 1 ([⟨0, 0, 1, 1⟩, ⟨5, 5, 6, 6⟩] : List Box).length ∧
      (∀ i ∈ (buildTree [⟨0, 0, 1, 1⟩, ⟨5, 5, 6, 6⟩]).query_nearest_k 0 0 1,
        i < ([⟨0, 0, 1, 1⟩, ⟨5, 5, 6, 6⟩] : List Box).length) ∧
      ((buildTree [⟨0, 0, 1, 1⟩, ⟨5, 5, 6, 6⟩]).query_nearest_k 0 0 1).Nodup ∧
      (([⟨0, 0, 1, 1⟩, ⟨5, 5, 6, 6⟩] : List Box).length ≤ 1 →
        ∀ i, i < ([⟨0, 0, 1, 1⟩, ⟨5, 5, 6, 6⟩] : List Box).length →
          i ∈ (buildTree [⟨0, 0, 1, 1⟩, ⟨5, 5, 6, 6⟩]).query_nearest_k 0 0 1) ∧
      (((buildTree [⟨0, 0, 1, 1⟩, ⟨5, 5, 6, 6⟩]).query_nearest_k 0 0 1).map
          (fun i => HilbertRTree.boxDistSq 0 0
            (([⟨0, 0, 1, 1⟩, ⟨5, 5, 6, 6⟩] : List Box).getD i zeroBox))).Chain'
        (· ≤ ·) ∧
      (∀ i, i < ([⟨0, 0, 1, 1⟩, ⟨5, 5, 6, 6⟩] : List Box).length →
        i ∉ (buildTree [⟨0, 0, 1, 1⟩, ⟨5, 5, 6, 6⟩]).query_nearest_k 0 0 1 →
        ∀ d ∈ ((buildTree [⟨0, 0, 1, 1⟩, ⟨5, 5, 6, 6⟩]).query_nearest_k 0 0 1).map
          (fun i => HilbertRTree.boxDistSq 0 0
            (([⟨0, 0, 1, 1⟩, ⟨5, 5, 6, 6⟩] : List Box).getD i zeroBox)),
          d ≤ HilbertRTree.boxDistSq 0 0
            (([⟨0, 0, 1, 1⟩, ⟨5, 5, 6, 6⟩] : List Box).getD i zeroBox))) :=
  ⟨by decide, by decide, by with_unfolding_all decide,
    C4_query_nearest_k_exact [⟨0, 0, 1, 1⟩, ⟨5, 5, 6, 6⟩] 0 0 1 (by decide)
      (by decide) (by with_unfolding_all decide)⟩

end Aabb
